import Mathlib

/-!
# bhojpur/risk: the INI tree parser, the expression compiler front end and the
# connection hub, embedded in Lean

Go strings are byte sequences; every string operation the code uses
(`strings.Split`, `strings.Trim`, `strings.Index`, `strings.HasPrefix`, slicing,
`len`) works on bytes, so a string is a `List Nat` of byte values here.
-/

namespace Risk

/-! ## Strings -/

/-- A Go string: its bytes in order. -/
abbrev GoString := List Nat

/-- The bytes of an ASCII text. -/
def str (s : String) : GoString := s.data.map Char.toNat

/-- The function `strings.Split(s, sep)` for a one-byte separator: the pieces
between separators, one more piece than there are separators. -/
def Split (sep : Nat) : GoString → List GoString
  | [] => [[]]
  | c :: cs =>
    if c = sep then [] :: Split sep cs
    else
      match Split sep cs with
      | [] => [[c]]
      | l :: ls => (c :: l) :: ls

/-- The function `strings.Join(parts, sep)` for a one-byte separator. -/
def Join (sep : Nat) : List GoString → GoString
  | [] => []
  | [l] => l
  | l :: l2 :: ls => l ++ sep :: Join sep (l2 :: ls)

/-- Bytes removed from the right end while they satisfy `p`. -/
def dropRightWhile (p : Nat → Bool) (s : GoString) : GoString :=
  (s.reverse.dropWhile p).reverse

/-- The function `strings.Trim(s, cutset)` for an ASCII cutset: the bytes of the
cutset are removed from both ends. -/
def Trim (s : GoString) (cutset : GoString) : GoString :=
  dropRightWhile (fun c => decide (c ∈ cutset)) (s.dropWhile (fun c => decide (c ∈ cutset)))

/-- The cutset `" \t\n\r"` of both source files. -/
def blanks : GoString := [32, 9, 10, 13]

/-- The function `strings.Index(s, sep)` for a one-byte separator: the index of
its first occurrence, `-1` when there is none. -/
def Index (s : GoString) (sep : Nat) : Int :=
  if sep ∈ s then (s.indexOf sep : Nat) else -1

/-- A Go slice expression `s[lo:hi]` on a string: a run-time panic (`none`)
unless `lo ≤ hi ≤ len(s)`. -/
def slice (s : GoString) (lo hi : Nat) : Option GoString :=
  if lo ≤ hi ∧ hi ≤ s.length then some ((s.take hi).drop lo) else none

/-- The function `strconv.Itoa` on a non-negative number. -/
def Itoa (n : Nat) : GoString := (Nat.toDigits 10 n).map Char.toNat

/-- The function `strings.HasPrefix`. -/
def HasPrefix (s p : GoString) : Bool := p.isPrefixOf s

/-! ## `ini.go` -/

/-- The struct `IniSection`. Pointers to sections are indices into the heap of
allocated sections; `Parent = none` is the nil pointer. The two Go maps are
association lists, the newest binding first. -/
structure IniSection where
  ValueMap : List (GoString × (GoString × GoString))
  SectionMap : List (GoString × Nat)
  Values : List (GoString × GoString × GoString)
  Sections : List Nat
  Parent : Option Nat
  Depth : Nat
  Name : GoString
deriving DecidableEq, Repr

/-- All sections allocated so far; a `*IniSection` is an index into it. -/
abbrev Heap := List IniSection

/-- The struct `IniErrSyntax`. -/
structure IniErrSyntax where
  Line : Nat
  Text : GoString
deriving DecidableEq, Repr

/-- What a call can do: return a value, return an error, or panic at run time
(slice bounds out of range, nil dereference, index out of range, a failed type
assertion). -/
inductive Outcome (α ε : Type) where
  | ret (a : α)
  | fail (e : ε)
  | panic
deriving DecidableEq, Repr

/-- The function `newSection`: allocates the section and, when the parent is not
nil, enters it in the parent's `SectionMap` and appends it to `Sections`. -/
def newSection (H : Heap) (name : GoString) (depth : Nat) (parent : Option Nat) : Heap × Nat :=
  let s := H.length
  let H1 := H ++ [{ Name := name, Depth := depth, Parent := parent,
                    ValueMap := [], SectionMap := [], Values := [], Sections := [] }]
  match parent with
  | none => (H1, s)
  | some p =>
    match H1[p]? with
    | none => (H1, s)
    | some par =>
      (H1.set p { par with SectionMap := (name, s) :: par.SectionMap,
                           Sections := par.Sections ++ [s] }, s)

/-- The loop `for i := 0; i < n; i++ { s = s.Parent }` followed by the use of
`s`: once `s` is nil the next `s.Parent` or the following `parent.SectionMap`
dereferences nil, so reaching nil is a panic (`none`). -/
def walkUp (H : Heap) : Nat → Nat → Option Nat
  | 0, s => some s
  | n + 1, s =>
    match H[s]? with
    | none => none
    | some sec =>
      match sec.Parent with
      | none => none
      | some p => walkUp H n p

/-- The number of leading `[` bytes, as the loop of lines 83-89 counts them. -/
def bracketDepth (line : GoString) : Nat := (line.takeWhile (fun c => c == 91)).length

/-- The parser state between two lines: the heap and the current section `s`. -/
abbrev IniState := Heap × Nat

/-- One iteration of the loop of `ParseIni` on line number `ln` (1-based). -/
def stepLine (st : IniState) (ln : Nat) (raw : GoString) : Outcome IniState IniErrSyntax :=
  let H := st.1
  let s := st.2
  let line := Trim raw blanks
  match line with
  | [] => .ret st
  | c :: _ =>
    if c = 35 ∨ c = 59 then .ret st
    else if c = 91 then
      let depth := bracketDepth line
      match slice line depth (line.length - depth) with
      | none => .panic
      | some sname =>
        match H[s]? with
        | none => .panic
        | some cur =>
          if depth > cur.Depth + 1 then
            .fail { Line := ln, Text := str "section with wrong depth" }
          else
            match walkUp H (cur.Depth + 1 - depth) s with
            | none => .panic
            | some parent =>
              match H[parent]? with
              | none => .panic
              | some par =>
                match par.SectionMap.lookup sname with
                | some _ =>
                  .fail { Line := ln, Text := str "duplicate section name on the same level" }
                | none => .ret (newSection H sname depth (some parent))
    else
      let n := Index line 61
      if n ≤ 0 then .ret st
      else
        let a := Trim (line.take n.toNat) blanks
        let b := Trim (line.drop (n.toNat + 1)) blanks
        match H[s]? with
        | none => .panic
        | some cur =>
          match cur.ValueMap.lookup a with
          | some _ =>
            .fail { Line := ln, Text := str "duplicate section name on the same level" }
          | none =>
            let lns := Itoa ln
            .ret (H.set s { cur with ValueMap := (a, (b, lns)) :: cur.ValueMap,
                                     Values := cur.Values ++ [(a, b, lns)] }, s)

/-- The loop `for ln, line := range lines` from index `i` on. -/
def parseLines : List GoString → Nat → IniState → Outcome IniState IniErrSyntax
  | [], _, st => .ret st
  | l :: ls, i, st =>
    match stepLine st (i + 1) l with
    | .ret st1 => parseLines ls (i + 1) st1
    | .fail e => .fail e
    | .panic => .panic

/-- The function `ParseIni`: the heap of sections and the pointer `top` to the
root, or the syntax error, or a panic. -/
def ParseIni (text : GoString) : Outcome (Heap × Nat) IniErrSyntax :=
  let init := newSection [] [] 0 none
  match parseLines (Split 10 text) 0 init with
  | .ret st => .ret (st.1, init.2)
  | .fail e => .fail e
  | .panic => .panic

/-! ## `expr.go` -/

/-- The value of a run of decimal digits, `none` when a byte is not a digit. -/
def digitsValue : GoString → Nat → Option Nat
  | [], acc => some acc
  | c :: cs, acc => if 48 ≤ c ∧ c ≤ 57 then digitsValue cs (acc * 10 + (c - 48)) else none

/-- The function `strconv.Atoi` on a 64-bit platform: an optional sign, then one
or more decimal digits, with a value in the `int` range; `none` is an error. -/
def Atoi (s : GoString) : Option Int :=
  let body : GoString := match s with
    | [] => []
    | c :: cs => if c = 45 ∨ c = 43 then cs else s
  match body with
  | [] => none
  | _ :: _ =>
    match digitsValue body 0 with
    | none => none
    | some v =>
      let n : Int := if s.head? = some 45 then -(v : Int) else (v : Int)
      if -(2 : Int) ^ 63 ≤ n ∧ n < (2 : Int) ^ 63 then some n else none

/-- A mathematical integer reduced to the 64-bit two's-complement `int` that Go
arithmetic yields. -/
def wrap64 (x : Int) : Int := (x + (2 : Int) ^ 63) % (2 : Int) ^ 64 - (2 : Int) ^ 63

/-- The struct `Expression`: `E` is nil for a `call` formula, `N` is the array
`[2]int` as the pair `(N[0], N[1])`, `C` the array `[3]string`. -/
structure Expression (E : Type) where
  E : Option E
  A : GoString
  N : Int × Int
  C : GoString × GoString × GoString
deriving DecidableEq, Repr

/-- What `ParseExpr` uses and `src/` does not hold: the package function
`split`, `fmt.Errorf` applied to a format without operands, `reflect.TypeOf`
with `Type.String`, and the govaluate calls. Each govaluate call returns a
result or an error text, or panics: `compile` is
`NewEvaluableExpressionWithFunctions(expr, predefinedFunctions)`, `evaluate` is
`Evaluate` on an empty position, which runs the functions of
`predefinedFunctions` with their unchecked `args[0].(float64)`; `compileCall`
is the compilation with the `call` closure and `dryRun` is `e.Evaluate(nil)`,
which runs that closure with its unchecked `args[0].(string)` and yields the
module, function and payload it captured. -/
structure ExprLib (E V P T : Type) where
  split : GoString → GoString → List GoString
  Errorf : GoString → GoString
  compile : GoString → Outcome E GoString
  compileCall : GoString → Outcome E GoString
  dryRun : E → GoString → Outcome (GoString × GoString × GoString) GoString
  evaluate : E → P → Outcome V GoString
  typeOf : V → T
  typeString : T → GoString

/-- The format `"invalid " + name + " expression on line " + ln + ": " + expr + ": " + tail`. -/
def invalidFormat (name ln expr tail : GoString) : GoString :=
  str "invalid " ++ name ++ str " expression on line " ++ ln ++ str ": " ++ expr ++ str ": " ++ tail

/-- The format `"invalid top expression on line " + ln + ": " + expr + tail`. -/
def invalidTopFormat (ln expr tail : GoString) : GoString :=
  str "invalid top expression on line " ++ ln ++ str ": " ++ expr ++ tail

/-- Lines 196-217 of `ParseExpr`: the text left in `expr` is compiled, evaluated
once on an empty position, and its type compared with the value template. A
panic inside the compiler or the evaluator is a panic of `ParseExpr`. -/
def compileScalar {E V P T : Type} [DecidableEq T] (L : ExprLib E V P T)
    (ln name : GoString) (params : P) (valueTmpl : Option V)
    (a : GoString) (n : Int × Int) (expr : GoString) : Outcome (Expression E) GoString :=
  match L.compile expr with
  | .panic => .panic
  | .fail err => .fail (L.Errorf (invalidFormat name ln expr err))
  | .ret e =>
    match L.evaluate e params with
    | .panic => .panic
    | .fail err2 => .fail (L.Errorf (invalidFormat name ln expr err2))
    | .ret v =>
      match valueTmpl with
      | none => .ret { E := some e, A := a, N := n, C := ([], [], []) }
      | some tmpl =>
        if L.typeOf v ≠ L.typeOf tmpl then
          .fail (L.Errorf (invalidFormat name ln expr
            (str "which must return " ++ L.typeString (L.typeOf tmpl))))
        else .ret { E := some e, A := a, N := n, C := ([], [], []) }

/-- Lines 127-150 of `ParseExpr`: the argument list of `top(...)`, already cut
out of the formula. The result is `N` and the text left in `expr`. -/
def topArguments {E V P T : Type} (L : ExprLib E V P T) (ln expr : GoString) :
    Outcome ((Int × Int) × GoString) GoString :=
  let fields := L.split expr (str ",")
  if fields.length > 1 then
    let expr1 := fields.headD []
    match Atoi (fields.getD (fields.length - 1) []) with
    | none => .fail (L.Errorf (invalidTopFormat ln expr1 (str ": bad top length")))
    | some i =>
      if fields.length > 2 then
        match Atoi (fields.getD (fields.length - 2) []) with
        | none => .fail (L.Errorf (invalidTopFormat ln expr1 (str ": bad top length")))
        | some j => .ret ((if wrap64 (i * j) < 0 then j else 0, i), expr1)
      else .ret ((0, i), expr1)
  else .fail (L.Errorf (invalidTopFormat ln expr (str ": missing top length")))

/-- Lines 152-194 of `ParseExpr`: a `call(...)` formula is compiled with the
`call` closure and run once. A panic inside the compiler or the closure is a
panic of `ParseExpr`. -/
def compileCallExpr {E V P T : Type} (L : ExprLib E V P T)
    (ln expr name path : GoString) : Outcome (Expression E) GoString :=
  match L.compileCall expr with
  | .panic => .panic
  | .fail err => .fail (L.Errorf (invalidFormat name ln expr err))
  | .ret e =>
    match L.dryRun e path with
    | .panic => .panic
    | .fail err => .fail (L.Errorf (invalidFormat name ln expr err))
    | .ret (m, f, p) => .ret { E := none, A := str "call", N := (0, 0), C := (m, f, p) }

/-- The function `ParseExpr`. A slice `expr[k : len(expr)-1]` whose bounds cross
is a panic, and so is a panic of a library call. -/
def ParseExpr {E V P T : Type} [DecidableEq T] (L : ExprLib E V P T)
    (ln expr name : GoString) (params : P) (valueTmpl : Option V) (path : GoString) :
    Outcome (Expression E) GoString :=
  if HasPrefix expr (str "sum(") then
    match slice expr 4 (expr.length - 1) with
    | none => .panic
    | some expr1 => compileScalar L ln name params valueTmpl (str "sum") (0, 0) expr1
  else if HasPrefix expr (str "len(") then
    match slice expr 4 (expr.length - 1) with
    | none => .panic
    | some expr1 => compileScalar L ln name params valueTmpl (str "len") (0, 0) expr1
  else if HasPrefix expr (str "mean(") then
    match slice expr 5 (expr.length - 1) with
    | none => .panic
    | some expr1 => compileScalar L ln name params valueTmpl (str "mean") (0, 0) expr1
  else if HasPrefix expr (str "std(") then
    match slice expr 4 (expr.length - 1) with
    | none => .panic
    | some expr1 => compileScalar L ln name params valueTmpl (str "std") (0, 0) expr1
  else if HasPrefix expr (str "top(") then
    match slice expr 4 (expr.length - 1) with
    | none => .panic
    | some expr1 =>
      match topArguments L ln expr1 with
      | .panic => .panic
      | .fail m => .fail m
      | .ret (n, expr2) => compileScalar L ln name params valueTmpl (str "top") n expr2
  else if HasPrefix expr (str "call(") then
    compileCallExpr L ln expr name path
  else compileScalar L ln name params valueTmpl [] (0, 0) expr

/-! ## `main.go`: the registry and the dispatch loop -/

/-- An `interface{}` value as the hub handles it: a message element decoded from
JSON or appended by the hub, or an element of an outgoing envelope. Only strings
and the `int64` token are inspected; any other value (number, boolean, map,
slice, report, history) is `data` with a mark telling whether `json.Marshal`
can encode it; `method` is a method value such as `err.Error`, which it cannot. -/
inductive GoVal where
  | null
  | string (s : GoString)
  | int64 (n : Int)
  | data (id : Nat) (encodable : Bool)
  | method (id : Nat)
deriving DecidableEq, Repr

/-- The bytes `json.Marshal` returned with its error dropped (`str, _ :=`): the
JSON array, stood for by the list of its elements, or the nil slice when the
encoder failed. -/
inductive Payload where
  | json (elems : List GoVal)
  | nilBytes
deriving DecidableEq, Repr

/-- Whether `json.Marshal` encodes the value. -/
def GoVal.encodable : GoVal → Bool
  | .null => true
  | .string _ => true
  | .int64 _ => true
  | .data _ e => e
  | .method _ => false

/-- The function `json.Marshal` on a `[]interface{}`: `none` is an error. -/
def Marshal (out : List GoVal) : Option Payload :=
  if out.all GoVal.encodable then some (.json out) else none

/-- The statement `str, _ := json.Marshal(out)`. -/
def marshalDropErr (out : List GoVal) : Payload := (Marshal out).getD .nilBytes

/-- The type assertion `v.(string)` in its two-result form: the zero value `""`
when `v` holds no string. -/
def GoVal.asString : GoVal → GoString
  | .string s => s
  | _ => []

/-- The type assertion `v.(int64)` in its two-result form. -/
def GoVal.asInt64 : GoVal → Int
  | .int64 n => n
  | _ => 0

/-- The struct `Client`: the outbound queue (a channel, by identity; `none` is
the nil channel), the user id and the transport handle. -/
structure Client where
  Ch : Option Nat
  UserId : Int
  Conn : Option Nat
deriving DecidableEq, Repr

/-- The variable `clients` (`sync.Map`) as an association list from token to
client. -/
abbrev ClientMap := List (Int × Client)

/-- Method `Load` of `sync.Map`. -/
def ClientMap.Load (m : ClientMap) (k : Int) : Option Client := m.lookup k

/-- Method `Delete` of `sync.Map`. -/
def ClientMap.Delete (m : ClientMap) (k : Int) : ClientMap := m.filter (fun e => e.1 ≠ k)

/-- Method `Store` of `sync.Map`. -/
def ClientMap.Store (m : ClientMap) (k : Int) (c : Client) : ClientMap := (k, c) :: m.Delete k

/-- The registry: `clientCounter` and `clients`. -/
structure Registry where
  clientCounter : Int
  clients : ClientMap
deriving DecidableEq, Repr

/-- The state at process start: `clientCounter = 0` and an empty map. -/
def Registry.init : Registry := { clientCounter := 0, clients := [] }

/-- Lines 111-113 of `serveClient`: `n := atomic.AddInt64(&clientCounter, 1)`,
then `clients.Store(n, &Client{})`. The sum wraps as `int64` sums do. -/
def register (r : Registry) : Registry × Int :=
  let n := wrap64 (r.clientCounter + 1)
  ({ clientCounter := n, clients := r.clients.Store n { Ch := none, UserId := 0, Conn := none } }, n)

/-- Line 126 of `serveClient`: `clients.Delete(n)`. -/
def unregister (r : Registry) (n : Int) : Registry :=
  { r with clients := r.clients.Delete n }

/-- A step of the registry: a connection is accepted, or a token is removed. -/
inductive RegStep where
  | register
  | unregister (n : Int)
deriving DecidableEq, Repr

/-- A sequence of registry steps: the final registry and the tokens the register
steps returned, in order. -/
def runRegistry : List RegStep → Registry → Registry × List Int
  | [], r => (r, [])
  | .register :: rest, r =>
    let (r1, n) := register r
    let (r2, ns) := runRegistry rest r1
    (r2, n :: ns)
  | .unregister n :: rest, r => runRegistry rest (unregister r n)

/-- A field of `engine.RiskParam` used by the hub. -/
structure RiskParam where
  Name : GoString
  Graph : Bool
  History : GoVal
deriving DecidableEq, Repr

/-- The fields of a risk definition used by the hub. -/
structure RiskDef where
  DisplayName : GoString
  Params : List RiskParam
deriving DecidableEq, Repr

/-- The field of `engine.Portfolio` used by the hub. -/
structure Portfolio where
  RiskDefs : List RiskDef
deriving DecidableEq, Repr

/-- What the dispatch loop calls in package `engine`, which `src/` does not
hold: the file store (`GetFile` returns the content or the error text,
`DeleteFile` and `SaveFile` the error text or nil), the map `UserPortfolios`
(`none` is the nil map of a missing user, a missing name the nil portfolio), the
report map `RunUserPortfolios` returns, and the zero value its element type
gives for a missing key. -/
structure Engine where
  GetFile : Int → GoString → Except GoString GoString
  DeleteFile : Int → GoString → Option GoString
  SaveFile : Int → GoString → GoString → Option GoString
  UserPortfolios : Int → Option (List (GoString × Portfolio))
  RunUserPortfolios : List (Int × GoVal)
  zeroReport : GoVal

/-- What a step of `tradeServerJob` does to the world around it, in order. A
send on the nil channel (`chanSend none`) blocks for ever. -/
inductive Effect where
  | readPortfolios (uid : Int)
  | getFile (uid : Int) (fn : GoString)
  | deleteFile (uid : Int) (fn : GoString)
  | saveFile (uid : Int) (fn content : GoString)
  | chanSend (ch : Option Nat) (msg : Payload)
  | upstreamWrite (msg : Payload)
deriving DecidableEq, Repr

/-- How a step ended: it ran to its end, or panicked (index out of range, failed
type assertion), or is blocked for ever in a send on a nil channel. -/
inductive Ending where
  | done
  | panicked
  | blocked
deriving DecidableEq, Repr

/-- The effects of a step and how it ended. -/
structure StepResult where
  effects : List Effect
  ending : Ending
deriving DecidableEq, Repr

/-- The statement `client.Ch <- str` as the last statement of a step. -/
def sendAndEnd (before : List Effect) (ch : Option Nat) (msg : Payload) : StepResult :=
  { effects := before ++ [.chanSend ch msg], ending := if ch.isSome then .done else .blocked }

/-- Lines 224-236: the history of the first parameter named `paramName` of the
first risk definition displayed as `riskName`, when that parameter is a graph
parameter; nothing otherwise. -/
def historyOf (defs : List RiskDef) (riskName paramName : GoString) : List GoVal :=
  match defs.find? (fun r => riskName == r.DisplayName) with
  | none => []
  | some r =>
    match r.Params.find? (fun rp => rp.Name == paramName) with
    | none => []
    | some rp => if rp.Graph then [rp.History] else []

/-- Lines 202-270 of `tradeServerJob`: one message taken from
`engine.ChannelWriteTradeServer`. -/
def dispatchRequest (eng : Engine) (clients : ClientMap) (msg : List GoVal) : StepResult :=
  match msg[0]? with
  | none => { effects := [], ending := .panicked }
  | some m0 =>
    let action := m0.asString
    if action = str "riskFile" ∨ action = str "saveRiskFile" ∨ action = str "deleteRiskFile" ∨
        action = str "historicalRisk" then
      let n := (msg.getD (msg.length - 1) .null).asInt64
      match clients.Load n with
      | none => { effects := [], ending := .done }
      | some client =>
        if action = str "historicalRisk" then
          match eng.UserPortfolios client.UserId with
          | none => { effects := [.readPortfolios client.UserId], ending := .done }
          | some portfolios =>
            match msg[1]? with
            | none => { effects := [.readPortfolios client.UserId], ending := .panicked }
            | some m1 =>
              let portfolioName := m1.asString
              match portfolios.lookup portfolioName with
              | none => { effects := [.readPortfolios client.UserId], ending := .done }
              | some portfolio =>
                match msg[2]?, msg[3]? with
                | some m2, some m3 =>
                  let riskName := m2.asString
                  let paramName := m3.asString
                  let out := [GoVal.string action, .string portfolioName, .string riskName,
                    .string paramName] ++ historyOf portfolio.RiskDefs riskName paramName
                  sendAndEnd [.readPortfolios client.UserId] client.Ch (marshalDropErr out)
                | _, _ => { effects := [.readPortfolios client.UserId], ending := .panicked }
        else
          match msg[1]? with
          | none => { effects := [], ending := .panicked }
          | some m1 =>
            let fn := m1.asString
            if action = str "riskFile" then
              match eng.GetFile client.UserId fn with
              | .ok content =>
                sendAndEnd [.getFile client.UserId fn] client.Ch
                  (marshalDropErr [.string action, .string fn, .string content])
              | .error e =>
                sendAndEnd [.getFile client.UserId fn] client.Ch
                  (marshalDropErr [.string action, .string fn, .null, .string e])
            else if action = str "deleteRiskFile" then
              match eng.DeleteFile client.UserId fn with
              | some _ =>
                sendAndEnd [.deleteFile client.UserId fn] client.Ch
                  (marshalDropErr [.string action, .string fn, .method 0])
              | none =>
                sendAndEnd [.deleteFile client.UserId fn] client.Ch
                  (marshalDropErr [.string action, .string fn])
            else if action = str "saveRiskFile" then
              match msg[2]? with
              | some (GoVal.string content) =>
                match eng.SaveFile client.UserId fn content with
                | some _ =>
                  sendAndEnd [.saveFile client.UserId fn content] client.Ch
                    (marshalDropErr [.string action, .string fn, .method 0])
                | none =>
                  sendAndEnd [.saveFile client.UserId fn content] client.Ch
                    (marshalDropErr [.string action, .string fn])
              | _ => { effects := [], ending := .panicked }
            else sendAndEnd [] client.Ch (marshalDropErr [.string action, .string fn])
    else
      { effects := [.upstreamWrite (marshalDropErr msg)], ending := .done }

/-- The map index `rpts[client.UserId]`: the zero value for a missing key. -/
def reportFor (eng : Engine) (uid : Int) : GoVal :=
  (eng.RunUserPortfolios.lookup uid).getD eng.zeroReport

/-- Lines 353-363: `clients.Range` over the entries in the order the map yields
them. A failed `json.Marshal` skips the entry; a send on a nil channel blocks,
and the entries after it are not reached. -/
def fanOut (eng : Engine) : ClientMap → StepResult
  | [] => { effects := [], ending := .done }
  | (_, client) :: rest =>
    match Marshal [.string (str "risk"), reportFor eng client.UserId] with
    | none => fanOut eng rest
    | some out =>
      match client.Ch with
      | none => { effects := [.chanSend none out], ending := .blocked }
      | some ch =>
        let r := fanOut eng rest
        { effects := .chanSend (some ch) out :: r.effects, ending := r.ending }

/-- The `riskTicker` case of `tradeServerJob`: one tick. -/
def riskTick (eng : Engine) (clients : ClientMap) : StepResult := fanOut eng clients

/-! ## `main.go`: the handler of a viewer connection -/

/-- The outcome of `upgrader.Upgrade`: an error, or the transport handle; with a
handle comes the channel `make(chan []byte)` creates next, by identity. -/
inductive Upgrade where
  | failed
  | ok (conn ch : Nat)
deriving DecidableEq, Repr

/-- The outcome of one `c.ReadMessage()` of the read loop: an error, a frame that
is not a JSON array, or a frame decoded to an array (JSON `null` decodes to the
empty one). With a decoded frame comes what the functions outside `src/` do that
handling it reaches (`ioutil.WriteFile`, `engine.CheckPy`,
`engine.ParsePortfolio`, `engine.GetPath`, `engine.Request`): `calleePanics`
tells whether one of them panics. -/
inductive Read where
  | error
  | nonJson
  | message (msg : List GoVal) (calleePanics : Bool)
deriving DecidableEq, Repr

/-- How a run of `serveClient` ended on the inputs given: it returned, it
panicked (the deferred function has run), or it is still blocked in
`ReadMessage` because no further outcome was given. -/
inductive HandlerEnd where
  | returned
  | panicked
  | reading
deriving DecidableEq, Repr

/-- The scan of `path.Ext` from the last byte backwards over the reversed path,
`acc` holding the bytes passed: it stops at a slash with the empty string and
at a dot with the suffix from that dot on. -/
def extScan : GoString → GoString → GoString
  | [], _ => []
  | c :: rest, acc =>
    if c = 47 then [] else if c = 46 then 46 :: acc else extScan rest (c :: acc)

/-- The function `path.Ext`: the suffix from the last dot of the last
slash-separated element of the path on, empty when that element has no dot. -/
def Ext (path : GoString) : GoString := extScan path.reverse []

/-- Lines 148-184 of `serveClient`: whether handling a decoded message panics.
The index `msg[0]` is out of range for an empty array; when the action is
`saveRiskFile`, `msg[1]` and `msg[2]` are out of range for fewer than three
elements; a file name with the extension `.ini` has the content parsed by
`ParseIni`, and a panic of `ParseIni` is a panic of the handler, while a content
`ParseIni` rejects is answered on the queue and reaches no other function; in
every other case the handler panics when a function it reaches does. The send
`ch <- str` is taken to complete. -/
def handlingPanics (msg : List GoVal) (calleePanics : Bool) : Bool :=
  match msg[0]? with
  | none => true
  | some m0 =>
    if m0.asString = str "saveRiskFile" then
      match msg[1]?, msg[2]? with
      | some m1, some m2 =>
        if Ext m1.asString = str ".py" then calleePanics
        else if Ext m1.asString = str ".ini" then
          match ParseIni m2.asString with
          | .panic => true
          | .fail _ => false
          | .ret _ => calleePanics
        else calleePanics
      | _, _ => true
    else calleePanics

/-- The read loop of `serveClient` (lines 134-186), as far as it decides how the
handler ends: a read error breaks out of the loop, a frame that is not JSON and
a handled message continue it, a panic while handling ends it. -/
def readLoop : List Read → HandlerEnd
  | [] => .reading
  | .error :: _ => .returned
  | .nonJson :: rest => readLoop rest
  | .message msg calleePanics :: rest =>
    if handlingPanics msg calleePanics then .panicked else readLoop rest

/-- The function `serveClient` as a step on the registry: the token is allocated
and an empty `Client` stored under it; a failed upgrade returns at once; after a
successful one the stored client gets its queue and transport handle, the read
loop runs, and the deferred function deletes the entry when the handler returns
or panics. The result is the registry, the token and how the run ended. -/
def serveClient (r : Registry) (up : Upgrade) (reads : List Read) :
    Registry × Int × HandlerEnd :=
  let r1 := (register r).1
  let n := (register r).2
  match up with
  | .failed => (r1, n, .returned)
  | .ok conn ch =>
    let r2 : Registry :=
      { r1 with clients := r1.clients.Store n { Ch := some ch, UserId := 0, Conn := some conn } }
    match readLoop reads with
    | .reading => (r2, n, .reading)
    | .returned => (unregister r2 n, n, .returned)
    | .panicked => (unregister r2 n, n, .panicked)

/-! ## Package `fmt`: `Errorf` on a format without operands

`ParseExpr` passes its concatenated text to `fmt.Errorf` as the format and gives
no operands, so every verb in the text is answered with a complaint. -/

/-- The function `parsenum` of package `fmt` on the bytes from the current
index on: whether a digit was read, and the bytes after the digits; `none` when
the number passed 1e6, where `fmt` gives up and moves to the end of the range. -/
def parsenum : GoString → Nat → Bool → Option (Bool × GoString)
  | [], _, isnum => some (isnum, [])
  | c :: cs, num, isnum =>
    if 48 ≤ c ∧ c ≤ 57 then
      if num > 1000000 then none else parsenum cs (num * 10 + (c - 48)) true
    else some (isnum, c :: cs)

/-- The function `parseArgNumber` of package `fmt` on bytes that start with `[`:
the number of bytes to skip and whether they are `[n]` with a decimal `n`. -/
def parseArgNumber (f : GoString) : Nat × Bool :=
  if f.length < 3 then (1, false)
  else if 93 ∈ f.drop 1 then
    let i := (f.drop 1).indexOf 93 + 1
    (i + 1, decide (parsenum ((f.take i).drop 1) 0 false = some (true, [])))
  else (1, false)

/-- Where `doPrintf` stands inside one verb: the bytes written for it so far,
the bytes of the format left, the flag `afterIndex` and the flag `goodArgNum`. -/
structure VerbState where
  written : GoString
  rest : GoString
  afterIndex : Bool
  good : Bool
deriving DecidableEq, Repr

/-- The method `argNumber` of package `fmt` when there are no operands: an
argument index `[n]` is skipped and is never in range. -/
def argNumber (st : VerbState) : VerbState :=
  match st.rest with
  | 91 :: _ =>
    { st with rest := st.rest.drop (parseArgNumber st.rest).1,
              afterIndex := (parseArgNumber st.rest).2, good := false }
  | _ => { st with afterIndex := false }

/-- The width of a verb: `*` finds no operand and writes `%!(BADWIDTH)`. -/
def verbWidth (st : VerbState) : VerbState :=
  match st.rest with
  | 42 :: r => { st with written := st.written ++ str "%!(BADWIDTH)", rest := r,
                         afterIndex := false }
  | r =>
    match parsenum r 0 false with
    | none => { st with rest := [] }
    | some (isnum, r1) => { st with rest := r1, good := st.good && !(st.afterIndex && isnum) }

/-- The precision of a verb: `.` followed by an argument index, `*` (which finds
no operand and writes `%!(BADPREC)`) or digits. -/
def verbPrecision (st : VerbState) : VerbState :=
  match st.rest with
  | 46 :: r =>
    let st1 := argNumber { st with rest := r, good := st.good && !st.afterIndex }
    match st1.rest with
    | 42 :: r1 => { st1 with written := st1.written ++ str "%!(BADPREC)", rest := r1,
                             afterIndex := false }
    | r1 =>
      match parsenum r1 0 false with
      | none => { st1 with rest := [] }
      | some (_, r2) => { st1 with rest := r2 }
  | _ => st

/-- Whether the byte is a UTF-8 continuation byte. -/
def isCont (b : Nat) : Bool := decide (128 ≤ b ∧ b ≤ 191)

/-- The length of the well-formed UTF-8 sequence that starts with the byte `c`
followed by the bytes `r`, and `0` when there is none: one byte below 0x80; two
bytes from 0xC2 to 0xDF, three from 0xE0 to 0xEF, four from 0xF0 to 0xF4, with
the second byte in the range the first byte accepts and the others continuation
bytes. -/
def runeLen (c : Nat) (r : GoString) : Nat :=
  let lo := if c = 224 then 160 else if c = 240 then 144 else 128
  let hi := if c = 237 then 159 else if c = 244 then 143 else 191
  let ok1 := match r[0]? with
    | some b => decide (lo ≤ b ∧ b ≤ hi)
    | none => false
  let ok2 := match r[1]? with
    | some b => isCont b
    | none => false
  let ok3 := match r[2]? with
    | some b => isCont b
    | none => false
  if c < 128 then 1
  else if 194 ≤ c ∧ c ≤ 223 then (if ok1 then 2 else 0)
  else if 224 ≤ c ∧ c ≤ 239 then (if ok1 && ok2 then 3 else 0)
  else if 240 ≤ c ∧ c ≤ 244 then (if ok1 && ok2 && ok3 then 4 else 0)
  else 0

/-- The verb at the head of the format as `doPrintf` reads and `writeRune` writes
it: an ASCII byte, the bytes of a well-formed UTF-8 sequence, or one ill-formed
byte written as U+FFFD; with the bytes left. -/
def decodeVerb (c : Nat) (r : GoString) : GoString × GoString :=
  if runeLen c r = 0 then ([239, 191, 189], r)
  else (c :: r.take (runeLen c r - 1), r.drop (runeLen c r - 1))

/-- The start of a verb, at the byte after `%`: the flags `#`, `0`, `+`, `-` and
the blank are skipped. -/
def verbFlags (f : GoString) : VerbState :=
  { written := [], good := true, afterIndex := false,
    rest := f.dropWhile (fun c => decide (c = 35 ∨ c = 48 ∨ c = 43 ∨ c = 45 ∨ c = 32)) }

/-- The argument index that may stand right before the verb, read unless one
was read just before. -/
def verbIndex (st : VerbState) : VerbState := if st.afterIndex then st else argNumber st

/-- The verb itself: a format that ends before it writes `%!(NOVERB)`, the verb
`%` writes `%`, any other verb writes `%!v(BADINDEX)` after an argument index
and `%!v(MISSING)` otherwise. The result is the bytes written and the bytes
left. -/
def verbEnd (st : VerbState) : GoString × GoString :=
  match st.rest with
  | [] => (st.written ++ str "%!(NOVERB)", [])
  | c :: r =>
    if (decodeVerb c r).1 = [37] then (st.written ++ [37], (decodeVerb c r).2)
    else if st.good then
      (st.written ++ str "%!" ++ (decodeVerb c r).1 ++ str "(MISSING)", (decodeVerb c r).2)
    else (st.written ++ str "%!" ++ (decodeVerb c r).1 ++ str "(BADINDEX)", (decodeVerb c r).2)

/-- One verb of `doPrintf` when there are no operands, from the byte after `%`
on: flags, argument index, width, precision, argument index, verb. -/
def verbStep (f : GoString) : GoString × GoString :=
  verbEnd (verbIndex (verbPrecision (verbWidth (argNumber (verbFlags f)))))

/-- The loop of `doPrintf` when there are no operands: bytes up to a `%` are
copied, a `%` starts a verb. Every round uses up a byte of the format, which
bounds the number of rounds. -/
def doPrintf : Nat → GoString → GoString
  | 0, _ => []
  | _ + 1, [] => []
  | fuel + 1, c :: cs =>
    if c = 37 then (verbStep cs).1 ++ doPrintf fuel (verbStep cs).2
    else c :: doPrintf fuel cs

/-- The text of `fmt.Errorf(format)`, called without operands as `ParseExpr`
calls it: a format without `%` comes back unchanged, `%%` prints `%`, and a verb
prints its complaint about the missing operand, as in `%!d(MISSING)`. -/
def Errorf (format : GoString) : GoString := doPrintf (format.length + 1) format

/-! ## Concrete collaborators, to run the code on concrete inputs -/

/-- A library instance: `split` cuts at every separator byte, `Errorf` is that
of package `fmt`, the grammar accepts decimal literals only and evaluates them
to their text, every value is a `float64`, a `call` formula is rejected, and no
call panics. -/
def sampleLib : ExprLib GoString GoString Unit Nat where
  split := fun s sep => Split (sep.headD 0) s
  Errorf := Risk.Errorf
  compile := fun e =>
    if e ≠ [] ∧ (digitsValue e 0).isSome then .ret e else .fail (str "Invalid token")
  compileCall := fun _ => .fail (str "Undefined function call")
  dryRun := fun _ _ => .fail (str "module name and function name required")
  evaluate := fun e _ => .ret e
  typeOf := fun _ => 0
  typeString := fun _ => str "float64"

/-- A portfolio with one risk definition `r` holding the graph parameter `x`. -/
def samplePortfolio : Portfolio :=
  ⟨[⟨str "r", [⟨str "x", true, .data 1 true⟩]⟩]⟩

/-- An engine instance: user 7 owns the file `a.ini` and the portfolio `p` with
one risk definition `r` holding the graph parameter `x`; every other file is
missing, nobody else has a portfolio, only user 7 has a report, and the report
type has the zero value nil. -/
def sampleEngine : Engine where
  GetFile := fun uid fn =>
    if uid = 7 ∧ fn = str "a.ini" then .ok (str "k=v") else .error (str "no such file")
  DeleteFile := fun uid fn =>
    if uid = 7 ∧ fn = str "a.ini" then none else some (str "no such file")
  SaveFile := fun uid _ _ => if uid = 7 then none else some (str "permission denied")
  UserPortfolios := fun uid =>
    if uid = 7 then some [(str "p", samplePortfolio)] else none
  RunUserPortfolios := [(7, .data 2 true)]
  zeroReport := .null

/-- A registry table with two sessions: token 3 of user 7 and token 5 of an
unauthenticated viewer, each with its own queue. -/
def sampleClients : ClientMap :=
  [(3, { Ch := some 30, UserId := 7, Conn := some 31 }),
   (5, { Ch := some 50, UserId := 0, Conn := some 51 })]

/-- An INI document: a comment, a key of the root, the section `a` with a key
and the sub-section `b`, and a second top-level header without closing bracket. -/
def sampleText : GoString := str "# c\n x = 1 \n[a]\ny=2=3\n[[b]]\n[c\n"

/-- The tree `ParseIni` builds from `sampleText`: the root, `a`, `b` under `a`,
and the section with the empty name that `[c` opens. -/
def sampleTree : Heap :=
  [{ ValueMap := [(str "x", str "1", str "2")], SectionMap := [([], 3), (str "a", 1)],
     Values := [(str "x", str "1", str "2")], Sections := [1, 3], Parent := none, Depth := 0,
     Name := [] },
   { ValueMap := [(str "y", str "2=3", str "4")], SectionMap := [(str "b", 2)],
     Values := [(str "y", str "2=3", str "4")], Sections := [2], Parent := some 0, Depth := 1,
     Name := str "a" },
   { ValueMap := [], SectionMap := [], Values := [], Sections := [], Parent := some 1,
     Depth := 2, Name := str "b" },
   { ValueMap := [], SectionMap := [], Values := [], Sections := [], Parent := some 0,
     Depth := 1, Name := [] }]

/-- A document whose last line opens a second section `a` under the root; the
two sections `c` have different parents. -/
def sampleDupText : GoString := str "[a]\n[[c]]\n[b]\n[[c]]\n[a]"

/-- The state of the loop of `ParseIni` after the first four lines of
`sampleDupText`: the root, `a`, `c` under `a`, `b`, and `c` under `b`, which is
the current section. -/
def sampleDupState : IniState :=
  ([{ ValueMap := [], SectionMap := [(str "b", 3), (str "a", 1)], Values := [],
      Sections := [1, 3], Parent := none, Depth := 0, Name := [] },
    { ValueMap := [], SectionMap := [(str "c", 2)], Values := [], Sections := [2],
      Parent := some 0, Depth := 1, Name := str "a" },
    { ValueMap := [], SectionMap := [], Values := [], Sections := [], Parent := some 1,
      Depth := 2, Name := str "c" },
    { ValueMap := [], SectionMap := [(str "c", 4)], Values := [], Sections := [4],
      Parent := some 0, Depth := 1, Name := str "b" },
    { ValueMap := [], SectionMap := [], Values := [], Sections := [], Parent := some 3,
      Depth := 2, Name := str "c" }], 4)

/-! ## Definitions used to state the properties -/

/-- The formula without its first `k` bytes and without its last byte: the value
of the slice `expr[k : len(expr)-1]` when its bounds do not cross. -/
def stripped (expr : GoString) (k : Nat) : GoString := (expr.take (expr.length - 1)).drop k

/-- The text `ParseExpr` holds in `expr` when it builds an error message: the
formula itself when it has none of the five aggregate prefixes; the formula
without the prefix and without its last byte for `sum(`, `len(`, `mean(` and
`std(`; for `top(`, the first field of that remainder when `split` cuts it into
two fields or more, and the whole remainder when it does not. -/
def textLeft {E V P T : Type} (L : ExprLib E V P T) (expr : GoString) : GoString :=
  if HasPrefix expr (str "sum(") then stripped expr 4
  else if HasPrefix expr (str "len(") then stripped expr 4
  else if HasPrefix expr (str "mean(") then stripped expr 5
  else if HasPrefix expr (str "std(") then stripped expr 4
  else if HasPrefix expr (str "top(") then
    if (L.split (stripped expr 4) (str ",")).length > 1 then
      (L.split (stripped expr 4) (str ",")).headD []
    else stripped expr 4
  else expr

/-- The number of register steps of a sequence. -/
def registerCount : List RegStep → Nat
  | [] => 0
  | .register :: rest => registerCount rest + 1
  | .unregister _ :: rest => registerCount rest

/-- Every token in the table is positive and at most the counter. -/
def Registry.KeysIssued (r : Registry) : Prop :=
  0 ≤ r.clientCounter ∧ ∀ e ∈ r.clients, 0 < e.1 ∧ e.1 ≤ r.clientCounter


/-- The token a queued message carries: its last element read as an `int64`. -/
def tokenOf (msg : List GoVal) : Int := (msg.getD (msg.length - 1) .null).asInt64

/-- The effect concerns the session `client` alone: a send goes to its queue, a
file-store call or a portfolio read names its user id, and nothing is written
upstream. -/
def Effect.OfSession (client : Client) : Effect → Prop
  | .readPortfolios uid => uid = client.UserId
  | .getFile uid _ => uid = client.UserId
  | .deleteFile uid _ => uid = client.UserId
  | .saveFile uid _ _ => uid = client.UserId
  | .chanSend ch _ => ch = client.Ch
  | .upstreamWrite _ => False

/-- The envelope `["risk", report]` of a tick for a user, when it can be encoded. -/
def riskEnvelope (eng : Engine) (uid : Int) : Option Payload :=
  Marshal [.string (str "risk"), reportFor eng uid]

/-- The header line of a section: `Depth` opening brackets, the name, `Depth`
closing brackets. -/
def headerLine (depth : Nat) (name : GoString) : GoString :=
  List.replicate depth 91 ++ name ++ List.replicate depth 93

/-- The line `key=value` of an entry of `Values`. -/
def valueLine (v : GoString × GoString × GoString) : GoString := v.1 ++ 61 :: v.2.1

/-- The lines of a section written back in original order: its `Values` in list
order, then each child in `Sections` order as its header line followed by the
child's own lines. The fuel bounds the nesting depth. -/
def serialize : Nat → Heap → Nat → List GoString
  | 0, _, _ => []
  | fuel + 1, H, p =>
    match H[p]? with
    | none => []
    | some sec =>
      sec.Values.map valueLine ++
        (sec.Sections.map (fun c =>
          match H[c]? with
          | none => []
          | some ch => headerLine ch.Depth ch.Name :: serialize fuel H c)).flatten

/-- The tree under `top` written back as a text, the lines joined with newlines.
Sections nest less deep than there are sections, so the fuel suffices. -/
def writeIni (H : Heap) (top : Nat) : GoString := Join 10 (serialize H.length H top)

/-- A section with the line numbers of its values blanked. -/
def IniSection.withoutLines (sec : IniSection) : IniSection :=
  { sec with ValueMap := sec.ValueMap.map (fun e => (e.1, (e.2.1, []))),
             Values := sec.Values.map (fun v => (v.1, v.2.1, [])) }

/-- Two heaps hold the same tree: the same sections at the same places, with the
same names, depths, parents, children in the same order, and the same keys and
values in the same order; only the recorded line numbers may differ. -/
def SameTree (H1 H2 : Heap) : Prop := H1.map IniSection.withoutLines = H2.map IniSection.withoutLines

/-- What a line is to the parser: skipped (blank, comment, no key), a header
whose name cannot be sliced out, a header, or a key with its value. -/
inductive LineKind where
  | skip
  | badHeader
  | header (depth : Nat) (name : GoString)
  | keyValue (a b : GoString)
deriving DecidableEq, Repr

/-- The kind of a raw line, read off the text alone. -/
def classify (raw : GoString) : LineKind :=
  match Trim raw blanks with
  | [] => .skip
  | c :: rest =>
    if c = 35 ∨ c = 59 then .skip
    else if c = 91 then
      match slice (c :: rest) (bracketDepth (c :: rest))
          ((c :: rest).length - bracketDepth (c :: rest)) with
      | none => .badHeader
      | some sname => .header (bracketDepth (c :: rest)) sname
    else if Index (c :: rest) 61 ≤ 0 then .skip
    else
      .keyValue (Trim ((c :: rest).take (Index (c :: rest) 61).toNat) blanks)
        (Trim ((c :: rest).drop ((Index (c :: rest) 61).toNat + 1)) blanks)

/-- The header branch of the loop body (lines 91-103), after the name was cut out. -/
def openSection (st : IniState) (ln depth : Nat) (sname : GoString) :
    Outcome IniState IniErrSyntax :=
  match st.1[st.2]? with
  | none => .panic
  | some cur =>
    if depth > cur.Depth + 1 then
      .fail { Line := ln, Text := str "section with wrong depth" }
    else
      match walkUp st.1 (cur.Depth + 1 - depth) st.2 with
      | none => .panic
      | some parent =>
        match st.1[parent]? with
        | none => .panic
        | some par =>
          match par.SectionMap.lookup sname with
          | some _ =>
            .fail { Line := ln, Text := str "duplicate section name on the same level" }
          | none => .ret (newSection st.1 sname depth (some parent))

/-- The key branch of the loop body (lines 111-116). -/
def setValue (st : IniState) (ln : Nat) (a b : GoString) : Outcome IniState IniErrSyntax :=
  match st.1[st.2]? with
  | none => .panic
  | some cur =>
    match cur.ValueMap.lookup a with
    | some _ =>
      .fail { Line := ln, Text := str "duplicate section name on the same level" }
    | none =>
      .ret (st.1.set st.2 { cur with ValueMap := (a, (b, Itoa ln)) :: cur.ValueMap,
                                     Values := cur.Values ++ [(a, b, Itoa ln)] }, st.2)

/-- The loop body by kind of line. -/
def applyLine (st : IniState) (ln : Nat) : LineKind → Outcome IniState IniErrSyntax
  | .skip => .ret st
  | .badHeader => .panic
  | .header depth sname => openSection st ln depth sname
  | .keyValue a b => setValue st ln a b

/-- The byte is in the cutset of `Trim`. -/
def isBlank (c : Nat) : Bool := decide (c ∈ blanks)

/-- Neither the first nor the last byte is a blank. -/
def NoBlankEnds (s : GoString) : Prop :=
  (∀ c t, s = c :: t → isBlank c = false) ∧ (∀ t c, s = t ++ [c] → isBlank c = false)


/-- The new section record. -/
def freshSection (name : GoString) (depth : Nat) (parent : Option Nat) : IniSection :=
  { Name := name, Depth := depth, Parent := parent,
    ValueMap := [], SectionMap := [], Values := [], Sections := [] }

/-- The parent record after `newSection`. -/
def adopt (par : IniSection) (name : GoString) (s : Nat) : IniSection :=
  { par with SectionMap := (name, s) :: par.SectionMap, Sections := par.Sections ++ [s] }

/-- The name of the section a pointer leads to. -/
def nameAt (H : Heap) (p : Nat) : GoString := (H[p]?.map (fun sec => sec.Name)).getD []

/-- Pointers are sound: a parent pointer leads to an earlier section one level
up that lists the section among its children, a child pointer leads to a later
section whose parent pointer leads back, and a section without parent has
depth 0 and is the first section allocated. -/
structure HeapOK (H : Heap) : Prop where
  parent : ∀ (p : Nat) (sec : IniSection) (q : Nat), H[p]? = some sec → sec.Parent = some q →
    q < p ∧ ∃ par, H[q]? = some par ∧ sec.Depth = par.Depth + 1 ∧ p ∈ par.Sections
  child : ∀ (p : Nat) (sec : IniSection) (c : Nat), H[p]? = some sec → c ∈ sec.Sections →
    p < c ∧ ∃ ch, H[c]? = some ch ∧ ch.Parent = some p
  orphan : ∀ (p : Nat) (sec : IniSection), H[p]? = some sec → sec.Parent = none →
    sec.Depth = 0 ∧ p = 0

/-- The two maps of every section mirror its two lists: `SectionMap` binds the
name of each child to the child, `ValueMap` each key to its value and line. -/
def MapsOK (H : Heap) : Prop :=
  ∀ (p : Nat) (sec : IniSection), H[p]? = some sec →
    sec.SectionMap = (sec.Sections.map (fun c => (nameAt H c, c))).reverse ∧
    sec.ValueMap = (sec.Values.map (fun v => (v.1, (v.2.1, v.2.2)))).reverse

/-- The sections from `lo` up to `hi` have all their children below `hi`. -/
def Closed (H : Heap) (lo hi : Nat) : Prop :=
  ∀ (x : Nat) (sec : IniSection), lo ≤ x → x < hi → H[x]? = some sec → ∀ y ∈ sec.Sections, y < hi

/-- Every section on the way from the current section up to the root is the last
child of its parent, and the subtrees of its earlier siblings were completed
before it was allocated. -/
def SpineOK (H : Heap) (s : Nat) : Prop :=
  ∀ (k a : Nat) (sec : IniSection) (q : Nat), walkUp H k s = some a → H[a]? = some sec →
    sec.Parent = some q →
    ∃ par pre, H[q]? = some par ∧ par.Sections = pre ++ [a] ∧ ∀ c ∈ pre, c < a ∧ Closed H c a

/-- The invariant of the loop of `ParseIni`: the current section is the one
allocated last, and the heap is sound. -/
structure WellFormed (st : IniState) : Prop where
  cursor : st.2 + 1 = st.1.length
  heap : HeapOK st.1
  maps : MapsOK st.1
  spine : SpineOK st.1 st.2

/-- The current section after a key was set (lines 115-116). -/
def addValue (cur : IniSection) (a b lns : GoString) : IniSection :=
  { cur with ValueMap := (a, (b, lns)) :: cur.ValueMap, Values := cur.Values ++ [(a, b, lns)] }

/-- The line a raw line comes back as when the tree is written out: its header
or its `key=value`; nothing for a line the parser skips. -/
def writtenLine (raw : GoString) : Option GoString :=
  match classify raw with
  | .header d name => some (headerLine d name)
  | .keyValue a b => some (a ++ 61 :: b)
  | _ => none

/-- Two parser states with the same current section and the same tree. -/
def Sim (st1 st2 : IniState) : Prop := st1.2 = st2.2 ∧ SameTree st1.1 st2.1

/-- The state `ParseIni` starts from: the root section alone. -/
def initState : IniState := newSection [] [] 0 none

/-- Read in state `st`, the line opens a section named like a section already
opened under the same parent: it is a header of some depth `d`, the parent is
the section of depth `d - 1` on the way from the current section to the root,
and one of the parent's children bears the name. -/
def DuplicateSection (st : IniState) (raw : GoString) : Prop :=
  ∃ (d : Nat) (name : GoString) (k parent : Nat) (par : IniSection) (c : Nat),
    classify raw = .header d name ∧ walkUp st.1 k st.2 = some parent ∧
    st.1[parent]? = some par ∧ par.Depth + 1 = d ∧ c ∈ par.Sections ∧ nameAt st.1 c = name

/-- Read in state `st`, the line defines a key that is already among the
`Values` of the current section. -/
def DuplicateKey (st : IniState) (raw : GoString) : Prop :=
  ∃ (a b : GoString) (cur : IniSection) (v : GoString × GoString × GoString),
    classify raw = .keyValue a b ∧ st.1[st.2]? = some cur ∧ v ∈ cur.Values ∧ v.1 = a

/-- A section that can be reached from `top` through `Sections`. -/
inductive Reachable (H : Heap) (top : Nat) : Nat → Prop where
  | top : Reachable H top top
  | child (p c : Nat) (sec : IniSection) :
      Reachable H top p → H[p]? = some sec → c ∈ sec.Sections → Reachable H top c

/-- What holds of the lists of every section while lines up to number `i` have
been read: the root is the section `""` of depth 0 without parent, child names
and keys are pairwise distinct, and the recorded line numbers increase and are
at most `i`. -/
structure Tidy (st : IniState) (i : Nat) : Prop where
  root : ∃ r, st.1[0]? = some r ∧ r.Name = [] ∧ r.Depth = 0 ∧ r.Parent = none
  names : ∀ (p : Nat) (sec : IniSection), st.1[p]? = some sec →
    (sec.Sections.map (nameAt st.1)).Nodup
  keys : ∀ (p : Nat) (sec : IniSection), st.1[p]? = some sec →
    (sec.Values.map (fun v => v.1)).Nodup
  lines : ∀ (p : Nat) (sec : IniSection), st.1[p]? = some sec →
    ∃ lns : List Nat, sec.Values.map (fun v => v.2.2) = lns.map Itoa ∧
      lns.Sorted (· < ·) ∧ ∀ l ∈ lns, l ≤ i

/-- The section `S` at pointer `p` is sound: each child `C` in `S.Sections` has
`C.Parent = S`, `C.Depth = S.Depth + 1` and `S.SectionMap[C.Name] = C`, the
child names are pairwise distinct, `S.Values` lists pairwise distinct keys in
the order of their line numbers, and `S.ValueMap` holds exactly those keys, each
bound to its value and line. -/
structure SectionSound (H : Heap) (p : Nat) (S : IniSection) : Prop where
  children : ∀ c ∈ S.Sections, ∃ C, H[c]? = some C ∧ C.Parent = some p ∧
    C.Depth = S.Depth + 1 ∧ S.SectionMap.lookup C.Name = some c
  names : (S.Sections.map (nameAt H)).Nodup
  keys : (S.Values.map (fun v => v.1)).Nodup
  lines : ∃ lns : List Nat, S.Values.map (fun v => v.2.2) = lns.map Itoa ∧ lns.Sorted (· < ·)
  mapKeys : ∀ k, (S.ValueMap.lookup k).isSome ↔ ∃ v ∈ S.Values, v.1 = k
  mapValues : ∀ v ∈ S.Values, S.ValueMap.lookup v.1 = some (v.2.1, v.2.2)

/-! ## Theorems -/

/-- C1: a header line made mostly of opening brackets makes `ParseIni` panic
instead of returning the depth error: `line[depth : len(line)-depth]` is taken
before the depth test, and its bounds cross as soon as twice the bracket count
exceeds the length of the line. On the first line, `[[` and `[[a` (depth 2 under
the root of depth 0) both panic, while `[[a]]` returns the error of line 1. -/
theorem C1_short_depth_jump_panics :
    ParseIni (str "[[") = .panic ∧ ParseIni (str "[[a") = .panic ∧
    ParseIni (str "k=v\n  [[[") = .panic ∧
    ParseIni (str "[[a]]") = .fail { Line := 1, Text := str "section with wrong depth" } := by
  decide

/-- C4: the tie-break test `n[1]*i < 0` multiplies in 64-bit arithmetic, so it
does not follow the signs once the product leaves the `int` range. With
`k = 2^62`: for `c = 2` (both positive) the product wraps to `-2^63` and
`N[0] = 2` where the opposite-sign rule gives `0`; for `c = -4` (opposite signs)
it wraps to `0` and `N[0] = 0` where the rule gives `-4`. -/
theorem C4_top_tiebreak_overflow :
    ParseExpr sampleLib (str "7") (str "top(1,2,4611686018427387904)") (str "risk") () none []
      = .ret { E := some (str "1"), A := str "top", N := (2, 4611686018427387904),
               C := ([], [], []) } ∧
    ParseExpr sampleLib (str "7") (str "top(1,-4,4611686018427387904)") (str "risk") () none []
      = .ret { E := some (str "1"), A := str "top", N := (0, 4611686018427387904),
               C := ([], [], []) } := by
  constructor <;> rfl

/-! ### `fmt.Errorf` without operands -/

theorem parsenum_suffix (f : GoString) (num : Nat) (isnum b : Bool) (r : GoString)
    (h : parsenum f num isnum = some (b, r)) : r <:+ f := by
  induction f generalizing num isnum with
  | nil =>
    simp only [parsenum, Option.some.injEq, Prod.mk.injEq] at h
    exact h.2 ▸ List.suffix_refl _
  | cons c cs ih =>
    unfold parsenum at h
    split at h
    · split at h
      · exact absurd h (by simp)
      · exact (ih _ _ h).trans (List.suffix_cons c cs)
    · simp only [Option.some.injEq, Prod.mk.injEq] at h
      exact h.2 ▸ List.suffix_refl _

theorem argNumber_rest (st : VerbState) : (argNumber st).rest <:+ st.rest := by
  unfold argNumber
  split
  · exact List.drop_suffix _ _
  · exact List.suffix_refl _

theorem verbWidth_rest (st : VerbState) : (verbWidth st).rest <:+ st.rest := by
  unfold verbWidth
  split
  · rename_i r h
    rw [h]
    exact List.suffix_cons _ _
  · split
    · exact List.nil_suffix
    · rename_i h
      exact parsenum_suffix _ _ _ _ _ h

theorem verbPrecision_rest (st : VerbState) : (verbPrecision st).rest <:+ st.rest := by
  unfold verbPrecision
  split
  · rename_i r h
    rw [h]
    have ha := argNumber_rest { st with rest := r, good := st.good && !st.afterIndex }
    simp only at ha ⊢
    split
    · rename_i r1 h1
      rw [h1] at ha
      exact ((List.suffix_cons _ _).trans ha).trans (List.suffix_cons _ _)
    · split
      · exact List.nil_suffix
      · rename_i h2
        exact ((parsenum_suffix _ _ _ _ _ h2).trans ha).trans (List.suffix_cons _ _)
  · exact List.suffix_refl _

theorem decodeVerb_rest (c : Nat) (r : GoString) : (decodeVerb c r).2 <:+ r := by
  unfold decodeVerb
  split
  · exact List.suffix_refl _
  · exact List.drop_suffix _ _

theorem verbFlags_rest (f : GoString) : (verbFlags f).rest <:+ f := List.dropWhile_suffix _

theorem verbIndex_rest (st : VerbState) : (verbIndex st).rest <:+ st.rest := by
  unfold verbIndex
  split
  · exact List.suffix_refl _
  · exact argNumber_rest _

theorem verbEnd_rest (st : VerbState) : (verbEnd st).2 <:+ st.rest := by
  unfold verbEnd
  split
  · exact List.nil_suffix
  · rename_i c r hr
    rw [hr]
    have hd := (decodeVerb_rest c r).trans (List.suffix_cons c r)
    split
    · exact hd
    · split
      · exact hd
      · exact hd

/-- A verb uses up bytes of the format only. -/
theorem verbStep_rest (f : GoString) : (verbStep f).2 <:+ f :=
  (((((verbEnd_rest _).trans (verbIndex_rest _)).trans (verbPrecision_rest _)).trans
    (verbWidth_rest _)).trans (argNumber_rest _)).trans (verbFlags_rest f)

/-- The loop of `doPrintf` does not depend on the bound of its rounds once the
bound exceeds the length of the format: `Errorf` is the function the loop
computes. -/
theorem doPrintf_fuel (n m : Nat) (f : GoString) (hn : f.length < n) (hm : f.length < m) :
    doPrintf n f = doPrintf m f := by
  induction n generalizing m f with
  | zero => omega
  | succ n ih =>
    cases m with
    | zero => omega
    | succ m =>
      cases f with
      | nil => rfl
      | cons c cs =>
        simp only [List.length_cons] at hn hm
        simp only [doPrintf]
        have hl := (verbStep_rest cs).length_le
        split
        · rw [ih m _ (by omega) (by omega)]
        · rw [ih m _ (by omega) (by omega)]

/-- A format without `%` comes back unchanged. -/
theorem Errorf_plain (f : GoString) (h : 37 ∉ f) : Errorf f = f := by
  unfold Errorf
  induction f with
  | nil => rfl
  | cons c cs ih =>
    have hc : c ≠ 37 := fun e => h (e ▸ List.mem_cons_self _ _)
    have hcs : 37 ∉ cs := fun e => h (List.mem_cons_of_mem _ e)
    simp only [List.length_cons, doPrintf, if_neg hc, ih hcs]

/-! ### `ParseExpr`: error messages -/

theorem infix_invalidFormat_ln (name ln expr tail : GoString) :
    ln <:+: invalidFormat name ln expr tail :=
  ⟨str "invalid " ++ name ++ str " expression on line ", str ": " ++ expr ++ str ": " ++ tail,
    by simp [invalidFormat, List.append_assoc]⟩

theorem infix_invalidFormat_expr (name ln expr tail : GoString) :
    expr <:+: invalidFormat name ln expr tail :=
  ⟨str "invalid " ++ name ++ str " expression on line " ++ ln ++ str ": ", str ": " ++ tail,
    by simp [invalidFormat, List.append_assoc]⟩

theorem infix_invalidTopFormat_ln (ln expr tail : GoString) :
    ln <:+: invalidTopFormat ln expr tail :=
  ⟨str "invalid top expression on line ", str ": " ++ expr ++ tail,
    by simp [invalidTopFormat, List.append_assoc]⟩

theorem infix_invalidTopFormat_expr (ln expr tail : GoString) :
    expr <:+: invalidTopFormat ln expr tail :=
  ⟨str "invalid top expression on line " ++ ln ++ str ": ", tail,
    by simp [invalidTopFormat, List.append_assoc]⟩

/-- What an error of `compileScalar` looks like. -/
theorem compileScalar_fail {E V P T : Type} [DecidableEq T] (L : ExprLib E V P T)
    (ln name : GoString) (params : P) (valueTmpl : Option V) (a : GoString) (n : Int × Int)
    (expr msg : GoString)
    (h : compileScalar L ln name params valueTmpl a n expr = .fail msg) :
    ∃ format, msg = L.Errorf format ∧ ln <:+: format ∧ expr <:+: format := by
  unfold compileScalar at h
  split at h
  · exact absurd h (by simp)
  · injection h with h
    exact ⟨_, h.symm, infix_invalidFormat_ln _ _ _ _, infix_invalidFormat_expr _ _ _ _⟩
  · split at h
    · exact absurd h (by simp)
    · injection h with h
      exact ⟨_, h.symm, infix_invalidFormat_ln _ _ _ _, infix_invalidFormat_expr _ _ _ _⟩
    · split at h
      · exact absurd h (by simp)
      · split at h
        · injection h with h
          exact ⟨_, h.symm, infix_invalidFormat_ln _ _ _ _, infix_invalidFormat_expr _ _ _ _⟩
        · exact absurd h (by simp)

/-- What an error of `compileCallExpr` looks like. -/
theorem compileCallExpr_fail {E V P T : Type} (L : ExprLib E V P T)
    (ln expr name path msg : GoString)
    (h : compileCallExpr L ln expr name path = .fail msg) :
    ∃ format, msg = L.Errorf format ∧ ln <:+: format ∧ expr <:+: format := by
  unfold compileCallExpr at h
  split at h
  · exact absurd h (by simp)
  · injection h with h
    exact ⟨_, h.symm, infix_invalidFormat_ln _ _ _ _, infix_invalidFormat_expr _ _ _ _⟩
  · split at h
    · exact absurd h (by simp)
    · injection h with h
      exact ⟨_, h.symm, infix_invalidFormat_ln _ _ _ _, infix_invalidFormat_expr _ _ _ _⟩
    · exact absurd h (by simp)

/-- An error of `topArguments` names the first field when there are two fields
or more, and the whole argument list when there are fewer. -/
theorem topArguments_fail {E V P T : Type} (L : ExprLib E V P T)
    (ln expr msg : GoString) (h : topArguments L ln expr = .fail msg) :
    ∃ format, msg = L.Errorf format ∧ ln <:+: format ∧
      (if (L.split expr (str ",")).length > 1 then (L.split expr (str ",")).headD [] else expr)
        <:+: format := by
  unfold topArguments at h
  simp only at h
  split at h
  · rename_i hlen
    rw [if_pos hlen]
    split at h
    · injection h with h
      exact ⟨_, h.symm, infix_invalidTopFormat_ln _ _ _, infix_invalidTopFormat_expr _ _ _⟩
    · split at h
      · split at h
        · injection h with h
          exact ⟨_, h.symm, infix_invalidTopFormat_ln _ _ _, infix_invalidTopFormat_expr _ _ _⟩
        · exact absurd h (by simp)
      · exact absurd h (by simp)
  · rename_i hlen
    rw [if_neg hlen]
    injection h with h
    exact ⟨_, h.symm, infix_invalidTopFormat_ln _ _ _, infix_invalidTopFormat_expr _ _ _⟩

/-- When `topArguments` returns, there are two fields or more and the text left
is the first of them. -/
theorem topArguments_text {E V P T : Type} (L : ExprLib E V P T)
    (ln expr : GoString) (n : Int × Int) (expr2 : GoString)
    (h : topArguments L ln expr = .ret (n, expr2)) :
    (L.split expr (str ",")).length > 1 ∧ expr2 = (L.split expr (str ",")).headD [] := by
  unfold topArguments at h
  simp only at h
  split at h
  · rename_i hlen
    refine ⟨hlen, ?_⟩
    split at h
    · exact absurd h (by simp)
    · split at h
      · split at h
        · exact absurd h (by simp)
        · injection h with h
          exact (congrArg Prod.snd h).symm
      · injection h with h
        exact (congrArg Prod.snd h).symm
  · exact absurd h (by simp)

theorem slice_eq_some {s r : GoString} {lo hi : Nat} (h : slice s lo hi = some r) :
    r = (s.take hi).drop lo ∧ lo ≤ hi ∧ hi ≤ s.length := by
  unfold slice at h
  split at h
  · injection h with h
    exact ⟨h.symm, by assumption⟩
  · exact absurd h (by simp)

/-- C5 (amended): when `ParseExpr` returns an error, its message is what
`fmt.Errorf` makes of a format string that contains the line-number string `ln`
and the text then held in `expr`, which is `textLeft`: the formula as passed in
when it has none of the prefixes `sum(`, `len(`, `mean(`, `std(`, `top(`; the
formula without the prefix and without its last byte for `sum(`, `len(`,
`mean(`, `std(`; and for `top(` the first field of that remainder when the
remainder has two comma-separated fields or more, the whole remainder when it
has fewer. When `fmt.Errorf` returns formats without `%` unchanged and the
format has none, the message itself contains both. -/
theorem C5_error_message_holds_text_left {E V P T : Type} [DecidableEq T] (L : ExprLib E V P T)
    (ln expr name : GoString) (params : P) (valueTmpl : Option V) (path msg : GoString)
    (h : ParseExpr L ln expr name params valueTmpl path = .fail msg) :
    ∃ format, msg = L.Errorf format ∧ ln <:+: format ∧ textLeft L expr <:+: format ∧
      ((∀ f, 37 ∉ f → L.Errorf f = f) → 37 ∉ format →
        ln <:+: msg ∧ textLeft L expr <:+: msg) := by
  have key : ∃ format, msg = L.Errorf format ∧ ln <:+: format ∧
      textLeft L expr <:+: format := by
    unfold ParseExpr at h
    unfold textLeft
    split at h
    · rename_i h1
      simp only [h1, if_true]
      split at h
      · exact absurd h (by simp)
      · rename_i e he
        have hs : stripped expr 4 = e := (slice_eq_some he).1.symm
        rw [hs]
        exact compileScalar_fail _ _ _ _ _ _ _ _ _ h
    · rename_i h1
      simp only [h1, if_false]
      split at h
      · rename_i h2
        simp only [h2, if_true]
        split at h
        · exact absurd h (by simp)
        · rename_i e he
          have hs : stripped expr 4 = e := (slice_eq_some he).1.symm
          rw [hs]
          exact compileScalar_fail _ _ _ _ _ _ _ _ _ h
      · rename_i h2
        simp only [h2, if_false]
        split at h
        · rename_i h3
          simp only [h3, if_true]
          split at h
          · exact absurd h (by simp)
          · rename_i e he
            have hs : stripped expr 5 = e := (slice_eq_some he).1.symm
            rw [hs]
            exact compileScalar_fail _ _ _ _ _ _ _ _ _ h
        · rename_i h3
          simp only [h3, if_false]
          split at h
          · rename_i h4
            simp only [h4, if_true]
            split at h
            · exact absurd h (by simp)
            · rename_i e he
              have hs : stripped expr 4 = e := (slice_eq_some he).1.symm
              rw [hs]
              exact compileScalar_fail _ _ _ _ _ _ _ _ _ h
          · rename_i h4
            simp only [h4, if_false]
            split at h
            · rename_i h5
              simp only [h5, if_true]
              split at h
              · exact absurd h (by simp)
              · rename_i e he
                have hs : stripped expr 4 = e := (slice_eq_some he).1.symm
                rw [hs]
                split at h
                · exact absurd h (by simp)
                · rename_i m hm
                  injection h with h
                  subst h
                  exact topArguments_fail _ _ _ _ hm
                · rename_i n e2 hm
                  obtain ⟨hlen, h2⟩ := topArguments_text _ _ _ _ _ hm
                  rw [if_pos hlen, ← h2]
                  exact compileScalar_fail _ _ _ _ _ _ _ _ _ h
            · rename_i h5
              simp only [h5, if_false]
              split at h
              · exact compileCallExpr_fail _ _ _ _ _ _ h
              · exact compileScalar_fail _ _ _ _ _ _ _ _ _ h
  obtain ⟨f, hm, h1, h2⟩ := key
  refine ⟨f, hm, h1, h2, ?_⟩
  intro hE hf
  rw [hm, hE f hf]
  exact ⟨h1, h2⟩

/-- C5, witness: the grammar rejects `1+` in `sum(1+)` on line 7, and the
message names `1+`, the text left of `sum(1+)`. -/
theorem C5_error_message_holds_text_left_witness :
    ParseExpr sampleLib (str "7") (str "sum(1+)") (str "risk") () none []
      = .fail (str "invalid risk expression on line 7: 1+: Invalid token") ∧
    textLeft sampleLib (str "sum(1+)") = str "1+" ∧
    ∃ format,
      str "invalid risk expression on line 7: 1+: Invalid token" = sampleLib.Errorf format ∧
      str "7" <:+: format ∧ textLeft sampleLib (str "sum(1+)") <:+: format ∧
      ((∀ f, 37 ∉ f → sampleLib.Errorf f = f) → 37 ∉ format →
        str "7" <:+: str "invalid risk expression on line 7: 1+: Invalid token" ∧
        textLeft sampleLib (str "sum(1+)") <:+:
          str "invalid risk expression on line 7: 1+: Invalid token") :=
  ⟨by decide, by decide,
   C5_error_message_holds_text_left sampleLib (str "7") (str "sum(1+)") (str "risk") ()
    none [] (str "invalid risk expression on line 7: 1+: Invalid token") (by decide)⟩

/-- C5, counterexample: `top(x)` on line 7 has no selection count; the message
names `x`, the text left after the prefix and the last byte were cut off, and
does not contain the formula `top(x)` that was passed in. For `top(5%d)` the
text left, `5%d`, reaches `fmt.Errorf` inside the format string, and the message
holds `5%!d(MISSING)` in its place: it contains neither `top(5%d)` nor `5%d`. -/
theorem C5_message_lacks_original_formula :
    ParseExpr sampleLib (str "7") (str "top(x)") (str "risk") () none []
      = .fail (str "invalid top expression on line 7: x: missing top length") ∧
    ¬ (str "top(x)" <:+: str "invalid top expression on line 7: x: missing top length") ∧
    ParseExpr sampleLib (str "7") (str "top(5%d)") (str "risk") () none []
      = .fail (str "invalid top expression on line 7: 5%!d(MISSING): missing top length") ∧
    ¬ (str "5%d" <:+:
      str "invalid top expression on line 7: 5%!d(MISSING): missing top length") := by
  refine ⟨rfl, by decide, rfl, by decide⟩

/-! ### The registry -/

theorem wrap64_id {x : Int} (h1 : -(2 : Int) ^ 63 ≤ x) (h2 : x < (2 : Int) ^ 63) : wrap64 x = x := by
  unfold wrap64
  have : (x + (2 : Int) ^ 63) % (2 : Int) ^ 64 = x + (2 : Int) ^ 63 :=
    Int.emod_eq_of_lt (by omega) (by omega)
  omega

theorem runRegistry_append (pre post : List RegStep) (r : Registry) :
    runRegistry (pre ++ post) r =
      ((runRegistry post (runRegistry pre r).1).1,
       (runRegistry pre r).2 ++ (runRegistry post (runRegistry pre r).1).2) := by
  induction pre generalizing r with
  | nil => simp [runRegistry]
  | cons st rest ih =>
    cases st with
    | register => simp [runRegistry, ih]
    | unregister n => simp [runRegistry, ih]

theorem registerCount_append (pre post : List RegStep) :
    registerCount (pre ++ post) = registerCount pre + registerCount post := by
  induction pre with
  | nil => simp [registerCount]
  | cons st rest ih =>
    cases st with
    | register => simp [registerCount, ih]; omega
    | unregister n => simp [registerCount, ih]

theorem mem_Delete {m : ClientMap} {k : Int} {e : Int × Client} (h : e ∈ m.Delete k) : e ∈ m := by
  unfold ClientMap.Delete at h
  exact List.mem_of_mem_filter h

/-- The run from a registry whose counter is `c`: the tokens are above `c`,
strictly increasing, at most `c` plus the number of register steps, and the
final table holds issued tokens only. -/
theorem runRegistry_tokens (steps : List RegStep) (r : Registry)
    (hr : r.KeysIssued) (hb : r.clientCounter + registerCount steps < (2 : Int) ^ 63) :
    (runRegistry steps r).1.KeysIssued ∧
    (runRegistry steps r).1.clientCounter = r.clientCounter + registerCount steps ∧
    (∀ t ∈ (runRegistry steps r).2, r.clientCounter < t ∧ t ≤ r.clientCounter + registerCount steps) ∧
    (runRegistry steps r).2.Sorted (· < ·) := by
  induction steps generalizing r with
  | nil => simp [runRegistry, registerCount, hr]
  | cons st rest ih =>
    cases st with
    | register =>
      have hc := hr.1
      simp only [registerCount, Nat.cast_add, Nat.cast_one] at hb
      have hw : wrap64 (r.clientCounter + 1) = r.clientCounter + 1 :=
        wrap64_id (by omega) (by omega)
      have hr1 : (register r).1.KeysIssued := by
        constructor
        · simp only [register, hw]; omega
        · intro e he
          simp only [register, hw, ClientMap.Store, List.mem_cons] at he ⊢
          rcases he with he | he
          · subst he; simp; omega
          · have := hr.2 e (mem_Delete he)
            omega
      have hcnt : (register r).1.clientCounter = r.clientCounter + 1 := by
        simp [register, hw]
      have htok : (register r).2 = r.clientCounter + 1 := by simp [register, hw]
      obtain ⟨i1, i2, i3, i4⟩ := ih (register r).1 hr1 (by rw [hcnt]; omega)
      simp only [runRegistry, registerCount, Nat.cast_add, Nat.cast_one]
      refine ⟨i1, by rw [i2, hcnt]; omega, ?_, ?_⟩
      · intro t ht
        simp only [List.mem_cons] at ht
        rcases ht with ht | ht
        · rw [ht, htok]; omega
        · have := i3 t ht
          rw [hcnt] at this
          omega
      · refine List.sorted_cons.mpr ⟨?_, i4⟩
        intro t ht
        have := i3 t ht
        rw [hcnt] at this
        rw [htok]; omega
    | unregister n =>
      simp only [registerCount] at hb
      have hr1 : (unregister r n).KeysIssued :=
        ⟨hr.1, fun e he => hr.2 e (mem_Delete he)⟩
      simpa [runRegistry, registerCount, unregister] using ih (unregister r n) hr1 hb

theorem Registry.init_keysIssued : Registry.init.KeysIssued := by
  simp [Registry.KeysIssued, Registry.init]

theorem Delete_of_Load_none (m : ClientMap) (n : Int) (h : m.Load n = none) : m.Delete n = m := by
  unfold ClientMap.Delete
  unfold ClientMap.Load at h
  rw [List.filter_eq_self]
  intro e he
  simp only [ne_eq, decide_not, Bool.not_eq_eq_eq_not, Bool.not_true, decide_eq_false_iff_not]
  intro hk
  rw [List.lookup_eq_none_iff] at h
  have := h e he
  simp [hk] at this

theorem Load_some_mem {m : ClientMap} {n : Int} {c : Client} (h : m.Load n = some c) :
    (n, c) ∈ m := by
  unfold ClientMap.Load at h
  induction m with
  | nil => simp at h
  | cons e rest ih =>
    obtain ⟨k, v⟩ := e
    simp only [List.lookup_cons] at h
    split at h
    · rename_i hk
      simp only [beq_iff_eq] at hk
      injection h with h
      simp [hk, h]
    · exact List.mem_cons_of_mem _ (ih h)

/-- C6: in every sequence of register and unregister steps from process start
with fewer than `2^63` register steps (the `int64` counter does not wrap), the
tokens the register steps return are strictly increasing, hence pairwise
distinct; a token that is removed from the table is not returned by any later
register step; and unregistering a token that is not in the table leaves the
counter and the table as they are (`unregister` is total: it cannot fail). -/
theorem C6_tokens_increasing_never_reused (steps : List RegStep)
    (hbound : registerCount steps < 2 ^ 63) :
    (runRegistry steps Registry.init).2.Sorted (· < ·) ∧
    (runRegistry steps Registry.init).2.Nodup ∧
    (∀ pre post n, steps = pre ++ RegStep.unregister n :: post →
      ((runRegistry pre Registry.init).1.clients.Load n).isSome →
      n ∉ (runRegistry post (unregister (runRegistry pre Registry.init).1 n)).2) ∧
    (∀ (r : Registry) (n : Int), r.clients.Load n = none → unregister r n = r) := by
  have hb0 : Registry.init.clientCounter + registerCount steps < (2 : Int) ^ 63 := by
    simp only [Registry.init, zero_add]
    exact_mod_cast hbound
  obtain ⟨_, _, _, hs⟩ := runRegistry_tokens steps Registry.init Registry.init_keysIssued hb0
  refine ⟨hs, hs.nodup, ?_, ?_⟩
  · intro pre post n hsteps hload hmem
    have hcount : registerCount steps = registerCount pre + registerCount post := by
      rw [hsteps, registerCount_append]; simp [registerCount]
    have hpre := runRegistry_tokens pre Registry.init Registry.init_keysIssued (by
      simp only [Registry.init, zero_add]
      have : registerCount pre ≤ registerCount steps := by omega
      have h2 : (registerCount steps : Int) < 2 ^ 63 := by exact_mod_cast hbound
      omega)
    obtain ⟨hk, hc, _, _⟩ := hpre
    have hc0 : (runRegistry pre Registry.init).1.clientCounter = registerCount pre := by
      rw [hc]; simp [Registry.init]
    obtain ⟨c, hc1⟩ := Option.isSome_iff_exists.mp hload
    have hn := (hk.2 _ (Load_some_mem hc1)).2
    have hk1 : (unregister (runRegistry pre Registry.init).1 n).KeysIssued :=
      ⟨hk.1, fun e he => hk.2 e (mem_Delete he)⟩
    have hpost := runRegistry_tokens post (unregister (runRegistry pre Registry.init).1 n) hk1 (by
      simp only [unregister, hc0]
      have h2 : (registerCount steps : Int) < 2 ^ 63 := by exact_mod_cast hbound
      rw [hcount] at h2
      push_cast at h2
      omega)
    have := (hpost.2.2.1 n hmem).1
    simp only [unregister] at this
    omega
  · intro r n h
    cases r with
    | mk c m =>
      simp only [unregister, Registry.mk.injEq, true_and]
      exact Delete_of_Load_none m n h

/-- C6, witness: three connections, the first closed before the third opens. -/
theorem C6_tokens_increasing_never_reused_witness :
    registerCount [.register, .register, .unregister 1, .register, .unregister 9] < 2 ^ 63 ∧
    (runRegistry [.register, .register, .unregister 1, .register, .unregister 9] Registry.init).2
      = [1, 2, 3] ∧
    (runRegistry [.register, .register, .unregister 1, .register, .unregister 9]
      Registry.init).2.Sorted (· < ·) :=
  ⟨by decide, by decide,
   (C6_tokens_increasing_never_reused
      [.register, .register, .unregister 1, .register, .unregister 9] (by decide)).1⟩

/-! ### The dispatch loop -/

theorem sendAndEnd_effects (before : List Effect) (ch : Option Nat) (msg : Payload) :
    (sendAndEnd before ch msg).effects = before ++ [.chanSend ch msg] := rfl

/-- With a session under the token, every effect of a correlated request
concerns that session. -/
theorem dispatchRequest_ofSession (eng : Engine) (clients : ClientMap) (msg : List GoVal)
    (m0 : GoVal) (h0 : msg[0]? = some m0)
    (htag : m0.asString = str "riskFile" ∨ m0.asString = str "saveRiskFile" ∨
      m0.asString = str "deleteRiskFile" ∨ m0.asString = str "historicalRisk")
    (client : Client) (hc : clients.Load (tokenOf msg) = some client) :
    ∀ e ∈ (dispatchRequest eng clients msg).effects, e.OfSession client := by
  unfold tokenOf at hc
  unfold dispatchRequest
  simp only [h0, htag, if_true, hc]
  intro e he
  repeat' split at he
  all_goals
    simp only [sendAndEnd_effects, List.mem_append, List.mem_cons, List.mem_singleton,
      List.not_mem_nil, or_false, false_or, List.nil_append] at he
  all_goals
    first
    | exact he.elim
    | (rcases he with he | he <;> subst he <;> simp [Effect.OfSession])
    | (subst he; simp [Effect.OfSession])

/-- C7: a queued message tagged `riskFile`, `saveRiskFile`, `deleteRiskFile` or
`historicalRisk` is answered to the session registered under the token in its
last element and to nobody else: every send of the step goes to that session's
queue, none to the queue of another session, every file-store call and
portfolio read names that session's user id, and nothing is written upstream.
With no session under the token the step does nothing at all. -/
theorem C7_origin_correlation (eng : Engine) (clients : ClientMap) (msg : List GoVal)
    (m0 : GoVal) (h0 : msg[0]? = some m0)
    (htag : m0.asString = str "riskFile" ∨ m0.asString = str "saveRiskFile" ∨
      m0.asString = str "deleteRiskFile" ∨ m0.asString = str "historicalRisk") :
    (∀ client, clients.Load (tokenOf msg) = some client →
      (∀ e ∈ (dispatchRequest eng clients msg).effects, e.OfSession client) ∧
      (∀ k other, clients.Load k = some other → other.Ch ≠ client.Ch →
        ∀ p, Effect.chanSend other.Ch p ∉ (dispatchRequest eng clients msg).effects)) ∧
    (clients.Load (tokenOf msg) = none →
      dispatchRequest eng clients msg = { effects := [], ending := .done }) := by
  constructor
  · intro client hc
    have h := dispatchRequest_ofSession eng clients msg m0 h0 htag client hc
    refine ⟨h, ?_⟩
    intro k other _ hne p hmem
    exact hne (h _ hmem)
  · intro hc
    unfold tokenOf at hc
    unfold dispatchRequest
    simp only [h0, htag, if_true, hc]

/-- C7, witness: the sessions 3 (user 7) and 5 (unauthenticated) both ask for a
history; each answer goes to the queue of the session that asked. -/
theorem C7_origin_correlation_witness :
    dispatchRequest sampleEngine sampleClients
      [.string (str "historicalRisk"), .string (str "p"), .string (str "r"), .string (str "x"),
        .int64 3]
      = { effects := [.readPortfolios 7, .chanSend (some 30) (.json
            [.string (str "historicalRisk"), .string (str "p"), .string (str "r"),
              .string (str "x"), .data 1 true])],
          ending := .done } ∧
    dispatchRequest sampleEngine sampleClients
      [.string (str "riskFile"), .string (str "a.ini"), .int64 5]
      = { effects := [.getFile 0 (str "a.ini"), .chanSend (some 50) (.json
            [.string (str "riskFile"), .string (str "a.ini"), .null,
              .string (str "no such file")])],
          ending := .done } ∧
    ((∀ client, sampleClients.Load (tokenOf [.string (str "riskFile"), .string (str "a.ini"),
        .int64 5]) = some client →
      (∀ e ∈ (dispatchRequest sampleEngine sampleClients
          [.string (str "riskFile"), .string (str "a.ini"), .int64 5]).effects,
        e.OfSession client) ∧
      (∀ k other, sampleClients.Load k = some other → other.Ch ≠ client.Ch →
        ∀ p, Effect.chanSend other.Ch p ∉ (dispatchRequest sampleEngine sampleClients
          [.string (str "riskFile"), .string (str "a.ini"), .int64 5]).effects)) ∧
    (sampleClients.Load (tokenOf [.string (str "riskFile"), .string (str "a.ini"),
        .int64 5]) = none →
      dispatchRequest sampleEngine sampleClients
        [.string (str "riskFile"), .string (str "a.ini"), .int64 5]
        = { effects := [], ending := .done })) :=
  ⟨by decide, by decide,
   C7_origin_correlation sampleEngine sampleClients
     [.string (str "riskFile"), .string (str "a.ini"), .int64 5] (.string (str "riskFile"))
     rfl (Or.inl rfl)⟩

/-! ### The recompute tick -/

/-- One tick over a table in which every session has its queue: each entry whose
envelope can be encoded is sent that envelope, in the order of the table. -/
theorem fanOut_live (eng : Engine) (clients : ClientMap) (hlive : ∀ e ∈ clients, e.2.Ch ≠ none) :
    (fanOut eng clients).ending = .done ∧
    (fanOut eng clients).effects =
      clients.filterMap (fun e => (riskEnvelope eng e.2.UserId).map (Effect.chanSend e.2.Ch)) := by
  induction clients with
  | nil => simp [fanOut]
  | cons e rest ih =>
    obtain ⟨k, client⟩ := e
    have ih1 := ih (fun e he => hlive e (List.mem_cons_of_mem _ he))
    have hch := hlive (k, client) (List.mem_cons_self _ _)
    simp only [fanOut, List.filterMap_cons, riskEnvelope]
    cases hm : Marshal [GoVal.string (str "risk"), reportFor eng client.UserId] with
    | none => simpa [riskEnvelope] using ih1
    | some out =>
      cases hq : client.Ch with
      | none => exact absurd hq hch
      | some ch => simp [ih1.1, ih1.2, riskEnvelope]

/-- C8 (amended): on a tick over a registry in which every session has its queue,
every session whose envelope `["risk", report]` can be encoded is sent exactly
that envelope, in the order of the table, and the tick ends. The report of a
session whose user id has no entry in the report map (an unauthenticated session
with user id 0 included) is the zero value of the report type, so such a session
is sent `["risk", zero]` whenever that value can be encoded. -/
theorem C8_tick_pushes_to_every_live_session (eng : Engine) (clients : ClientMap)
    (hlive : ∀ e ∈ clients, e.2.Ch ≠ none) :
    (riskTick eng clients).ending = .done ∧
    (riskTick eng clients).effects =
      clients.filterMap (fun e => (riskEnvelope eng e.2.UserId).map (Effect.chanSend e.2.Ch)) ∧
    (∀ e ∈ clients, eng.RunUserPortfolios.lookup e.2.UserId = none →
      eng.zeroReport.encodable = true →
      Effect.chanSend e.2.Ch (.json [.string (str "risk"), eng.zeroReport])
        ∈ (riskTick eng clients).effects) := by
  obtain ⟨h1, h2⟩ := fanOut_live eng clients hlive
  refine ⟨h1, h2, ?_⟩
  intro e he hnone henc
  unfold riskTick
  rw [h2, List.mem_filterMap]
  refine ⟨e, he, ?_⟩
  have hs : GoVal.encodable (GoVal.string (str "risk")) = true := rfl
  simp [riskEnvelope, reportFor, hnone, Marshal, henc, hs]

/-- C8, witness: the two sample sessions. -/
theorem C8_tick_pushes_to_every_live_session_witness :
    (∀ e ∈ sampleClients, e.2.Ch ≠ none) ∧
    (riskTick sampleEngine sampleClients).ending = .done ∧
    (riskTick sampleEngine sampleClients).effects =
      sampleClients.filterMap
        (fun e => (riskEnvelope sampleEngine e.2.UserId).map (Effect.chanSend e.2.Ch)) :=
  ⟨by decide,
   (C8_tick_pushes_to_every_live_session sampleEngine sampleClients (by decide)).1,
   (C8_tick_pushes_to_every_live_session sampleEngine sampleClients (by decide)).2.1⟩

/-- C8, counterexample: only user 7 has a report; the session with token 5 is
unauthenticated (user id 0, no entry in the report map) and is still sent an
envelope, `["risk", null]`. -/
theorem C8_session_without_report_is_pushed :
    sampleEngine.RunUserPortfolios.lookup 0 = none ∧
    sampleClients.Load 5 = some { Ch := some 50, UserId := 0, Conn := some 51 } ∧
    riskTick sampleEngine sampleClients =
      { effects := [.chanSend (some 30) (.json [.string (str "risk"), .data 2 true]),
                    .chanSend (some 50) (.json [.string (str "risk"), .null])],
        ending := .done } := by
  decide

/-! ### `historicalRisk` -/

theorem historyOf_no_def (defs : List RiskDef) (riskName paramName : GoString)
    (h : ∀ r ∈ defs, r.DisplayName ≠ riskName) : historyOf defs riskName paramName = [] := by
  unfold historyOf
  have : defs.find? (fun r => riskName == r.DisplayName) = none := by
    rw [List.find?_eq_none]
    intro r hr
    simp only [beq_iff_eq]
    exact fun heq => h r hr heq.symm
  simp [this]

theorem historyOf_no_param (defs : List RiskDef) (riskName paramName : GoString) (r : RiskDef)
    (hr : defs.find? (fun r => riskName == r.DisplayName) = some r)
    (h : ∀ rp ∈ r.Params, rp.Name ≠ paramName) : historyOf defs riskName paramName = [] := by
  unfold historyOf
  have : r.Params.find? (fun rp => rp.Name == paramName) = none := by
    rw [List.find?_eq_none]
    intro rp hrp
    simp only [beq_iff_eq]
    exact h rp hrp
  simp [hr, this]

/-- C9 (amended): a `historicalRisk` request of a registered session is dropped,
with no envelope sent to any session, when its user has no portfolio set, or
when the user has one, the message has a second element and the portfolio that
element names is not in the set. When the message has the elements 1, 2 and 3
(portfolio, risk and parameter name, each read as a string, the empty string for
an element that is not one), the portfolio exists, and no risk definition has
the requested display name or the first one that has it holds no parameter of
the requested name, the request is answered: the envelope
`["historicalRisk", portfolio, riskName, paramName]`, without a history, is sent
on the queue of the requesting session. -/
theorem C9_historicalRisk_misses (eng : Engine) (clients : ClientMap) (msg : List GoVal)
    (m0 : GoVal) (client : Client) (h0 : msg[0]? = some m0)
    (htag : m0.asString = str "historicalRisk")
    (hc : clients.Load (tokenOf msg) = some client) :
    (eng.UserPortfolios client.UserId = none →
      dispatchRequest eng clients msg
        = { effects := [.readPortfolios client.UserId], ending := .done }) ∧
    (∀ portfolios m1, eng.UserPortfolios client.UserId = some portfolios →
      msg[1]? = some m1 → portfolios.lookup m1.asString = none →
      dispatchRequest eng clients msg
        = { effects := [.readPortfolios client.UserId], ending := .done }) ∧
    (∀ portfolios m1 m2 m3 portfolio, eng.UserPortfolios client.UserId = some portfolios →
      msg[1]? = some m1 → msg[2]? = some m2 → msg[3]? = some m3 →
      portfolios.lookup m1.asString = some portfolio →
      ((∀ r ∈ portfolio.RiskDefs, r.DisplayName ≠ m2.asString) ∨
        (∃ r, portfolio.RiskDefs.find? (fun r => m2.asString == r.DisplayName) = some r ∧
          ∀ rp ∈ r.Params, rp.Name ≠ m3.asString)) →
      dispatchRequest eng clients msg
        = sendAndEnd [.readPortfolios client.UserId] client.Ch
            (.json [.string (str "historicalRisk"), .string m1.asString, .string m2.asString,
              .string m3.asString])) := by
  unfold tokenOf at hc
  have hpre : ∀ r, dispatchRequest eng clients msg = r ↔
      (match eng.UserPortfolios client.UserId with
        | none => { effects := [.readPortfolios client.UserId], ending := .done }
        | some portfolios =>
          match msg[1]? with
          | none => { effects := [.readPortfolios client.UserId], ending := .panicked }
          | some m1 =>
            match portfolios.lookup m1.asString with
            | none => { effects := [.readPortfolios client.UserId], ending := .done }
            | some portfolio =>
              match msg[2]?, msg[3]? with
              | some m2, some m3 =>
                sendAndEnd [.readPortfolios client.UserId] client.Ch (marshalDropErr
                  ([GoVal.string (str "historicalRisk"), .string m1.asString,
                    .string m2.asString, .string m3.asString] ++
                    historyOf portfolio.RiskDefs m2.asString m3.asString))
              | _, _ => { effects := [.readPortfolios client.UserId], ending := .panicked }) = r := by
    intro r
    unfold dispatchRequest
    simp only [h0, htag, if_true, hc, or_true]
  refine ⟨?_, ?_, ?_⟩
  · intro hn
    rw [hpre]; simp only [hn]
  · intro portfolios m1 hp h1 hl
    rw [hpre]; simp only [hp, h1, hl]
  · intro portfolios m1 m2 m3 portfolio hp h1 h2 h3 hl hmiss
    rw [hpre]; simp only [hp, h1, h2, h3, hl]
    have hh : historyOf portfolio.RiskDefs m2.asString m3.asString = [] := by
      rcases hmiss with hmiss | ⟨r, hr, hmiss⟩
      · exact historyOf_no_def _ _ _ hmiss
      · exact historyOf_no_param _ _ _ r hr hmiss
    rw [hh]
    simp [marshalDropErr, Marshal, GoVal.encodable]

/-- C9, witness: session 3 of user 7 asks for the portfolio `nope`, which user 7
does not have. -/
theorem C9_historicalRisk_misses_witness :
    dispatchRequest sampleEngine sampleClients
      [.string (str "historicalRisk"), .string (str "nope"), .string (str "r"),
        .string (str "x"), .int64 3]
      = { effects := [.readPortfolios 7], ending := .done } :=
  (C9_historicalRisk_misses sampleEngine sampleClients
    [.string (str "historicalRisk"), .string (str "nope"), .string (str "r"),
      .string (str "x"), .int64 3]
    (.string (str "historicalRisk")) { Ch := some 30, UserId := 7, Conn := some 31 }
    rfl rfl (by decide)).2.1
    [(str "p", samplePortfolio)] (.string (str "nope")) (by decide) rfl (by decide)

/-- C9, counterexample: user 7 has the portfolio `p`, whose only risk definition
is `r` with the single parameter `x`. A request for the risk `q` (no such
definition) and one for the parameter `y` of `r` (no such parameter) are both
answered with an envelope on the queue of the requesting session 3. -/
theorem C9_unknown_risk_or_param_is_answered :
    dispatchRequest sampleEngine sampleClients
      [.string (str "historicalRisk"), .string (str "p"), .string (str "q"), .string (str "x"),
        .int64 3]
      = { effects := [.readPortfolios 7, .chanSend (some 30) (.json
            [.string (str "historicalRisk"), .string (str "p"), .string (str "q"),
              .string (str "x")])],
          ending := .done } ∧
    dispatchRequest sampleEngine sampleClients
      [.string (str "historicalRisk"), .string (str "p"), .string (str "r"), .string (str "y"),
        .int64 3]
      = { effects := [.readPortfolios 7, .chanSend (some 30) (.json
            [.string (str "historicalRisk"), .string (str "p"), .string (str "r"),
              .string (str "y")])],
          ending := .done } := by
  decide

/-- A `historicalRisk` request too short for the element the code reads next
is neither dropped nor answered: with a portfolio set found, a message without
`msg[1]` panics at line 214, and with the portfolio found, a message without
`msg[2]` or `msg[3]` panics at line 219 or 220. Nothing is sent. -/
theorem historicalRisk_short_request_panics (eng : Engine) (clients : ClientMap)
    (msg : List GoVal) (m0 : GoVal) (client : Client) (portfolios : List (GoString × Portfolio))
    (h0 : msg[0]? = some m0) (htag : m0.asString = str "historicalRisk")
    (hc : clients.Load (tokenOf msg) = some client)
    (hp : eng.UserPortfolios client.UserId = some portfolios) :
    (msg[1]? = none →
      dispatchRequest eng clients msg
        = { effects := [.readPortfolios client.UserId], ending := .panicked }) ∧
    (∀ m1 portfolio, msg[1]? = some m1 → portfolios.lookup m1.asString = some portfolio →
      msg[2]? = none ∨ msg[3]? = none →
      dispatchRequest eng clients msg
        = { effects := [.readPortfolios client.UserId], ending := .panicked }) := by
  unfold tokenOf at hc
  refine ⟨?_, ?_⟩
  · intro h1
    unfold dispatchRequest
    simp only [h0, htag, if_true, hc, or_true, hp, h1]
  · intro m1 portfolio h1 hl h23
    unfold dispatchRequest
    simp only [h0, htag, if_true, hc, or_true, hp, h1, hl]
    rcases h23 with h2 | h3
    · simp only [h2]
    · simp only [h3]
      cases msg[2]? <;> rfl

/-- Session 3 of user 7 asks for its portfolio `p` without a risk name and a
parameter name: the step panics. -/
theorem historicalRisk_short_request_panics_witness :
    dispatchRequest sampleEngine sampleClients
      [.string (str "historicalRisk"), .string (str "p"), .int64 3]
      = { effects := [.readPortfolios 7], ending := .panicked } :=
  (historicalRisk_short_request_panics sampleEngine sampleClients
    [.string (str "historicalRisk"), .string (str "p"), .int64 3]
    (.string (str "historicalRisk")) { Ch := some 30, UserId := 7, Conn := some 31 }
    [(str "p", samplePortfolio)] rfl rfl (by decide) (by decide)).2
    (.string (str "p")) samplePortfolio rfl (by decide) (Or.inr rfl)

/-! ### File actions -/

/-- C10: when `DeleteFile` or `SaveFile` fails, the code appends the method value
`err.Error` instead of the string `err.Error()`; `json.Marshal` cannot encode a
function, its error is dropped, and the nil byte slice is sent to the session:
no JSON array, no action tag, no file name, no message. Session 3 (user 7)
deletes the missing file `b.py`; session 5 (user 0) saves `b.py` and is refused.
The `riskFile` path calls `err.Error()` and does send
`["riskFile", "b.py", null, "no such file"]`. -/
theorem C10_delete_save_failure_sends_nil :
    sampleEngine.DeleteFile 7 (str "b.py") = some (str "no such file") ∧
    dispatchRequest sampleEngine sampleClients
      [.string (str "deleteRiskFile"), .string (str "b.py"), .int64 3]
      = { effects := [.deleteFile 7 (str "b.py"), .chanSend (some 30) .nilBytes],
          ending := .done } ∧
    sampleEngine.SaveFile 0 (str "b.py") (str "x") = some (str "permission denied") ∧
    dispatchRequest sampleEngine sampleClients
      [.string (str "saveRiskFile"), .string (str "b.py"), .string (str "x"), .int64 5]
      = { effects := [.saveFile 0 (str "b.py") (str "x"), .chanSend (some 50) .nilBytes],
          ending := .done } ∧
    dispatchRequest sampleEngine sampleClients
      [.string (str "riskFile"), .string (str "b.py"), .int64 3]
      = { effects := [.getFile 7 (str "b.py"), .chanSend (some 30) (.json
            [.string (str "riskFile"), .string (str "b.py"), .null,
              .string (str "no such file")])],
          ending := .done } := by
  decide

/-! ## `ParseIni` -/

theorem stepLine_eq_applyLine (st : IniState) (ln : Nat) (raw : GoString) :
    stepLine st ln raw = applyLine st ln (classify raw) := by
  unfold stepLine classify
  cases hline : Trim raw blanks with
  | nil => rfl
  | cons c rest =>
    simp only
    by_cases h1 : c = 35 ∨ c = 59
    · simp only [h1, if_true, applyLine]
    · simp only [h1, if_false]
      by_cases h2 : c = 91
      · simp only [h2, if_true]
        cases hs : slice (91 :: rest) (bracketDepth (91 :: rest))
            ((91 :: rest).length - bracketDepth (91 :: rest)) with
        | none => simp only [applyLine]
        | some sname => simp only [applyLine, openSection]
      · simp only [h2, if_false]
        by_cases h3 : Index (c :: rest) 61 ≤ 0
        · simp only [h3, if_true, applyLine]
        · simp only [h3, if_false, applyLine, setValue]

/-! ### Lines -/

theorem Split_ne_nil (sep : Nat) (s : GoString) : Split sep s ≠ [] := by
  induction s with
  | nil => simp [Split]
  | cons c cs ih =>
    unfold Split
    split
    · simp
    · split <;> simp

theorem Split_no_sep (sep : Nat) (s : GoString) : ∀ l ∈ Split sep s, sep ∉ l := by
  induction s with
  | nil => simp [Split]
  | cons c cs ih =>
    unfold Split
    split
    · intro l hl
      simp only [List.mem_cons] at hl
      rcases hl with hl | hl
      · simp [hl]
      · exact ih l hl
    · rename_i hc
      split
      · intro l hl
        simp only [List.mem_singleton] at hl
        subst hl
        simpa using fun h => hc h.symm
      · rename_i l0 ls heq
        intro l hl
        simp only [List.mem_cons] at hl
        have ih0 := ih l0 (by simp [heq])
        rcases hl with hl | hl
        · subst hl
          simp only [List.mem_cons, not_or]
          exact ⟨fun h => hc h.symm, ih0⟩
        · exact ih l (by simp [heq, hl])

theorem Split_no_sep_self (sep : Nat) (l : GoString) (h : sep ∉ l) : Split sep l = [l] := by
  induction l with
  | nil => simp [Split]
  | cons c cs ih =>
    simp only [List.mem_cons, not_or] at h
    unfold Split
    rw [if_neg (fun hc => h.1 hc.symm), ih h.2]

theorem Split_append_sep (sep : Nat) (l rest : GoString) (h : sep ∉ l) :
    Split sep (l ++ sep :: rest) = l :: Split sep rest := by
  induction l with
  | nil => simp [Split]
  | cons c cs ih =>
    simp only [List.mem_cons, not_or] at h
    simp only [List.cons_append]
    conv_lhs => unfold Split
    rw [if_neg (fun hc => h.1 hc.symm), ih h.2]

theorem Split_Join (sep : Nat) (ls : List GoString) (hne : ls ≠ [])
    (h : ∀ l ∈ ls, sep ∉ l) : Split sep (Join sep ls) = ls := by
  induction ls with
  | nil => exact absurd rfl hne
  | cons l rest ih =>
    cases rest with
    | nil => simpa [Join] using Split_no_sep_self sep l (h l (by simp))
    | cons l2 rest2 =>
      simp only [Join]
      rw [Split_append_sep sep l _ (h l (by simp))]
      rw [ih (by simp) (fun x hx => h x (List.mem_cons_of_mem _ hx))]

/-! ### Trimming -/

theorem Trim_eq (s : GoString) :
    Trim s blanks = (s.dropWhile isBlank).rdropWhile isBlank := rfl

theorem rdropWhile_cons_neg (p : Nat → Bool) (c : Nat) (t : GoString) (h : p c = false) :
    ∃ t2, (c :: t).rdropWhile p = c :: t2 := by
  induction t using List.reverseRecOn with
  | nil => exact ⟨[], by simp [List.rdropWhile_singleton, h]⟩
  | append_singleton t x ih =>
    obtain ⟨t2, ht2⟩ := ih
    rw [← List.cons_append]
    by_cases hx : p x = true
    · rw [List.rdropWhile_concat_pos _ _ _ hx]
      exact ⟨t2, ht2⟩
    · rw [List.rdropWhile_concat_neg _ _ _ hx]
      exact ⟨t ++ [x], rfl⟩

theorem dropWhile_head_not (p : Nat → Bool) (s : GoString) (c : Nat) (t : GoString)
    (h : s.dropWhile p = c :: t) : p c = false := by
  induction s with
  | nil => simp at h
  | cons x xs ih =>
    rw [List.dropWhile_cons] at h
    split at h
    · exact ih h
    · rename_i hx
      injection h with h1 h2
      subst h1
      simpa using hx

theorem rdropWhile_last_not_blank (p : Nat → Bool) (s : GoString) (t : GoString) (c : Nat)
    (h : s.rdropWhile p = t ++ [c]) : p c = false := by
  have hne : s.rdropWhile p ≠ [] := by rw [h]; simp
  have := List.rdropWhile_last_not p s hne
  simp only [h, List.getLast_append_singleton] at this
  simpa using this

theorem Trim_noBlankEnds (s : GoString) : NoBlankEnds (Trim s blanks) := by
  rw [Trim_eq]
  constructor
  · intro c t h
    cases hd : s.dropWhile isBlank with
    | nil => rw [hd] at h; simp [List.rdropWhile_nil] at h
    | cons x xs =>
      have hx := dropWhile_head_not _ _ _ _ hd
      rw [hd] at h
      obtain ⟨t2, ht2⟩ := rdropWhile_cons_neg isBlank x xs hx
      rw [ht2] at h
      injection h with h1 _
      rw [← h1]; exact hx
  · intro t c h
    exact rdropWhile_last_not_blank _ _ _ _ h

theorem Trim_id (s : GoString) (h : NoBlankEnds s) : Trim s blanks = s := by
  rw [Trim_eq]
  have h1 : s.dropWhile isBlank = s := by
    cases s with
    | nil => rfl
    | cons c t =>
      have := h.1 c t rfl
      rw [List.dropWhile_cons_of_neg (by simp [this])]
  rw [h1]
  induction s using List.reverseRecOn with
  | nil => simp [List.rdropWhile_nil]
  | append_singleton t x _ =>
    have := h.2 t x rfl
    exact List.rdropWhile_concat_neg _ _ _ (by simp [this])

theorem Trim_subset (s : GoString) : Trim s blanks ⊆ s := by
  rw [Trim_eq]
  exact fun x hx => List.dropWhile_subset _ ((List.rdropWhile_prefix isBlank _).subset hx)

theorem Trim_trim (s : GoString) : Trim (Trim s blanks) blanks = Trim s blanks :=
  Trim_id _ (Trim_noBlankEnds s)

/-! ### A written line is read back as what it was written from -/

theorem bracketDepth_spec (line : GoString) :
    ∃ tail, line = List.replicate (bracketDepth line) 91 ++ tail ∧ ∀ c t, tail = c :: t → c ≠ 91 := by
  induction line with
  | nil => exact ⟨[], by simp [bracketDepth], by simp⟩
  | cons x xs ih =>
    by_cases hx : x = 91
    · obtain ⟨tail, h1, h2⟩ := ih
      refine ⟨tail, ?_, h2⟩
      subst hx
      simp only [bracketDepth, List.takeWhile_cons, beq_self_eq_true, if_true, List.length_cons,
        List.replicate_succ, List.cons_append, List.cons.injEq, true_and]
      exact h1
    · refine ⟨x :: xs, ?_, ?_⟩
      · simp [bracketDepth, List.takeWhile_cons, hx]
      · intro c t h
        injection h with h _
        rw [← h]; exact hx

theorem bracketDepth_replicate (d : Nat) (tail : GoString) (h : ∀ c t, tail = c :: t → c ≠ 91) :
    bracketDepth (List.replicate d 91 ++ tail) = d := by
  induction d with
  | zero =>
    cases tail with
    | nil => simp [bracketDepth]
    | cons c t => simp [bracketDepth, List.takeWhile_cons, h c t rfl]
  | succ d ih =>
    simp only [List.replicate_succ, List.cons_append, bracketDepth, List.takeWhile_cons,
      beq_self_eq_true, if_true, List.length_cons, add_left_inj]
    exact ih

/-- What it takes for a line to be a header. -/
theorem classify_header {raw : GoString} {d : Nat} {name : GoString}
    (h : classify raw = .header d name) :
    1 ≤ d ∧ name ⊆ raw ∧ ∀ c t, name = c :: t → c ≠ 91 := by
  unfold classify at h
  split at h
  · exact absurd h (by simp)
  · rename_i c rest hline
    split at h
    · exact absurd h (by simp)
    · split at h
      · rename_i hc
        split at h
        · exact absurd h (by simp)
        · rename_i sname hs
          injection h with hd hn
          subst hn
          obtain ⟨hname, hle, hlen⟩ := slice_eq_some hs
          obtain ⟨tail, ht1, ht2⟩ := bracketDepth_spec (c :: rest)
          rw [hd] at hname hle hlen ht1
          have hd1 : 1 ≤ d := by
            rw [← hd]; subst hc
            simp [bracketDepth, List.takeWhile_cons]
          refine ⟨hd1, ?_, ?_⟩
          · intro x hx
            rw [hname] at hx
            have : x ∈ c :: rest := (List.take_subset _ _) ((List.drop_subset _ _) hx)
            rw [← hline] at this
            exact Trim_subset raw this
          · intro x t hx
            have hlen2 : (c :: rest).length = d + tail.length := by
              rw [ht1]; simp
            have hdt : d ≤ tail.length := by omega
            have : sname = tail.take ((c :: rest).length - d - d) := by
              rw [hname, ht1]
              have e0 : (List.replicate d 91 ++ tail).length - d = d + (tail.length - d) := by
                simp; omega
              rw [e0, List.take_append_eq_append_take]
              simp only [List.length_replicate, List.take_replicate]
              have e1 : min (d + (tail.length - d)) d = d := by omega
              have e2 : d + (tail.length - d) - d = tail.length - d := by omega
              rw [e1, e2]
              exact List.drop_left' (by simp)
            rw [this] at hx
            cases tail with
            | nil => simp at hx
            | cons y ys =>
              have hy := ht2 y ys rfl
              cases hk : (c :: rest).length - d - d with
              | zero => rw [hk] at hx; simp at hx
              | succ k =>
                rw [hk, List.take_succ_cons] at hx
                injection hx with hx _
                rw [← hx]; exact hy
      · split at h <;> exact absurd h (by simp)

theorem headerLine_noBlankEnds (d : Nat) (name : GoString) (hd : 1 ≤ d) :
    NoBlankEnds (headerLine d name) := by
  obtain ⟨k, rfl⟩ : ∃ k, d = k + 1 := ⟨d - 1, by omega⟩
  constructor
  · intro c t h
    simp only [headerLine, List.replicate_succ, List.cons_append] at h
    injection h with h _
    rw [← h]; decide
  · intro t c h
    have : headerLine (k + 1) name = (List.replicate (k + 1) 91 ++ name ++ List.replicate k 93) ++ [93] := by
      simp [headerLine, List.replicate_succ']
    rw [this] at h
    have := List.append_inj' h rfl
    have h2 := this.2
    injection h2 with h2 _
    rw [← h2]; decide

/-- A header line written from a header that was read is read back as the same
header. -/
theorem classify_headerLine (d : Nat) (name : GoString) (hd : 1 ≤ d)
    (hname : ∀ c t, name = c :: t → c ≠ 91) :
    classify (headerLine d name) = .header d name := by
  have htrim := Trim_id _ (headerLine_noBlankEnds d name hd)
  have htail : ∀ c t, name ++ List.replicate d 93 = c :: t → c ≠ 91 := by
    intro c t h
    cases name with
    | nil =>
      obtain ⟨k, rfl⟩ : ∃ k, d = k + 1 := ⟨d - 1, by omega⟩
      simp only [List.nil_append, List.replicate_succ] at h
      injection h with h _
      rw [← h]; decide
    | cons x xs =>
      simp only [List.cons_append] at h
      injection h with h _
      rw [← h]; exact hname x xs rfl
  have hbd : bracketDepth (headerLine d name) = d := by
    have : headerLine d name = List.replicate d 91 ++ (name ++ List.replicate d 93) := by
      simp [headerLine]
    rw [this]
    exact bracketDepth_replicate d _ htail
  obtain ⟨k, hk⟩ : ∃ k, d = k + 1 := ⟨d - 1, by omega⟩
  have hcons : headerLine d name = 91 :: (List.replicate k 91 ++ name ++ List.replicate d 93) := by
    subst hk
    simp [headerLine, List.replicate_succ]
  unfold classify
  rw [htrim]
  rw [hcons]
  simp only
  rw [← hcons, hbd]
  have hslice : slice (headerLine d name) d ((headerLine d name).length - d) = some name := by
    unfold slice
    have hlen : (headerLine d name).length = d + name.length + d := by
      simp [headerLine]; omega
    rw [if_pos (by omega)]
    congr 1
    have : (headerLine d name).length - d = d + name.length := by omega
    rw [this]
    have e : headerLine d name = (List.replicate d 91 ++ name) ++ List.replicate d 93 := rfl
    rw [e, List.take_left' (by simp)]
    exact List.drop_left' (by simp)
  rw [hslice]
  simp

theorem not_mem_take_indexOf (x : Nat) (l : GoString) : x ∉ l.take (l.indexOf x) := by
  induction l with
  | nil => simp
  | cons y ys ih =>
    by_cases h : y = x
    · subst h; simp
    · rw [List.indexOf_cons_ne _ h, List.take_succ_cons]
      simp only [List.mem_cons, not_or]
      exact ⟨fun e => h e.symm, ih⟩

theorem indexOf_append_cons_self (x : Nat) (a b : GoString) (h : x ∉ a) :
    (a ++ x :: b).indexOf x = a.length := by
  induction a with
  | nil => simp
  | cons y ys ih =>
    simp only [List.mem_cons, not_or] at h
    rw [List.cons_append, List.indexOf_cons_ne _ (fun e => h.1 e.symm), ih h.2]
    rfl

theorem Index_pos {line : GoString} {sep : Nat} (h : ¬ Index line sep ≤ 0) :
    sep ∈ line ∧ (Index line sep).toNat = line.indexOf sep ∧ 0 < line.indexOf sep := by
  unfold Index at h ⊢
  by_cases hm : sep ∈ line
  · simp only [hm, if_true] at h ⊢
    refine ⟨trivial, by simp, by omega⟩
  · simp [hm] at h

/-- What it takes for a line to define a key. -/
theorem classify_keyValue {raw a b : GoString} (h : classify raw = .keyValue a b) :
    a ⊆ raw ∧ b ⊆ raw ∧ NoBlankEnds a ∧ NoBlankEnds b ∧ 61 ∉ a ∧
    ∃ c t, a = c :: t ∧ c ≠ 35 ∧ c ≠ 59 ∧ c ≠ 91 := by
  unfold classify at h
  split at h
  · exact absurd h (by simp)
  · rename_i c rest hline
    split at h
    · exact absurd h (by simp)
    · rename_i h1
      split at h
      · split at h <;> exact absurd h (by simp)
      · rename_i h2
        split at h
        · exact absurd h (by simp)
        · rename_i h3
          injection h with ha hb
          obtain ⟨hmem, hidx, hpos⟩ := Index_pos h3
          rw [hidx] at ha hb
          have hcb : isBlank c = false := (Trim_noBlankEnds raw).1 c rest hline
          have hsub : (c :: rest) ⊆ raw := by rw [← hline]; exact Trim_subset raw
          obtain ⟨k, hk⟩ : ∃ k, (c :: rest).indexOf 61 = k + 1 := ⟨_, (Nat.succ_pred_eq_of_pos hpos).symm⟩
          have htake : (c :: rest).take ((c :: rest).indexOf 61) = c :: rest.take k := by
            rw [hk, List.take_succ_cons]
          have hno : 61 ∉ (c :: rest).take ((c :: rest).indexOf 61) := not_mem_take_indexOf 61 _
          have ha2 : a = (c :: rest.take k).rdropWhile isBlank := by
            rw [← ha, htake, Trim_eq, List.dropWhile_cons_of_neg (by simp [hcb])]
          obtain ⟨t2, ht2⟩ := rdropWhile_cons_neg isBlank c (rest.take k) hcb
          have hasub : a ⊆ (c :: rest).take ((c :: rest).indexOf 61) := by
            rw [← ha]; exact Trim_subset _
          refine ⟨?_, ?_, ?_, ?_, ?_, c, t2, ?_, ?_, ?_, h2⟩
          · exact fun x hx => hsub (List.take_subset _ _ (hasub hx))
          · rw [← hb]
            exact fun x hx => hsub (List.drop_subset _ _ (Trim_subset _ hx))
          · rw [← ha]; exact Trim_noBlankEnds _
          · rw [← hb]; exact Trim_noBlankEnds _
          · exact fun hx => hno (hasub hx)
          · rw [ha2, ht2]
          · exact fun e => h1 (Or.inl e)
          · exact fun e => h1 (Or.inr e)

theorem valueLine_noBlankEnds (a b : GoString) (ha : NoBlankEnds a) (hb : NoBlankEnds b)
    (hne : a ≠ []) : NoBlankEnds (a ++ 61 :: b) := by
  constructor
  · intro c t h
    cases a with
    | nil => exact absurd rfl hne
    | cons x xs =>
      simp only [List.cons_append] at h
      injection h with h _
      rw [← h]; exact ha.1 x xs rfl
  · intro t c h
    induction b using List.reverseRecOn with
    | nil =>
      have := (List.append_inj' h rfl).2
      injection this with this _
      rw [← this]; decide
    | append_singleton b2 y _ =>
      have e : a ++ 61 :: (b2 ++ [y]) = (a ++ 61 :: b2) ++ [y] := by simp
      rw [e] at h
      have := (List.append_inj' h rfl).2
      injection this with this _
      rw [← this]; exact hb.2 b2 y rfl

/-- A line `key=value` written from a key and a value that were read is read
back as the same key and value. -/
theorem classify_valueLine (a b : GoString) (ha : NoBlankEnds a) (hb : NoBlankEnds b)
    (h61 : 61 ∉ a) (c : Nat) (t : GoString) (hc : a = c :: t)
    (h35 : c ≠ 35) (h59 : c ≠ 59) (h91 : c ≠ 91) :
    classify (a ++ 61 :: b) = .keyValue a b := by
  have htrim := Trim_id _ (valueLine_noBlankEnds a b ha hb (by rw [hc]; simp))
  have hcons : a ++ 61 :: b = c :: (t ++ 61 :: b) := by rw [hc]; rfl
  have hidx : Index (a ++ 61 :: b) 61 = (a.length : Int) := by
    unfold Index
    rw [if_pos (by simp), indexOf_append_cons_self 61 a b h61]
  have hlen : 0 < a.length := by rw [hc]; simp
  unfold classify
  rw [htrim, hcons]
  simp only
  rw [if_neg (by simp [h35, h59]), if_neg h91, ← hcons, hidx]
  rw [if_neg (by omega)]
  simp only [Int.toNat_ofNat]
  rw [List.take_left' rfl]
  have : List.drop (a.length + 1) (a ++ 61 :: b) = b := by
    rw [List.drop_append_eq_append_drop]
    simp
  rw [this, Trim_id a ha, Trim_id b hb]


/-! ### The heap -/

theorem newSection_snd (H : Heap) (name : GoString) (d : Nat) (parent : Option Nat) :
    (newSection H name d parent).2 = H.length := by
  unfold newSection
  simp only
  split
  · rfl
  · split <;> rfl

theorem newSection_fst (H : Heap) (name : GoString) (d parent : Nat) (par : IniSection)
    (hp : H[parent]? = some par) :
    (newSection H name d (some parent)).1 =
      (H ++ [freshSection name d (some parent)]).set parent (adopt par name H.length) := by
  have hlt : parent < H.length := by
    by_contra hge
    rw [List.getElem?_eq_none (by omega)] at hp
    exact absurd hp (by simp)
  unfold newSection
  simp only
  have : (H ++ [freshSection name d (some parent)])[parent]? = some par := by
    rw [List.getElem?_append_left hlt]; exact hp
  simp only [freshSection] at this
  simp only [this]
  rfl

theorem newSection_get (H : Heap) (name : GoString) (d parent : Nat) (par : IniSection)
    (hp : H[parent]? = some par) (p : Nat) :
    (newSection H name d (some parent)).1[p]? =
      if p = parent then some (adopt par name H.length)
      else if p = H.length then some (freshSection name d (some parent))
      else H[p]? := by
  have hlt : parent < H.length := by
    by_contra hge
    rw [List.getElem?_eq_none (by omega)] at hp
    exact absurd hp (by simp)
  rw [newSection_fst H name d parent par hp]
  by_cases h1 : p = parent
  · subst h1
    simp only [if_true]
    rw [List.getElem?_set_self]
    simp; omega
  · simp only [h1, if_false]
    rw [List.getElem?_set_ne (fun e => h1 e.symm)]
    by_cases h2 : p = H.length
    · subst h2
      simp
    · simp only [h2, if_false]
      by_cases h3 : p < H.length
      · rw [List.getElem?_append_left h3]
      · rw [List.getElem?_eq_none (by simp; omega), List.getElem?_eq_none (by omega)]

theorem newSection_length (H : Heap) (name : GoString) (d parent : Nat) (par : IniSection)
    (hp : H[parent]? = some par) :
    (newSection H name d (some parent)).1.length = H.length + 1 := by
  rw [newSection_fst H name d parent par hp]
  simp

theorem getElem?_lt {H : Heap} {p : Nat} {sec : IniSection} (h : H[p]? = some sec) :
    p < H.length := by
  by_contra hge
  rw [List.getElem?_eq_none (by omega)] at h
  exact absurd h (by simp)

theorem set_get (H : Heap) (s : Nat) (v : IniSection) (hs : s < H.length) (p : Nat) :
    (H.set s v)[p]? = if p = s then some v else H[p]? := by
  by_cases h : p = s
  · subst h
    simp only [if_true]
    rw [List.getElem?_set_self]
    simp [hs]
  · simp only [h, if_false]
    exact List.getElem?_set_ne (fun e => h e.symm)

/-! ### Walking up -/

theorem walkUp_succ (H : Heap) (n s : Nat) :
    walkUp H (n + 1) s =
      match H[s]? with
      | none => none
      | some sec =>
        match sec.Parent with
        | none => none
        | some p => walkUp H n p := rfl

theorem walkUp_le {H : Heap} (hok : HeapOK H) :
    ∀ (k s a : Nat), walkUp H k s = some a → a + k ≤ s := by
  intro k
  induction k with
  | zero =>
    intro s a h
    simp only [walkUp, Option.some.injEq] at h
    omega
  | succ k ih =>
    intro s a h
    rw [walkUp_succ] at h
    split at h
    · exact absurd h (by simp)
    · rename_i sec hsec
      split at h
      · exact absurd h (by simp)
      · rename_i q hq
        have := ih q a h
        have := (hok.parent s sec q hsec hq).1
        omega

theorem walkUp_some_get {H : Heap} (hok : HeapOK H) :
    ∀ (k s a : Nat) (cur : IniSection), H[s]? = some cur → walkUp H k s = some a →
      ∃ sec, H[a]? = some sec ∧ sec.Depth + k = cur.Depth := by
  intro k
  induction k with
  | zero =>
    intro s a cur hcur h
    simp only [walkUp, Option.some.injEq] at h
    subst h
    exact ⟨cur, hcur, rfl⟩
  | succ k ih =>
    intro s a cur hcur h
    rw [walkUp_succ, hcur] at h
    simp only at h
    split at h
    · exact absurd h (by simp)
    · rename_i q hq
      obtain ⟨_, par, hpar, hd, _⟩ := hok.parent s cur q hcur hq
      obtain ⟨sec, h1, h2⟩ := ih q a par hpar h
      exact ⟨sec, h1, by omega⟩

/-- The walk up the parents does not step past the root as long as it is no
longer than the depth of the section it starts from. -/
theorem walkUp_exists {H : Heap} (hok : HeapOK H) :
    ∀ (k s : Nat) (cur : IniSection), H[s]? = some cur → k ≤ cur.Depth →
      ∃ a, walkUp H k s = some a := by
  intro k
  induction k with
  | zero => intro s cur _ _; exact ⟨s, rfl⟩
  | succ k ih =>
    intro s cur hcur hk
    rw [walkUp_succ, hcur]
    simp only
    cases hq : cur.Parent with
    | none =>
      have := (hok.orphan s cur hcur hq).1
      omega
    | some q =>
      simp only
      obtain ⟨_, par, hpar, hd, _⟩ := hok.parent s cur q hcur hq
      exact ih q par hpar (by omega)

theorem walkUp_add (H : Heap) :
    ∀ (j k s : Nat), walkUp H (j + k) s = (walkUp H j s).bind (walkUp H k) := by
  intro j
  induction j with
  | zero => intro k s; simp [walkUp]
  | succ j ih =>
    intro k s
    rw [Nat.add_right_comm, walkUp_succ, walkUp_succ]
    cases H[s]? with
    | none => rfl
    | some sec =>
      simp only
      cases sec.Parent with
      | none => rfl
      | some q => exact ih k q

/-- The walk only reads the parent pointers of the sections it passes. -/
theorem walkUp_congr {H H2 : Heap} (hok : HeapOK H) :
    ∀ (k s : Nat), (∀ p, p ≤ s → (H2[p]?).map (fun x => x.Parent) = (H[p]?).map (fun x => x.Parent)) →
      walkUp H2 k s = walkUp H k s := by
  intro k
  induction k with
  | zero => intro s _; rfl
  | succ k ih =>
    intro s hsame
    rw [walkUp_succ, walkUp_succ]
    have hs := hsame s (le_refl _)
    cases h1 : H[s]? with
    | none =>
      rw [h1] at hs
      cases h2 : H2[s]? with
      | none => rfl
      | some x => rw [h2] at hs; simp at hs
    | some sec =>
      rw [h1] at hs
      cases h2 : H2[s]? with
      | none => rw [h2] at hs; simp at hs
      | some sec2 =>
        rw [h2] at hs
        simp only [Option.map_some', Option.some.injEq] at hs
        simp only [hs]
        cases hq : sec.Parent with
        | none => rfl
        | some q =>
          simp only
          have hlt := (hok.parent s sec q h1 hq).1
          exact ih q (fun p hp => hsame p (by omega))


/-! ### Writing the tree back -/

theorem serialize_succ (f : Nat) (H : Heap) (p : Nat) :
    serialize (f + 1) H p =
      match H[p]? with
      | none => []
      | some sec =>
        sec.Values.map valueLine ++
          (sec.Sections.map (fun c =>
            match H[c]? with
            | none => []
            | some ch => headerLine ch.Depth ch.Name :: serialize f H c)).flatten := rfl

/-- The lines of a section depend on the sections of its subtree only. -/
theorem serialize_frame (H H2 : Heap) (lo hi : Nat) (hcl : Closed H lo hi)
    (hchild : ∀ (x : Nat) (sec : IniSection), H[x]? = some sec → ∀ y ∈ sec.Sections, x < y)
    (hsame : ∀ x, lo ≤ x → x < hi → H2[x]? = H[x]?) :
    ∀ (f p : Nat), lo ≤ p → p < hi → serialize f H2 p = serialize f H p := by
  intro f
  induction f with
  | zero => intro p _ _; rfl
  | succ f ih =>
    intro p h1 h2
    rw [serialize_succ, serialize_succ, hsame p h1 h2]
    cases hp : H[p]? with
    | none => rfl
    | some sec =>
      simp only
      congr 2
      apply List.map_congr_left
      intro c hc
      have hpc := hchild p sec hp c hc
      have hch := hcl p sec h1 h2 hp c hc
      rw [hsame c (by omega) hch, ih c (by omega) hch]

/-- More fuel than the heap is long changes nothing. -/
theorem serialize_fuel (H : Heap)
    (hchild : ∀ (x : Nat) (sec : IniSection), H[x]? = some sec → ∀ y ∈ sec.Sections, x < y) :
    ∀ (f1 f2 p : Nat), H.length ≤ p + f1 → H.length ≤ p + f2 →
      serialize f1 H p = serialize f2 H p := by
  intro f1
  induction f1 with
  | zero =>
    intro f2 p h1 _
    have hn : H[p]? = none := List.getElem?_eq_none (by omega)
    cases f2 with
    | zero => rfl
    | succ f2 => rw [serialize_succ, hn]; rfl
  | succ f1 ih =>
    intro f2 p h1 h2
    cases hp : H[p]? with
    | none =>
      rw [serialize_succ, hp]
      cases f2 with
      | zero => rfl
      | succ f2 => rw [serialize_succ, hp]
    | some sec =>
      have hlt := getElem?_lt hp
      obtain ⟨g, rfl⟩ : ∃ g, f2 = g + 1 := ⟨f2 - 1, by omega⟩
      rw [serialize_succ, serialize_succ, hp]
      simp only
      congr 2
      apply List.map_congr_left
      intro c hc
      have hpc := hchild p sec hp c hc
      rw [ih g c (by omega) (by omega)]

/-- A change at a section `m` on the way from the current section to the root,
which appends the lines `L` to what `m` writes, appends `L` to what every
ancestor of `m` writes. -/
theorem serialize_spine (H H2 : Heap) (m : Nat) (L : List GoString) (hok : HeapOK H)
    (hsame : ∀ p, p < m → H2[p]? = H[p]?)
    (hm : (H2[m]?).map (fun x => (x.Depth, x.Name)) = (H[m]?).map (fun x => (x.Depth, x.Name)))
    (hbase : ∀ f, 1 ≤ f → serialize f H2 m = serialize f H m ++ L)
    (hspine : ∀ (k a : Nat) (sec : IniSection) (q : Nat), walkUp H k m = some a →
      H[a]? = some sec → sec.Parent = some q →
      ∃ par pre, H[q]? = some par ∧ par.Sections = pre ++ [a] ∧ ∀ c ∈ pre, c < a ∧ Closed H c a) :
    ∀ (k a : Nat), walkUp H k m = some a → ∀ f, k + 1 ≤ f →
      serialize f H2 a = serialize f H a ++ L := by
  have hchild : ∀ (x : Nat) (sec : IniSection), H[x]? = some sec → ∀ y ∈ sec.Sections, x < y :=
    fun x sec hx y hy => (hok.child x sec y hx hy).1
  intro k
  induction k with
  | zero =>
    intro a ha f hf
    simp only [walkUp, Option.some.injEq] at ha
    subst ha
    exact hbase f hf
  | succ k ih =>
    intro a ha f hf
    rw [walkUp_add H k 1 m] at ha
    cases hw : walkUp H k m with
    | none => rw [hw] at ha; simp at ha
    | some a1 =>
      rw [hw] at ha
      simp only [Option.some_bind] at ha
      rw [walkUp_succ] at ha
      cases h1 : H[a1]? with
      | none => rw [h1] at ha; simp at ha
      | some sec1 =>
        rw [h1] at ha
        simp only at ha
        cases hq : sec1.Parent with
        | none => rw [hq] at ha; simp at ha
        | some q =>
          rw [hq] at ha
          simp only [walkUp, Option.some.injEq] at ha
          subst ha
          obtain ⟨par, pre, hpar, hsec, hpre⟩ := hspine k a1 sec1 q hw h1 hq
          have hqa := (hok.parent a1 sec1 q h1 hq).1
          have ha1m : a1 ≤ m := by have := walkUp_le hok k m a1 hw; omega
          obtain ⟨g, rfl⟩ : ∃ g, f = g + 1 := ⟨f - 1, by omega⟩
          have ih1 := ih a1 hw g (by omega)
          rw [serialize_succ, serialize_succ, hsame q (by omega), hpar]
          simp only [hsec, List.map_append, List.flatten_append, List.map_cons, List.map_nil,
            List.flatten_cons, List.flatten_nil, List.append_nil]
          have hfront : pre.map (fun c =>
              match H2[c]? with
              | none => []
              | some ch => headerLine ch.Depth ch.Name :: serialize g H2 c) =
            pre.map (fun c =>
              match H[c]? with
              | none => []
              | some ch => headerLine ch.Depth ch.Name :: serialize g H c) := by
            apply List.map_congr_left
            intro c hc
            obtain ⟨hca, hcl⟩ := hpre c hc
            rw [hsame c (by omega)]
            rw [serialize_frame H H2 c a1 hcl hchild (fun x _ hx => hsame x (by omega)) g c
              (le_refl _) hca]
          rw [hfront, ih1]
          have hlast : (match H2[a1]? with
              | none => ([] : List GoString)
              | some ch => headerLine ch.Depth ch.Name :: (serialize g H a1 ++ L)) =
            (headerLine sec1.Depth sec1.Name :: serialize g H a1) ++ L := by
            by_cases hem : a1 = m
            · subst hem
              rw [h1] at hm
              cases h2 : H2[a1]? with
              | none => rw [h2] at hm; simp at hm
              | some sec2 =>
                rw [h2] at hm
                simp only [Option.map_some', Option.some.injEq, Prod.mk.injEq] at hm
                simp [hm.1, hm.2]
            · rw [hsame a1 (by omega), h1]
              simp
          rw [hlast, h1]
          simp


/-! ### A key is set -/

theorem setValue_ret {st st2 : IniState} {ln : Nat} {a b : GoString}
    (h : setValue st ln a b = .ret st2) :
    ∃ cur, st.1[st.2]? = some cur ∧ cur.ValueMap.lookup a = none ∧
      st2 = (st.1.set st.2 (addValue cur a b (Itoa ln)), st.2) := by
  unfold setValue at h
  split at h
  · exact absurd h (by simp)
  · rename_i cur hcur
    split at h
    · exact absurd h (by simp)
    · rename_i hl
      injection h with h
      exact ⟨cur, hcur, hl, h.symm⟩

/-- The heap after a key was set, section by section. -/
theorem addValue_get {H : Heap} {s : Nat} {cur : IniSection} (hcur : H[s]? = some cur)
    (a b lns : GoString) (p : Nat) :
    (H.set s (addValue cur a b lns))[p]? = if p = s then some (addValue cur a b lns) else H[p]? :=
  set_get H s _ (getElem?_lt hcur) p

theorem addValue_get_shape {H : Heap} {s : Nat} {cur : IniSection} (hcur : H[s]? = some cur)
    (a b lns : GoString) (p : Nat) (sec2 : IniSection)
    (h : (H.set s (addValue cur a b lns))[p]? = some sec2) :
    ∃ sec, H[p]? = some sec ∧ sec2.Sections = sec.Sections ∧ sec2.Parent = sec.Parent ∧
      sec2.Depth = sec.Depth ∧ sec2.Name = sec.Name ∧ sec2.SectionMap = sec.SectionMap ∧
      (p ≠ s → sec2 = sec) := by
  rw [addValue_get hcur] at h
  by_cases hp : p = s
  · subst hp
    simp only [if_true, Option.some.injEq] at h
    subst h
    exact ⟨cur, hcur, rfl, rfl, rfl, rfl, rfl, fun hne => absurd rfl hne⟩
  · simp only [hp, if_false] at h
    exact ⟨sec2, h, rfl, rfl, rfl, rfl, rfl, fun _ => rfl⟩

theorem addValue_get_old {H : Heap} {s : Nat} {cur : IniSection} (hcur : H[s]? = some cur)
    (a b lns : GoString) (p : Nat) (sec : IniSection) (h : H[p]? = some sec) :
    ∃ sec2, (H.set s (addValue cur a b lns))[p]? = some sec2 ∧ sec2.Sections = sec.Sections ∧
      sec2.Parent = sec.Parent ∧ sec2.Depth = sec.Depth ∧ sec2.Name = sec.Name := by
  rw [addValue_get hcur]
  by_cases hp : p = s
  · subst hp
    rw [hcur] at h
    injection h with h
    subst h
    exact ⟨addValue cur a b lns, by simp, rfl, rfl, rfl, rfl⟩
  · exact ⟨sec, by simp [hp, h], rfl, rfl, rfl, rfl⟩

theorem addValue_nameAt {H : Heap} {s : Nat} {cur : IniSection} (hcur : H[s]? = some cur)
    (a b lns : GoString) (p : Nat) :
    nameAt (H.set s (addValue cur a b lns)) p = nameAt H p := by
  unfold nameAt
  cases hp : H[p]? with
  | none =>
    have : (H.set s (addValue cur a b lns))[p]? = none := by
      rw [addValue_get hcur]
      by_cases h : p = s
      · subst h; rw [hcur] at hp; simp at hp
      · simp [h, hp]
    rw [this]
  | some sec =>
    obtain ⟨sec2, h2, _, _, _, hn⟩ := addValue_get_old hcur a b lns p sec hp
    rw [h2]; simp [hn]

theorem addValue_walkUp {H : Heap} (hok : HeapOK H) {s : Nat} {cur : IniSection}
    (hcur : H[s]? = some cur) (a b lns : GoString) (k x : Nat) :
    walkUp (H.set s (addValue cur a b lns)) k x = walkUp H k x := by
  apply walkUp_congr hok
  intro p _
  rw [addValue_get hcur]
  by_cases hp : p = s
  · subst hp; simp [hcur, addValue]
  · simp [hp]

theorem addValue_closed {H : Heap} {s : Nat} {cur : IniSection} (hcur : H[s]? = some cur)
    (a b lns : GoString) (lo hi : Nat) (h : Closed H lo hi) :
    Closed (H.set s (addValue cur a b lns)) lo hi := by
  intro x sec2 h1 h2 hx y hy
  obtain ⟨sec, hsec, hs, _⟩ := addValue_get_shape hcur a b lns x sec2 hx
  rw [hs] at hy
  exact h x sec h1 h2 hsec y hy

/-- Setting a key keeps the invariant. -/
theorem setValue_wellFormed {st st2 : IniState} {ln : Nat} {a b : GoString}
    (hwf : WellFormed st) (h : setValue st ln a b = .ret st2) : WellFormed st2 := by
  obtain ⟨cur, hcur, hl, rfl⟩ := setValue_ret h
  obtain ⟨H, s⟩ := st
  simp only at hcur hl ⊢
  have hlen : (H.set s (addValue cur a b (Itoa ln))).length = H.length := by simp
  refine ⟨?_, ⟨?_, ?_, ?_⟩, ?_, ?_⟩
  · simp only [hlen]; exact hwf.cursor
  · intro p sec2 q hp hq
    obtain ⟨sec, hsec, _, hpar, hd, _⟩ := addValue_get_shape hcur a b _ p sec2 hp
    rw [hpar] at hq
    obtain ⟨hlt, par, hpar1, hd1, hmem⟩ := hwf.heap.parent p sec q hsec hq
    obtain ⟨par2, hpar2, hs2, _, hd2, _⟩ := addValue_get_old hcur a b (Itoa ln) q par hpar1
    exact ⟨hlt, par2, hpar2, by rw [hd, hd2, hd1], by rw [hs2]; exact hmem⟩
  · intro p sec2 c hp hc
    obtain ⟨sec, hsec, hs, _⟩ := addValue_get_shape hcur a b _ p sec2 hp
    rw [hs] at hc
    obtain ⟨hlt, ch, hch, hpar⟩ := hwf.heap.child p sec c hsec hc
    obtain ⟨ch2, hch2, _, hp2, _⟩ := addValue_get_old hcur a b (Itoa ln) c ch hch
    exact ⟨hlt, ch2, hch2, by rw [hp2, hpar]⟩
  · intro p sec2 hp hq
    obtain ⟨sec, hsec, _, hpar, hd, _⟩ := addValue_get_shape hcur a b _ p sec2 hp
    rw [hpar] at hq
    rw [hd]
    exact hwf.heap.orphan p sec hsec hq
  · intro p sec2 hp
    obtain ⟨sec, hsec, hs, _, _, _, hsm, hne⟩ := addValue_get_shape hcur a b _ p sec2 hp
    obtain ⟨m1, m2⟩ := hwf.maps p sec hsec
    constructor
    · rw [hsm, hs, m1]
      congr 1
      apply List.map_congr_left
      intro c _
      rw [addValue_nameAt hcur]
    · by_cases hps : p = s
      · subst hps
        rw [addValue_get hcur] at hp
        simp only [if_true, Option.some.injEq] at hp
        subst hp
        rw [hcur] at hsec
        injection hsec with hsec
        subst hsec
        simp [addValue, m2]
      · rw [hne hps]; exact m2
  · intro k x sec2 q hw hx hq
    rw [addValue_walkUp hwf.heap hcur] at hw
    obtain ⟨sec, hsec, _, hpar, _⟩ := addValue_get_shape hcur a b _ x sec2 hx
    rw [hpar] at hq
    obtain ⟨par, pre, hpar1, hsec1, hpre⟩ := hwf.spine k x sec q hw hsec hq
    obtain ⟨par2, hpar2, hs2, _⟩ := addValue_get_old hcur a b (Itoa ln) q par hpar1
    refine ⟨par2, pre, hpar2, by rw [hs2, hsec1], ?_⟩
    intro c hc
    exact ⟨(hpre c hc).1, addValue_closed hcur a b _ c x (hpre c hc).2⟩

/-- The walk of as many steps as the section is deep ends at the root. -/
theorem walkUp_root {H : Heap} (hok : HeapOK H) {s : Nat} {cur : IniSection}
    (hcur : H[s]? = some cur) : walkUp H cur.Depth s = some 0 := by
  obtain ⟨a, ha⟩ := walkUp_exists hok cur.Depth s cur hcur (le_refl _)
  obtain ⟨sec, hsec, hd⟩ := walkUp_some_get hok cur.Depth s a cur hcur ha
  have hd0 : sec.Depth = 0 := by omega
  cases hq : sec.Parent with
  | none => rw [ha, (hok.orphan a sec hsec hq).2]
  | some q =>
    obtain ⟨_, par, _, hd1, _⟩ := hok.parent a sec q hsec hq
    omega

theorem last_section_childless {st : IniState} (hwf : WellFormed st) {cur : IniSection}
    (hcur : st.1[st.2]? = some cur) : cur.Sections = [] := by
  apply List.eq_nil_iff_forall_not_mem.mpr
  intro c hc
  obtain ⟨h1, ch, hch, _⟩ := hwf.heap.child st.2 cur c hcur hc
  have := getElem?_lt hch
  have := hwf.cursor
  omega

/-- Setting a key appends its line to what is written back. -/
theorem setValue_lines {st st2 : IniState} {ln : Nat} {a b : GoString}
    (hwf : WellFormed st) (h : setValue st ln a b = .ret st2) :
    serialize st2.1.length st2.1 0 = serialize st.1.length st.1 0 ++ [a ++ 61 :: b] := by
  obtain ⟨cur, hcur, hl, rfl⟩ := setValue_ret h
  have hnil := last_section_childless hwf hcur
  obtain ⟨H, s⟩ := st
  simp only at hcur hl hnil ⊢
  have hlen : (H.set s (addValue cur a b (Itoa ln))).length = H.length := by simp
  rw [hlen]
  have hroot := walkUp_root hwf.heap hcur
  have hK := walkUp_le hwf.heap _ _ _ hroot
  have hc := hwf.cursor
  simp only at hc
  apply serialize_spine H _ s [a ++ 61 :: b] hwf.heap ?_ ?_ ?_ hwf.spine cur.Depth 0 hroot
    H.length (by omega)
  · intro p hp
    rw [addValue_get hcur]
    simp [Nat.ne_of_lt hp]
  · rw [addValue_get hcur]
    simp [hcur, addValue]
  · intro f hf
    obtain ⟨g, rfl⟩ : ∃ g, f = g + 1 := ⟨f - 1, by omega⟩
    rw [serialize_succ, serialize_succ, addValue_get hcur, hcur]
    simp [addValue, hnil, valueLine]


/-! ### A section is opened -/

theorem openSection_ret {st st2 : IniState} {ln d : Nat} {name : GoString}
    (h : openSection st ln d name = .ret st2) :
    ∃ cur parent par, st.1[st.2]? = some cur ∧ d ≤ cur.Depth + 1 ∧
      walkUp st.1 (cur.Depth + 1 - d) st.2 = some parent ∧ st.1[parent]? = some par ∧
      par.SectionMap.lookup name = none ∧ st2 = newSection st.1 name d (some parent) := by
  unfold openSection at h
  split at h
  · exact absurd h (by simp)
  · rename_i cur hcur
    split at h
    · exact absurd h (by simp)
    · rename_i hd
      split at h
      · exact absurd h (by simp)
      · rename_i parent hw
        split at h
        · exact absurd h (by simp)
        · rename_i par hpar
          split at h
          · exact absurd h (by simp)
          · rename_i hl
            injection h with h
            exact ⟨cur, parent, par, hcur, by omega, hw, hpar, hl, h.symm⟩

/-- A section of the heap after `newSection` and the section it was before. -/
theorem newSection_get_shape {H : Heap} {name : GoString} {d parent : Nat} {par : IniSection}
    (hp : H[parent]? = some par) (p : Nat) (sec2 : IniSection)
    (h : (newSection H name d (some parent)).1[p]? = some sec2) :
    (p = H.length ∧ sec2 = freshSection name d (some parent)) ∨
    (p = parent ∧ sec2 = adopt par name H.length) ∨
    (p ≠ parent ∧ p < H.length ∧ H[p]? = some sec2) := by
  rw [newSection_get H name d parent par hp] at h
  by_cases h1 : p = parent
  · simp only [h1, if_true, Option.some.injEq] at h
    exact Or.inr (Or.inl ⟨h1, h.symm⟩)
  · simp only [h1, if_false] at h
    by_cases h2 : p = H.length
    · simp only [h2, if_true, Option.some.injEq] at h
      exact Or.inl ⟨h2, h.symm⟩
    · simp only [h2, if_false] at h
      exact Or.inr (Or.inr ⟨h1, getElem?_lt h, h⟩)

theorem newSection_get_old {H : Heap} (name : GoString) (d : Nat) {parent : Nat}
    {par : IniSection}
    (hp : H[parent]? = some par) (p : Nat) (sec : IniSection) (h : H[p]? = some sec) :
    ∃ sec2, (newSection H name d (some parent)).1[p]? = some sec2 ∧
      sec2.Parent = sec.Parent ∧ sec2.Depth = sec.Depth ∧ sec2.Name = sec.Name ∧
      sec2.Values = sec.Values ∧ sec2.ValueMap = sec.ValueMap ∧
      (p ≠ parent → sec2 = sec) ∧ (p = parent → sec2 = adopt par name H.length) ∧
      sec.Sections ⊆ sec2.Sections := by
  rw [newSection_get H name d parent par hp]
  have hlt := getElem?_lt h
  by_cases h1 : p = parent
  · subst h1
    rw [hp] at h
    injection h with h
    subst h
    exact ⟨adopt par name H.length, by simp, rfl, rfl, rfl, rfl, rfl,
      fun hne => absurd rfl hne, fun _ => rfl, by simp [adopt]⟩
  · exact ⟨sec, by simp [h1, Nat.ne_of_lt hlt, h], rfl, rfl, rfl, rfl, rfl, fun _ => rfl,
      fun e => absurd e h1, fun _ hx => hx⟩

theorem newSection_get_new {H : Heap} (name : GoString) (d : Nat) {parent : Nat}
    {par : IniSection}
    (hp : H[parent]? = some par) :
    (newSection H name d (some parent)).1[H.length]? = some (freshSection name d (some parent)) := by
  rw [newSection_get H name d parent par hp]
  have := getElem?_lt hp
  simp [Nat.ne_of_gt this]

theorem newSection_nameAt_old {H : Heap} {name : GoString} {d parent : Nat} {par : IniSection}
    (hp : H[parent]? = some par) (p : Nat) (hlt : p < H.length) :
    nameAt (newSection H name d (some parent)).1 p = nameAt H p := by
  unfold nameAt
  cases h : H[p]? with
  | none => rw [List.getElem?_eq_none_iff] at h; omega
  | some sec =>
    obtain ⟨sec2, h2, _, _, hn, _⟩ := newSection_get_old name d hp p sec h
    rw [h2]; simp [hn]

theorem newSection_walkUp_old {H : Heap} (hok : HeapOK H) {name : GoString} {d parent : Nat}
    {par : IniSection} (hp : H[parent]? = some par) (k x : Nat) (hx : x < H.length) :
    walkUp (newSection H name d (some parent)).1 k x = walkUp H k x := by
  apply walkUp_congr hok
  intro p hpx
  cases h : H[p]? with
  | none => rw [List.getElem?_eq_none_iff] at h; omega
  | some sec =>
    obtain ⟨sec2, h2, hpar, _⟩ := newSection_get_old name d hp p sec h
    rw [h2]; simp [hpar]

/-- Opening a section keeps the invariant. -/
theorem openSection_wellFormed {st st2 : IniState} {ln d : Nat} {name : GoString}
    (hwf : WellFormed st) (h : openSection st ln d name = .ret st2) : WellFormed st2 := by
  obtain ⟨cur, parent, par, hcur, hd, hw, hpar, hl, rfl⟩ := openSection_ret h
  obtain ⟨H, s⟩ := st
  simp only at hcur hw hpar ⊢
  have hok := hwf.heap
  simp only at hok
  have hcursor : s + 1 = H.length := hwf.cursor
  obtain ⟨par1, hpar1, hdepth⟩ := walkUp_some_get hok _ s parent cur hcur hw
  rw [hpar] at hpar1
  injection hpar1 with hpar1
  subst hpar1
  have hple := walkUp_le hok _ _ _ hw
  have hpn : parent < H.length := by omega
  have hnew := newSection_get_new name d hpar
  have hadopt : (newSection H name d (some parent)).1[parent]? = some (adopt par name H.length) := by
    rw [newSection_get H name d parent par hpar]; simp
  refine ⟨?_, ⟨?_, ?_, ?_⟩, ?_, ?_⟩
  · rw [newSection_snd, newSection_length H name d parent par hpar]
  · intro p sec2 q hp hq
    rcases newSection_get_shape hpar p sec2 hp with ⟨h1, h2⟩ | ⟨h1, h2⟩ | ⟨h1, h2, h3⟩
    · subst h1 h2
      simp only [freshSection, Option.some.injEq] at hq
      subst hq
      exact ⟨hpn, _, hadopt, by simp only [freshSection, adopt]; omega, by simp [adopt]⟩
    · subst h1 h2
      have hq1 : par.Parent = some q := hq
      obtain ⟨hlt, par0, hpar0, hd0, hmem⟩ := hok.parent p par q hpar hq1
      obtain ⟨sec3, h3, _, hd3, _, _, _, hne, _, hsub⟩ :=
        newSection_get_old name d hpar q par0 hpar0
      exact ⟨hlt, sec3, h3, by rw [hd3]; exact hd0, hsub hmem⟩
    · obtain ⟨hlt, par0, hpar0, hd0, hmem⟩ := hok.parent p sec2 q h3 hq
      obtain ⟨sec3, h4, _, hd3, _, _, _, _, _, hsub⟩ :=
        newSection_get_old name d hpar q par0 hpar0
      exact ⟨hlt, sec3, h4, by rw [hd3]; exact hd0, hsub hmem⟩
  · intro p sec2 c hp hc
    rcases newSection_get_shape hpar p sec2 hp with ⟨h1, h2⟩ | ⟨h1, h2⟩ | ⟨h1, h2, h3⟩
    · subst h2
      simp [freshSection] at hc
    · subst h1 h2
      simp only [adopt, List.mem_append, List.mem_singleton] at hc
      rcases hc with hc | hc
      · obtain ⟨hlt, ch, hch, hchp⟩ := hok.child p par c hpar hc
        obtain ⟨sec3, h3, hp3, _⟩ := newSection_get_old name d hpar c ch hch
        exact ⟨hlt, sec3, h3, by rw [hp3]; exact hchp⟩
      · subst hc
        exact ⟨hpn, _, hnew, rfl⟩
    · obtain ⟨hlt, ch, hch, hchp⟩ := hok.child p sec2 c h3 hc
      obtain ⟨sec3, h4, hp3, _⟩ := newSection_get_old name d hpar c ch hch
      exact ⟨hlt, sec3, h4, by rw [hp3]; exact hchp⟩
  · intro p sec2 hp hq
    rcases newSection_get_shape hpar p sec2 hp with ⟨h1, h2⟩ | ⟨h1, h2⟩ | ⟨h1, h2, h3⟩
    · subst h2
      simp [freshSection] at hq
    · subst h1 h2
      exact hok.orphan p par hpar hq
    · exact hok.orphan p sec2 h3 hq
  · intro p sec2 hp
    have hnames : ∀ sec : IniSection, (∀ c ∈ sec.Sections, c < H.length) →
        sec.Sections.map (fun c => (nameAt (newSection H name d (some parent)).1 c, c)) =
        sec.Sections.map (fun c => (nameAt H c, c)) := by
      intro sec hsec
      apply List.map_congr_left
      intro c hc
      rw [newSection_nameAt_old hpar c (hsec c hc)]
    have hkids : ∀ (p : Nat) (sec : IniSection), H[p]? = some sec →
        ∀ c ∈ sec.Sections, c < H.length := by
      intro p sec hp c hc
      obtain ⟨_, ch, hch, _⟩ := hok.child p sec c hp hc
      exact getElem?_lt hch
    rcases newSection_get_shape hpar p sec2 hp with ⟨h1, h2⟩ | ⟨h1, h2⟩ | ⟨h1, h2, h3⟩
    · subst h2
      simp [freshSection]
    · subst h1 h2
      obtain ⟨m1, m2⟩ := hwf.maps p par hpar
      constructor
      · have hn : nameAt (newSection H name d (some p)).1 H.length = name := by
          unfold nameAt; rw [hnew]; rfl
        simp only [adopt, List.map_append, List.map_cons, List.map_nil, List.reverse_append,
          List.reverse_cons, List.reverse_nil, List.nil_append, List.singleton_append, hn]
        rw [hnames par (hkids p par hpar), ← m1]
      · exact m2
    · obtain ⟨m1, m2⟩ := hwf.maps p sec2 h3
      exact ⟨by rw [hnames sec2 (hkids p sec2 h3)]; exact m1, m2⟩
  · intro k x sec2 q hwk hx hq
    rw [newSection_snd] at hwk
    cases k with
    | zero =>
      simp only [walkUp, Option.some.injEq] at hwk
      subst hwk
      rw [hnew] at hx
      injection hx with hx
      subst hx
      simp only [freshSection, Option.some.injEq] at hq
      subst hq
      refine ⟨_, par.Sections, hadopt, rfl, ?_⟩
      intro c hc
      obtain ⟨hpc, ch, hch, _⟩ := hok.child parent par c hpar hc
      refine ⟨getElem?_lt hch, ?_⟩
      intro y secy h1 h2 hy z hz
      rcases newSection_get_shape hpar y secy hy with ⟨h3, _⟩ | ⟨h3, _⟩ | ⟨_, _, h5⟩
      · omega
      · omega
      · obtain ⟨_, chz, hchz, _⟩ := hok.child y secy z h5 hz
        exact getElem?_lt hchz
    | succ k =>
      rw [walkUp_succ, hnew] at hwk
      simp only [freshSection] at hwk
      rw [newSection_walkUp_old hok hpar k parent hpn] at hwk
      have hxle := walkUp_le hok _ _ _ hwk
      have hwjk : walkUp H (cur.Depth + 1 - d + k) s = some x := by
        rw [walkUp_add, hw]; exact hwk
      have hold : ∃ sec0, H[x]? = some sec0 ∧ sec0.Parent = some q := by
        rcases newSection_get_shape hpar x sec2 hx with ⟨h3, _⟩ | ⟨h3, h4⟩ | ⟨_, _, h5⟩
        · omega
        · subst h3 h4
          exact ⟨par, hpar, hq⟩
        · exact ⟨sec2, h5, hq⟩
      obtain ⟨sec0, hsec0, hq0⟩ := hold
      obtain ⟨par0, pre, hpar0, hsecs, hpre⟩ := hwf.spine _ x sec0 q hwjk hsec0 hq0
      have hqx := (hok.parent x sec0 q hsec0 hq0).1
      obtain ⟨sec3, h3, _, _, _, _, _, hne, _, _⟩ :=
        newSection_get_old name d hpar q par0 hpar0
      rw [hne (by omega)] at h3
      refine ⟨par0, pre, h3, hsecs, ?_⟩
      intro c hc
      refine ⟨(hpre c hc).1, ?_⟩
      intro y secy h1 h2 hy z hz
      rcases newSection_get_shape hpar y secy hy with ⟨h3, _⟩ | ⟨h3, _⟩ | ⟨_, _, h5⟩
      · omega
      · omega
      · exact (hpre c hc).2 y secy h1 h2 h5 z hz

/-- Opening a section appends its header line to what is written back. -/
theorem openSection_lines {st st2 : IniState} {ln d : Nat} {name : GoString}
    (hwf : WellFormed st) (h : openSection st ln d name = .ret st2) :
    serialize st2.1.length st2.1 0 = serialize st.1.length st.1 0 ++ [headerLine d name] := by
  obtain ⟨cur, parent, par, hcur, hd, hw, hpar, hl, rfl⟩ := openSection_ret h
  obtain ⟨H, s⟩ := st
  simp only at hcur hw hpar ⊢
  have hok := hwf.heap
  simp only at hok
  have hcursor : s + 1 = H.length := hwf.cursor
  have hple := walkUp_le hok _ _ _ hw
  have hpn : parent < H.length := by omega
  have hnew := newSection_get_new name d hpar
  have hadopt : (newSection H name d (some parent)).1[parent]? = some (adopt par name H.length) := by
    rw [newSection_get H name d parent par hpar]; simp
  have hchild : ∀ (x : Nat) (sec : IniSection), H[x]? = some sec → ∀ y ∈ sec.Sections, x < y :=
    fun x sec hx y hy => (hok.child x sec y hx hy).1
  have hkids : ∀ (p : Nat) (sec : IniSection), H[p]? = some sec →
      ∀ c ∈ sec.Sections, c < H.length := by
    intro p sec hp c hc
    obtain ⟨_, ch, hch, _⟩ := hok.child p sec c hp hc
    exact getElem?_lt hch
  have hsameAbove : ∀ x, parent < x → x < H.length →
      (newSection H name d (some parent)).1[x]? = H[x]? := by
    intro x h1 h2
    rw [newSection_get H name d parent par hpar]
    simp [Nat.ne_of_gt h1, Nat.ne_of_lt h2]
  have hroot := walkUp_root hok hpar
  have hK := walkUp_le hok _ _ _ hroot
  rw [newSection_length H name d parent par hpar]
  rw [serialize_fuel H hchild H.length (H.length + 1) 0 (by omega) (by omega)]
  apply serialize_spine H _ parent [headerLine d name] hok ?_ ?_ ?_ ?_ par.Depth 0 hroot
    (H.length + 1) (by omega)
  · intro p hp
    rw [newSection_get H name d parent par hpar]
    simp [Nat.ne_of_lt hp, Nat.ne_of_lt (Nat.lt_trans hp hpn)]
  · rw [hadopt, hpar]; rfl
  · intro f hf
    obtain ⟨g, rfl⟩ : ∃ g, f = g + 1 := ⟨f - 1, by omega⟩
    rw [serialize_succ, serialize_succ, hadopt, hpar]
    simp only [adopt, List.map_append, List.flatten_append, List.map_cons, List.map_nil,
      List.flatten_cons, List.flatten_nil, List.append_nil, hnew, freshSection]
    have hempty : serialize g (newSection H name d (some parent)).1 H.length = [] := by
      cases g with
      | zero => rfl
      | succ g => rw [serialize_succ, hnew]; rfl
    rw [hempty]
    have hfront : par.Sections.map (fun c =>
        match (newSection H name d (some parent)).1[c]? with
        | none => []
        | some ch => headerLine ch.Depth ch.Name ::
            serialize g (newSection H name d (some parent)).1 c) =
      par.Sections.map (fun c =>
        match H[c]? with
        | none => []
        | some ch => headerLine ch.Depth ch.Name :: serialize g H c) := by
      apply List.map_congr_left
      intro c hc
      have hpc := hchild parent par hpar c hc
      have hcn := hkids parent par hpar c hc
      rw [hsameAbove c hpc hcn]
      rw [serialize_frame H _ c H.length (fun x sec _ _ hx y hy => hkids x sec hx y hy) hchild
        (fun x h1 h2 => hsameAbove x (by omega) h2) g c (le_refl _) hcn]
    rw [hfront]
    simp
  · intro k a sec q hwk ha hq
    exact hwf.spine (cur.Depth + 1 - d + k) a sec q (by rw [walkUp_add, hw]; exact hwk) ha hq


/-! ### The whole loop -/

theorem initState_eq : initState = ([freshSection [] 0 none], 0) := rfl

theorem initState_wellFormed : WellFormed initState := by
  rw [initState_eq]
  have hget : ∀ (p : Nat) (sec : IniSection), [freshSection [] 0 none][p]? = some sec →
      p = 0 ∧ sec = freshSection [] 0 none := by
    intro p sec h
    cases p with
    | zero => simp at h; exact ⟨rfl, h.symm⟩
    | succ p => simp at h
  refine ⟨rfl, ⟨?_, ?_, ?_⟩, ?_, ?_⟩
  · intro p sec q hp hq
    obtain ⟨_, rfl⟩ := hget p sec hp
    simp [freshSection] at hq
  · intro p sec c hp hc
    obtain ⟨_, rfl⟩ := hget p sec hp
    simp [freshSection] at hc
  · intro p sec hp _
    obtain ⟨h0, rfl⟩ := hget p sec hp
    exact ⟨rfl, h0⟩
  · intro p sec hp
    obtain ⟨_, rfl⟩ := hget p sec hp
    simp [freshSection]
  · intro k a sec q _ ha hq
    obtain ⟨_, rfl⟩ := hget a sec ha
    simp [freshSection] at hq

theorem parseLines_cons (l : GoString) (ls : List GoString) (i : Nat) (st : IniState) :
    parseLines (l :: ls) i st =
      match applyLine st (i + 1) (classify l) with
      | .ret st1 => parseLines ls (i + 1) st1
      | .fail e => .fail e
      | .panic => .panic := by
  rw [← stepLine_eq_applyLine]
  rfl

/-- A run of the loop that returns keeps the invariant, and what is written back
from its final state is what was written back before, followed by the lines the
run accepted, each in its written form. -/
theorem parseLines_lines :
    ∀ (lines : List GoString) (i : Nat) (st st2 : IniState), WellFormed st →
      parseLines lines i st = .ret st2 →
      WellFormed st2 ∧
      serialize st2.1.length st2.1 0 =
        serialize st.1.length st.1 0 ++ lines.filterMap writtenLine := by
  intro lines
  induction lines with
  | nil =>
    intro i st st2 hwf h
    simp only [parseLines, Outcome.ret.injEq] at h
    subst h
    exact ⟨hwf, by simp⟩
  | cons l ls ih =>
    intro i st st2 hwf h
    rw [parseLines_cons] at h
    cases hc : classify l with
    | skip =>
      rw [hc] at h
      simp only [applyLine] at h
      obtain ⟨h1, h2⟩ := ih (i + 1) st st2 hwf h
      refine ⟨h1, ?_⟩
      rw [h2, List.filterMap_cons]
      simp [writtenLine, hc]
    | badHeader =>
      rw [hc] at h
      simp [applyLine] at h
    | header d name =>
      rw [hc] at h
      simp only [applyLine] at h
      cases ho : openSection st (i + 1) d name with
      | ret st1 =>
        rw [ho] at h
        simp only at h
        obtain ⟨h1, h2⟩ := ih (i + 1) st1 st2 (openSection_wellFormed hwf ho) h
        refine ⟨h1, ?_⟩
        rw [h2, openSection_lines hwf ho, List.filterMap_cons]
        simp [writtenLine, hc]
      | fail e => rw [ho] at h; simp at h
      | panic => rw [ho] at h; simp at h
    | keyValue a b =>
      rw [hc] at h
      simp only [applyLine] at h
      cases ho : setValue st (i + 1) a b with
      | ret st1 =>
        rw [ho] at h
        simp only at h
        obtain ⟨h1, h2⟩ := ih (i + 1) st1 st2 (setValue_wellFormed hwf ho) h
        refine ⟨h1, ?_⟩
        rw [h2, setValue_lines hwf ho, List.filterMap_cons]
        simp [writtenLine, hc]
      | fail e => rw [ho] at h; simp at h
      | panic => rw [ho] at h; simp at h


/-! ### Two runs on the same tree -/

theorem sameTree_length {H1 H2 : Heap} (h : SameTree H1 H2) : H1.length = H2.length := by
  have := congrArg List.length h
  simpa using this

theorem sameTree_get {H1 H2 : Heap} (h : SameTree H1 H2) (p : Nat) :
    (H1[p]?).map IniSection.withoutLines = (H2[p]?).map IniSection.withoutLines := by
  have := congrArg (fun l => l[p]?) h
  simpa [List.getElem?_map] using this

theorem sameTree_get_some {H1 H2 : Heap} (h : SameTree H1 H2) {p : Nat} {sec1 : IniSection}
    (h1 : H1[p]? = some sec1) :
    ∃ sec2, H2[p]? = some sec2 ∧ sec1.withoutLines = sec2.withoutLines := by
  have := sameTree_get h p
  rw [h1] at this
  cases h2 : H2[p]? with
  | none => rw [h2] at this; simp at this
  | some sec2 =>
    rw [h2] at this
    simp only [Option.map_some', Option.some.injEq] at this
    exact ⟨sec2, rfl, this⟩

theorem withoutLines_fields {a b : IniSection} (h : a.withoutLines = b.withoutLines) :
    a.Sections = b.Sections ∧ a.Parent = b.Parent ∧ a.Depth = b.Depth ∧ a.Name = b.Name ∧
    a.SectionMap = b.SectionMap ∧
    a.ValueMap.map (fun e => (e.1, (e.2.1, ([] : GoString)))) =
      b.ValueMap.map (fun e => (e.1, (e.2.1, ([] : GoString)))) ∧
    a.Values.map (fun v => (v.1, v.2.1, ([] : GoString))) =
      b.Values.map (fun v => (v.1, v.2.1, ([] : GoString))) := by
  unfold IniSection.withoutLines at h
  injection h with h1 h2 h3 h4 h5 h6 h7
  exact ⟨h4, h5, h6, h7, h2, h1, h3⟩

theorem walkUp_sameTree {H1 H2 : Heap} (h : SameTree H1 H2) :
    ∀ (k s : Nat), walkUp H1 k s = walkUp H2 k s := by
  intro k
  induction k with
  | zero => intro s; rfl
  | succ k ih =>
    intro s
    rw [walkUp_succ, walkUp_succ]
    have hs := sameTree_get h s
    cases h1 : H1[s]? with
    | none =>
      rw [h1] at hs
      cases h2 : H2[s]? with
      | none => rfl
      | some x => rw [h2] at hs; simp at hs
    | some sec1 =>
      obtain ⟨sec2, h2, hw⟩ := sameTree_get_some h h1
      rw [h2]
      simp only [(withoutLines_fields hw).2.1]
      cases sec2.Parent with
      | none => rfl
      | some q => exact ih q

theorem lookup_map_blank (m : List (GoString × (GoString × GoString))) (a : GoString) :
    (m.map (fun e => (e.1, (e.2.1, ([] : GoString))))).lookup a =
      (m.lookup a).map (fun v => (v.1, ([] : GoString))) := by
  induction m with
  | nil => rfl
  | cons e rest ih =>
    obtain ⟨k, v⟩ := e
    simp only [List.map_cons, List.lookup_cons]
    cases a == k with
    | true => rfl
    | false => exact ih

theorem lookup_none_of_blank {m1 m2 : List (GoString × (GoString × GoString))}
    (h : m1.map (fun e => (e.1, (e.2.1, ([] : GoString)))) =
      m2.map (fun e => (e.1, (e.2.1, ([] : GoString)))))
    {a : GoString} (h1 : m1.lookup a = none) : m2.lookup a = none := by
  have := lookup_map_blank m2 a
  rw [← h, lookup_map_blank m1 a, h1] at this
  cases h2 : m2.lookup a with
  | none => rfl
  | some v => rw [h2] at this; simp at this

theorem setValue_sim {st1 st2 st3 : IniState} (hsim : Sim st1 st2) (ln1 ln2 : Nat)
    {a b : GoString} (h : setValue st1 ln1 a b = .ret st3) :
    ∃ st4, setValue st2 ln2 a b = .ret st4 ∧ Sim st3 st4 := by
  obtain ⟨cur1, hcur1, hl1, rfl⟩ := setValue_ret h
  obtain ⟨H1, s1⟩ := st1
  obtain ⟨H2, s2⟩ := st2
  obtain ⟨hs, ht⟩ := hsim
  simp only at hs ht hcur1 ⊢
  subst hs
  obtain ⟨cur2, hcur2, hw⟩ := sameTree_get_some ht hcur1
  obtain ⟨f1, f2, f3, f4, f5, f6, f7⟩ := withoutLines_fields hw
  have hl2 := lookup_none_of_blank f6 hl1
  refine ⟨(H2.set s1 (addValue cur2 a b (Itoa ln2)), s1), ?_, rfl, ?_⟩
  · unfold setValue
    simp only [hcur2, hl2]
    rfl
  · unfold SameTree at ht ⊢
    simp only [List.map_set]
    rw [ht]
    congr 1
    simp only [IniSection.withoutLines, addValue, List.map_cons, List.map_append, List.map_nil,
      f1, f2, f3, f4, f5, f6, f7]

theorem openSection_sim {st1 st2 st3 : IniState} (hsim : Sim st1 st2) (ln1 ln2 : Nat)
    {d : Nat} {name : GoString} (h : openSection st1 ln1 d name = .ret st3) :
    ∃ st4, openSection st2 ln2 d name = .ret st4 ∧ Sim st3 st4 := by
  obtain ⟨cur1, parent, par1, hcur1, hd, hw, hpar1, hl1, rfl⟩ := openSection_ret h
  obtain ⟨H1, s1⟩ := st1
  obtain ⟨H2, s2⟩ := st2
  obtain ⟨hs, ht⟩ := hsim
  simp only at hs ht hcur1 hw hpar1 ⊢
  subst hs
  obtain ⟨cur2, hcur2, hwc⟩ := sameTree_get_some ht hcur1
  obtain ⟨par2, hpar2, hwp⟩ := sameTree_get_some ht hpar1
  have hdep := (withoutLines_fields hwc).2.2.1
  obtain ⟨f1, f2, f3, f4, f5, f6, f7⟩ := withoutLines_fields hwp
  have hlen := sameTree_length ht
  refine ⟨newSection H2 name d (some parent), ?_, ?_, ?_⟩
  · unfold openSection
    simp only [hcur2]
    rw [if_neg (by omega), ← hdep, ← walkUp_sameTree ht, hw]
    simp only [hpar2, ← f5, hl1]
  · rw [newSection_snd, newSection_snd, hlen]
  · unfold SameTree at ht ⊢
    rw [newSection_fst H1 name d parent par1 hpar1, newSection_fst H2 name d parent par2 hpar2]
    simp only [List.map_set, List.map_append, List.map_cons, List.map_nil]
    rw [ht, hlen]
    congr 1
    simp only [IniSection.withoutLines, adopt, f1, f2, f3, f4, f5, f6, f7]


theorem classify_writtenLine {raw l : GoString} (h : writtenLine raw = some l) :
    classify l = classify raw := by
  unfold writtenLine at h
  cases hc : classify raw with
  | skip => rw [hc] at h; simp at h
  | badHeader => rw [hc] at h; simp at h
  | header d name =>
    rw [hc] at h
    simp only [Option.some.injEq] at h
    obtain ⟨hd, _, hn⟩ := classify_header hc
    rw [← h]
    exact classify_headerLine d name hd hn
  | keyValue a b =>
    rw [hc] at h
    simp only [Option.some.injEq] at h
    obtain ⟨_, _, ha, hb, h61, c, t, hct, h35, h59, h91⟩ := classify_keyValue hc
    rw [← h]
    exact classify_valueLine a b ha hb h61 c t hct h35 h59 h91

theorem writtenLine_no_newline {raw l : GoString} (hraw : 10 ∉ raw)
    (h : writtenLine raw = some l) : 10 ∉ l := by
  unfold writtenLine at h
  cases hc : classify raw with
  | skip => rw [hc] at h; simp at h
  | badHeader => rw [hc] at h; simp at h
  | header d name =>
    rw [hc] at h
    simp only [Option.some.injEq] at h
    obtain ⟨_, hsub, _⟩ := classify_header hc
    rw [← h]
    simp only [headerLine, List.mem_append, List.mem_replicate, not_or]
    exact ⟨⟨by omega, fun hx => hraw (hsub hx)⟩, by omega⟩
  | keyValue a b =>
    rw [hc] at h
    simp only [Option.some.injEq] at h
    obtain ⟨ha, hb, _⟩ := classify_keyValue hc
    rw [← h]
    simp only [List.mem_append, List.mem_cons, not_or]
    exact ⟨fun hx => hraw (ha hx), by omega, fun hx => hraw (hb hx)⟩

theorem sim_refl (st : IniState) : Sim st st := ⟨rfl, rfl⟩

/-- A run on the written lines follows the run on the original lines. -/
theorem parseLines_sim :
    ∀ (lines : List GoString) (i j : Nat) (st1 st2 st3 : IniState), Sim st1 st2 →
      parseLines lines i st1 = .ret st3 →
      ∃ st4, parseLines (lines.filterMap writtenLine) j st2 = .ret st4 ∧ Sim st3 st4 := by
  intro lines
  induction lines with
  | nil =>
    intro i j st1 st2 st3 hsim h
    simp only [parseLines, Outcome.ret.injEq] at h
    subst h
    exact ⟨st2, rfl, hsim⟩
  | cons l ls ih =>
    intro i j st1 st2 st3 hsim h
    rw [parseLines_cons] at h
    rw [List.filterMap_cons]
    cases hw : writtenLine l with
    | none =>
      simp only
      have hc : applyLine st1 (i + 1) (classify l) = .ret st1 := by
        unfold writtenLine at hw
        cases hc : classify l with
        | skip => rfl
        | badHeader => rw [hc] at h; simp [applyLine] at h
        | header d name => rw [hc] at hw; simp at hw
        | keyValue a b => rw [hc] at hw; simp at hw
      rw [hc] at h
      exact ih (i + 1) j st1 st2 st3 hsim h
    | some l2 =>
      simp only
      rw [parseLines_cons, classify_writtenLine hw]
      unfold writtenLine at hw
      cases hc : classify l with
      | skip => rw [hc] at hw; simp at hw
      | badHeader => rw [hc] at hw; simp at hw
      | header d name =>
        rw [hc] at h
        simp only [applyLine] at h ⊢
        cases ho : openSection st1 (i + 1) d name with
        | ret st5 =>
          rw [ho] at h
          obtain ⟨st6, h6, hsim6⟩ := openSection_sim hsim (i + 1) (j + 1) ho
          rw [h6]
          exact ih (i + 1) (j + 1) st5 st6 st3 hsim6 h
        | fail e => rw [ho] at h; simp at h
        | panic => rw [ho] at h; simp at h
      | keyValue a b =>
        rw [hc] at h
        simp only [applyLine] at h ⊢
        cases ho : setValue st1 (i + 1) a b with
        | ret st5 =>
          rw [ho] at h
          obtain ⟨st6, h6, hsim6⟩ := setValue_sim hsim (i + 1) (j + 1) ho
          rw [h6]
          exact ih (i + 1) (j + 1) st5 st6 st3 hsim6 h
        | fail e => rw [ho] at h; simp at h
        | panic => rw [ho] at h; simp at h

theorem ParseIni_ret {text : GoString} {H : Heap} {top : Nat}
    (h : ParseIni text = .ret (H, top)) :
    top = 0 ∧ ∃ s, parseLines (Split 10 text) 0 initState = .ret (H, s) := by
  unfold ParseIni at h
  simp only at h
  split at h
  · rename_i st hst
    injection h with h
    injection h with h1 h2
    refine ⟨h2.symm, st.2, ?_⟩
    rw [← h1]
    exact hst
  · exact absurd h (by simp)
  · exact absurd h (by simp)

theorem ParseIni_of_parseLines {text : GoString} {st : IniState}
    (h : parseLines (Split 10 text) 0 initState = .ret st) :
    ParseIni text = .ret (st.1, 0) := by
  unfold ParseIni
  simp only
  have : parseLines (Split 10 text) 0 (newSection [] [] 0 none) = .ret st := h
  rw [this]
  rfl

/-- C3: when `ParseIni` returns a tree, writing the tree back in original
order (for each section its `Values` as `key=value` lines, then each child in
`Sections` order as a header line of `Depth` opening brackets, the name and
`Depth` closing brackets, recursively; the lines joined by newlines) and parsing
that text succeeds and returns the same tree: the same sections with the same
names, depths, parents and children in the same order, and the same keys and
values in the same order in every section. Only the recorded line numbers can
differ. -/
theorem C3_round_trip (text : GoString) (H : Heap) (top : Nat)
    (h : ParseIni text = .ret (H, top)) :
    ∃ H2, ParseIni (writeIni H top) = .ret (H2, top) ∧ SameTree H2 H := by
  obtain ⟨htop, s, hrun⟩ := ParseIni_ret h
  subst htop
  obtain ⟨_, hlines⟩ := parseLines_lines _ 0 initState (H, s) initState_wellFormed hrun
  have hinit : serialize initState.1.length initState.1 0 = [] := rfl
  simp only [hinit, List.nil_append] at hlines
  obtain ⟨st4, hrun2, hsim⟩ := parseLines_sim _ 0 0 initState initState (H, s)
    (sim_refl _) hrun
  have hwrite : writeIni H 0 = Join 10 ((Split 10 text).filterMap writtenLine) := by
    unfold writeIni
    rw [hlines]
  refine ⟨st4.1, ?_, ?_⟩
  · rw [hwrite]
    apply ParseIni_of_parseLines
    cases hL : (Split 10 text).filterMap writtenLine with
    | nil =>
      rw [hL] at hrun2
      simp only [parseLines, Outcome.ret.injEq] at hrun2
      rw [← hrun2]
      rfl
    | cons l ls =>
      rw [Split_Join 10 (l :: ls) (by simp)]
      · rw [hL] at hrun2; exact hrun2
      · intro x hx
        rw [← hL, List.mem_filterMap] at hx
        obtain ⟨raw, hraw, hw⟩ := hx
        exact writtenLine_no_newline (Split_no_sep 10 text raw hraw) hw
  · exact hsim.2.symm

/-- C3, witness: a document with a comment, blanks around a key, a value that
holds `=`, a nested section and a header that lacks its closing bracket. -/
theorem C3_round_trip_witness :
    ParseIni sampleText = .ret (sampleTree, 0) ∧
    writeIni sampleTree 0 = str "x=1\n[a]\ny=2=3\n[[b]]\n[]" ∧
    ∃ H2, ParseIni (writeIni sampleTree 0) = .ret (H2, 0) ∧ SameTree H2 sampleTree :=
  ⟨by decide, by decide, C3_round_trip sampleText sampleTree 0 (by decide)⟩


/-! ### Duplicates -/

theorem parseLines_append (pre post : List GoString) :
    ∀ (i : Nat) (st : IniState), parseLines (pre ++ post) i st =
      match parseLines pre i st with
      | .ret st1 => parseLines post (i + pre.length) st1
      | .fail e => .fail e
      | .panic => .panic := by
  induction pre with
  | nil => intro i st; simp [parseLines]
  | cons l ls ih =>
    intro i st
    rw [List.cons_append]
    simp only [parseLines, List.length_cons]
    cases stepLine st (i + 1) l with
    | ret st1 =>
      simp only
      have := ih (i + 1) st1
      have e : i + 1 + ls.length = i + (ls.length + 1) := by omega
      rw [e] at this
      exact this
    | fail e => rfl
    | panic => rfl

theorem lookup_some_mem {α β : Type} [BEq α] [LawfulBEq α] {l : List (α × β)} {a : α} {b : β}
    (h : l.lookup a = some b) : (a, b) ∈ l := by
  induction l with
  | nil => simp at h
  | cons e rest ih =>
    obtain ⟨k, v⟩ := e
    simp only [List.lookup_cons] at h
    split at h
    · rename_i hk
      simp only [beq_iff_eq] at hk
      injection h with h
      simp [hk, h]
    · exact List.mem_cons_of_mem _ (ih h)

/-- The name is bound in `SectionMap` exactly when a child bears it. -/
theorem sectionMap_lookup {H : Heap} (hmaps : MapsOK H) {p : Nat} {sec : IniSection}
    (hp : H[p]? = some sec) (name : GoString) :
    (sec.SectionMap.lookup name).isSome ↔ ∃ c ∈ sec.Sections, nameAt H c = name := by
  rw [(hmaps p sec hp).1]
  constructor
  · intro h
    obtain ⟨c, hc⟩ := Option.isSome_iff_exists.mp h
    have := lookup_some_mem hc
    simp only [List.mem_reverse, List.mem_map, Prod.mk.injEq] at this
    obtain ⟨c2, hc2, hn, rfl⟩ := this
    exact ⟨c2, hc2, hn⟩
  · rintro ⟨c, hc, hn⟩
    by_contra hnone
    simp only [Option.not_isSome_iff_eq_none] at hnone
    rw [List.lookup_eq_none_iff] at hnone
    have := hnone (nameAt H c, c) (by simp only [List.mem_reverse, List.mem_map]; exact ⟨c, hc, rfl⟩)
    simp [hn] at this

/-- The key is bound in `ValueMap` exactly when an entry of `Values` has it. -/
theorem valueMap_lookup {H : Heap} (hmaps : MapsOK H) {p : Nat} {sec : IniSection}
    (hp : H[p]? = some sec) (a : GoString) :
    (sec.ValueMap.lookup a).isSome ↔ ∃ v ∈ sec.Values, v.1 = a := by
  rw [(hmaps p sec hp).2]
  constructor
  · intro h
    obtain ⟨c, hc⟩ := Option.isSome_iff_exists.mp h
    have := lookup_some_mem hc
    simp only [List.mem_reverse, List.mem_map, Prod.mk.injEq] at this
    obtain ⟨v, hv, hn, _⟩ := this
    exact ⟨v, hv, hn⟩
  · rintro ⟨v, hv, hn⟩
    by_contra hnone
    simp only [Option.not_isSome_iff_eq_none] at hnone
    rw [List.lookup_eq_none_iff] at hnone
    have := hnone (v.1, (v.2.1, v.2.2)) (by simp only [List.mem_reverse, List.mem_map]; exact ⟨v, hv, rfl⟩)
    simp [hn] at this

theorem wellFormed_cursor_get {st : IniState} (hwf : WellFormed st) :
    ∃ cur, st.1[st.2]? = some cur := by
  have := hwf.cursor
  have hlt : st.2 < st.1.length := by omega
  exact ⟨st.1[st.2], List.getElem?_eq_getElem hlt⟩

/-- A header that repeats a name under its parent is rejected with its line number. -/
theorem openSection_duplicate {st : IniState} (hwf : WellFormed st) (ln : Nat) {raw : GoString}
    {d : Nat} {name : GoString} (hc : classify raw = .header d name)
    (hdup : DuplicateSection st raw) :
    ∃ e, openSection st ln d name = .fail e ∧ e.Line = ln := by
  obtain ⟨d2, name2, k, parent, par, c, hc2, hw, hpar, hd, hmem, hname⟩ := hdup
  rw [hc] at hc2
  injection hc2 with h1 h2
  subst h1 h2
  obtain ⟨cur, hcur⟩ := wellFormed_cursor_get hwf
  obtain ⟨par2, hpar2, hdepth⟩ := walkUp_some_get hwf.heap k st.2 parent cur hcur hw
  rw [hpar] at hpar2
  injection hpar2 with hpar2
  subst hpar2
  have hk : cur.Depth + 1 - d = k := by omega
  have hsome := (sectionMap_lookup hwf.maps hpar name).mpr ⟨c, hmem, hname⟩
  obtain ⟨c2, hc2⟩ := Option.isSome_iff_exists.mp hsome
  refine ⟨{ Line := ln, Text := str "duplicate section name on the same level" }, ?_, rfl⟩
  unfold openSection
  simp only [hcur]
  rw [if_neg (by omega), hk, hw]
  simp only [hpar, hc2]

/-- A key that is already set in the current section is rejected with its line
number. -/
theorem setValue_duplicate {st : IniState} (hwf : WellFormed st) (ln : Nat) {raw : GoString}
    {a b : GoString} (hc : classify raw = .keyValue a b) (hdup : DuplicateKey st raw) :
    ∃ e, setValue st ln a b = .fail e ∧ e.Line = ln := by
  obtain ⟨a2, b2, cur, v, hc2, hcur, hv, hva⟩ := hdup
  rw [hc] at hc2
  injection hc2 with h1 h2
  subst h1 h2
  have hsome := (valueMap_lookup hwf.maps hcur a).mpr ⟨v, hv, hva⟩
  obtain ⟨c2, hc2⟩ := Option.isSome_iff_exists.mp hsome
  refine ⟨{ Line := ln, Text := str "duplicate section name on the same level" }, ?_, rfl⟩
  unfold setValue
  simp only [hcur, hc2]

/-- A header of admissible depth whose name is new under its parent is accepted. -/
theorem openSection_fresh {st : IniState} (hwf : WellFormed st) (ln : Nat) {raw : GoString}
    {d : Nat} {name : GoString} (hc : classify raw = .header d name) {cur : IniSection}
    (hcur : st.1[st.2]? = some cur) (hd : d ≤ cur.Depth + 1) (hnew : ¬ DuplicateSection st raw) :
    ∃ st2, openSection st ln d name = .ret st2 := by
  obtain ⟨hd1, _, _⟩ := classify_header hc
  obtain ⟨parent, hw⟩ := walkUp_exists hwf.heap (cur.Depth + 1 - d) st.2 cur hcur (by omega)
  obtain ⟨par, hpar, hdepth⟩ := walkUp_some_get hwf.heap _ st.2 parent cur hcur hw
  have hnone : par.SectionMap.lookup name = none := by
    cases hl : par.SectionMap.lookup name with
    | none => rfl
    | some c2 =>
      exfalso
      obtain ⟨c, hmem, hname⟩ := (sectionMap_lookup hwf.maps hpar name).mp (by rw [hl]; rfl)
      exact hnew ⟨d, name, _, parent, par, c, hc, hw, hpar, by omega, hmem, hname⟩
  refine ⟨newSection st.1 name d (some parent), ?_⟩
  unfold openSection
  simp only [hcur]
  rw [if_neg (by omega), hw]
  simp only [hpar, hnone]

/-- A key that is new in the current section is accepted. -/
theorem setValue_fresh {st : IniState} (hwf : WellFormed st) (ln : Nat) {raw : GoString}
    {a b : GoString} (hc : classify raw = .keyValue a b) (hnew : ¬ DuplicateKey st raw) :
    ∃ st2, setValue st ln a b = .ret st2 := by
  obtain ⟨cur, hcur⟩ := wellFormed_cursor_get hwf
  have hnone : cur.ValueMap.lookup a = none := by
    cases hl : cur.ValueMap.lookup a with
    | none => rfl
    | some c2 =>
      exfalso
      obtain ⟨v, hv, hva⟩ := (valueMap_lookup hwf.maps hcur a).mp (by rw [hl]; rfl)
      exact hnew ⟨a, b, cur, v, hc, hcur, hv, hva⟩
  refine ⟨(st.1.set st.2 (addValue cur a b (Itoa ln)), st.2), ?_⟩
  unfold setValue
  simp only [hcur, hnone]
  rfl

/-- C2: let the loop of `ParseIni` reach line `ln` (1-based) of the text in
state `st`, every earlier line accepted. If the line opens a section whose name
equals that of a section already opened under the same parent, or defines a key
already defined in the current section, then `ParseIni` returns no tree and an
`IniErrSyntax` whose `Line` is `ln`. A header of admissible depth whose name no
child of its parent bears is accepted, whatever keys the parent holds and
whatever names occur under other parents; a key that is not among the `Values`
of the current section is accepted, whatever its sub-sections are called. -/
theorem C2_duplicates_rejected (text : GoString) (ln : Nat) (raw : GoString) (st : IniState)
    (hln : 1 ≤ ln) (hraw : (Split 10 text)[ln - 1]? = some raw)
    (hpre : parseLines ((Split 10 text).take (ln - 1)) 0 initState = .ret st) :
    (DuplicateSection st raw ∨ DuplicateKey st raw →
      ∃ e, ParseIni text = .fail e ∧ e.Line = ln) ∧
    (∀ d name cur, classify raw = .header d name → st.1[st.2]? = some cur →
      d ≤ cur.Depth + 1 → ¬ DuplicateSection st raw → ∃ st2, stepLine st ln raw = .ret st2) ∧
    (∀ a b, classify raw = .keyValue a b → ¬ DuplicateKey st raw →
      ∃ st2, stepLine st ln raw = .ret st2) := by
  have hwf := (parseLines_lines _ 0 initState st initState_wellFormed hpre).1
  refine ⟨?_, ?_, ?_⟩
  · intro hdup
    have hlt : ln - 1 < (Split 10 text).length := by
      by_contra hge
      rw [List.getElem?_eq_none (by omega)] at hraw
      exact absurd hraw (by simp)
    have hsplit : Split 10 text =
        (Split 10 text).take (ln - 1) ++ raw :: (Split 10 text).drop ln := by
      have h1 := List.take_append_drop (ln - 1) (Split 10 text)
      have h2 : (Split 10 text).drop (ln - 1) = raw :: (Split 10 text).drop ln := by
        rw [List.drop_eq_getElem_cons hlt]
        have : (Split 10 text)[ln - 1] = raw := by
          rw [List.getElem?_eq_getElem hlt] at hraw
          exact Option.some.inj hraw
        rw [this]
        have : ln - 1 + 1 = ln := by omega
        rw [this]
      rw [h2] at h1
      exact h1.symm
    have hstep : ∃ e, stepLine st ln raw = .fail e ∧ e.Line = ln := by
      rw [stepLine_eq_applyLine]
      rcases hdup with hdup | hdup
      · obtain ⟨d, name, _, _, _, _, hc, _⟩ := id hdup
        rw [hc]
        exact openSection_duplicate hwf ln hc hdup
      · obtain ⟨a, b, _, _, hc, _⟩ := id hdup
        rw [hc]
        exact setValue_duplicate hwf ln hc hdup
    obtain ⟨e, he, hline⟩ := hstep
    refine ⟨e, ?_, hline⟩
    unfold ParseIni
    simp only
    have hinit : newSection [] [] 0 none = initState := rfl
    rw [hinit, hsplit, parseLines_append, hpre]
    simp only [parseLines, List.length_take, zero_add]
    have hmin : min (ln - 1) (Split 10 text).length + 1 = ln := by omega
    rw [hmin, he]
  · intro d name cur hc hcur hd hnew
    rw [stepLine_eq_applyLine, hc]
    exact openSection_fresh hwf ln hc hcur hd hnew
  · intro a b hc hnew
    rw [stepLine_eq_applyLine, hc]
    exact setValue_fresh hwf ln hc hnew

/-- C2, witness: the fifth line of `sampleDupText` opens `a` under the root a
second time; the sections `c` under `a` and under `b` were both accepted. -/
theorem C2_duplicates_rejected_witness :
    (Split 10 sampleDupText)[5 - 1]? = some (str "[a]") ∧
    parseLines ((Split 10 sampleDupText).take (5 - 1)) 0 initState = .ret sampleDupState ∧
    ∃ e, ParseIni sampleDupText = .fail e ∧ e.Line = 5 :=
  ⟨by decide, by decide,
   (C2_duplicates_rejected sampleDupText 5 (str "[a]") sampleDupState (by decide) (by decide)
      (by decide)).1
     (Or.inl ⟨1, str "a", 2, 0, _, 1, by decide, by decide, rfl, by decide, by decide,
       by decide⟩)⟩


/-! ### Depth jumps -/

theorem split_at_line {lines : List GoString} {ln : Nat} {raw : GoString} (hln : 1 ≤ ln)
    (hraw : lines[ln - 1]? = some raw) :
    lines = lines.take (ln - 1) ++ raw :: lines.drop ln ∧ ln - 1 < lines.length := by
  have hlt : ln - 1 < lines.length := by
    by_contra hge
    rw [List.getElem?_eq_none (by omega)] at hraw
    exact absurd hraw (by simp)
  refine ⟨?_, hlt⟩
  have h1 := List.take_append_drop (ln - 1) lines
  have h2 : lines.drop (ln - 1) = raw :: lines.drop ln := by
    rw [List.drop_eq_getElem_cons hlt]
    have : lines[ln - 1] = raw := by
      rw [List.getElem?_eq_getElem hlt] at hraw
      exact Option.some.inj hraw
    rw [this]
    have : ln - 1 + 1 = ln := by omega
    rw [this]
  rw [h2] at h1
  exact h1.symm

/-- What `ParseIni` returns when the loop reaches line `ln` in state `st` and
the body does not continue: the outcome of the body on that line. -/
theorem ParseIni_stops_at {text : GoString} {ln : Nat} {raw : GoString} {st : IniState}
    (hln : 1 ≤ ln) (hraw : (Split 10 text)[ln - 1]? = some raw)
    (hpre : parseLines ((Split 10 text).take (ln - 1)) 0 initState = .ret st) :
    (∀ e, stepLine st ln raw = .fail e → ParseIni text = .fail e) ∧
    (stepLine st ln raw = .panic → ParseIni text = .panic) := by
  obtain ⟨hsplit, hlt⟩ := split_at_line hln hraw
  have hmin : min (ln - 1) (Split 10 text).length + 1 = ln := by omega
  have hrun : parseLines (Split 10 text) 0 initState =
      match stepLine st ln raw with
      | .ret st1 => parseLines ((Split 10 text).drop ln) ln st1
      | .fail e => .fail e
      | .panic => .panic := by
    conv_lhs => rw [hsplit]
    rw [parseLines_append, hpre]
    simp only [parseLines, List.length_take, zero_add, hmin]
  have hinit : newSection [] [] 0 none = initState := rfl
  constructor
  · intro e he
    unfold ParseIni
    simp only
    rw [hinit, hrun, he]
  · intro he
    unfold ParseIni
    simp only
    rw [hinit, hrun, he]

/-- The part of C1 that holds, and where it stops: let the loop of `ParseIni`
reach line `ln` in state `st`, every earlier line accepted, and let the trimmed
line start with `d` opening brackets, `d` greater than the depth of the current
section plus one. If twice `d` is at most the length of the trimmed line,
`ParseIni` returns the syntax error with `Line = ln`; if it is more, the slice
`line[d : len(line)-d]` has crossed bounds and `ParseIni` panics. -/
theorem depth_jump_error_or_panic (text : GoString) (ln : Nat) (raw : GoString) (st : IniState)
    (cur : IniSection) (rest : GoString)
    (hln : 1 ≤ ln) (hraw : (Split 10 text)[ln - 1]? = some raw)
    (hpre : parseLines ((Split 10 text).take (ln - 1)) 0 initState = .ret st)
    (hcur : st.1[st.2]? = some cur) (hline : Trim raw blanks = 91 :: rest)
    (hjump : cur.Depth + 1 < bracketDepth (91 :: rest)) :
    (2 * bracketDepth (91 :: rest) ≤ (91 :: rest).length →
      ParseIni text = .fail { Line := ln, Text := str "section with wrong depth" }) ∧
    ((91 :: rest).length < 2 * bracketDepth (91 :: rest) → ParseIni text = .panic) := by
  obtain ⟨hfail, hpanic⟩ := ParseIni_stops_at hln hraw hpre
  constructor
  · intro h2
    apply hfail
    unfold stepLine
    simp only [hline]
    rw [if_neg (by decide), if_pos trivial]
    have hs : slice (91 :: rest) (bracketDepth (91 :: rest))
        ((91 :: rest).length - bracketDepth (91 :: rest)) =
        some (((91 :: rest).take ((91 :: rest).length - bracketDepth (91 :: rest))).drop
          (bracketDepth (91 :: rest))) := by
      unfold slice
      rw [if_pos (by omega)]
    rw [hs]
    simp only [hcur]
    rw [if_pos (by omega)]
  · intro h2
    apply hpanic
    unfold stepLine
    simp only [hline]
    rw [if_neg (by decide), if_pos trivial]
    have hs : slice (91 :: rest) (bracketDepth (91 :: rest))
        ((91 :: rest).length - bracketDepth (91 :: rest)) = none := by
      unfold slice
      rw [if_neg (by omega)]
    rw [hs]

/-- A depth jump on line 3 that can be sliced, and one on line 2 that cannot. -/
theorem depth_jump_error_or_panic_witness :
    ParseIni (str "[a]\nk=v\n [[[b]]] ")
      = .fail { Line := 3, Text := str "section with wrong depth" } ∧
    ParseIni (str "k=v\n[[[x]") = .panic :=
  ⟨(depth_jump_error_or_panic (str "[a]\nk=v\n [[[b]]] ") 3 (str " [[[b]]] ")
      ([{ ValueMap := [], SectionMap := [(str "a", 1)], Values := [], Sections := [1],
          Parent := none, Depth := 0, Name := [] },
        { ValueMap := [(str "k", str "v", str "2")], SectionMap := [],
          Values := [(str "k", str "v", str "2")], Sections := [], Parent := some 0,
          Depth := 1, Name := str "a" }], 1)
      _ (str "[[b]]]") (by decide) (by decide) (by decide) rfl (by decide) (by decide)).1
      (by decide),
   (depth_jump_error_or_panic (str "k=v\n[[[x]") 2 (str "[[[x]")
      ([{ ValueMap := [(str "k", str "v", str "1")], SectionMap := [],
          Values := [(str "k", str "v", str "1")], Sections := [], Parent := none,
          Depth := 0, Name := [] }], 0)
      _ (str "[[x]") (by decide) (by decide) (by decide) rfl (by decide) (by decide)).2
      (by decide)⟩

/-! ### `top`: the tie-break count without overflow -/

/-- The part of C4 that holds: for `top(e, c, k)` whose last two fields parse as
`c` and `k` with a product inside the `int` range, `N[1] = k` and `N[0] = c`
exactly when `c` and `k` have opposite signs, `N[0] = 0` otherwise; for
`top(e, k)`, `N = [0, k]`. -/
theorem topArguments_without_overflow {E V P T : Type} (L : ExprLib E V P T)
    (ln expr : GoString) (k : Int)
    (hk : Atoi ((L.split expr (str ",")).getD ((L.split expr (str ",")).length - 1) []) = some k) :
    ((L.split expr (str ",")).length = 2 →
      topArguments L ln expr = .ret ((0, k), (L.split expr (str ",")).headD [])) ∧
    (∀ c, 2 < (L.split expr (str ",")).length →
      Atoi ((L.split expr (str ",")).getD ((L.split expr (str ",")).length - 2) []) = some c →
      -(2 : Int) ^ 63 ≤ k * c → k * c < (2 : Int) ^ 63 →
      topArguments L ln expr =
        .ret ((if (c < 0 ∧ 0 < k) ∨ (0 < c ∧ k < 0) then c else 0, k),
          (L.split expr (str ",")).headD [])) := by
  constructor
  · intro h2
    unfold topArguments
    simp only
    rw [if_pos (by omega), hk]
    simp only
    rw [if_neg (by omega)]
  · intro c h3 hc h1 h2
    unfold topArguments
    simp only
    rw [if_pos (by omega), hk]
    simp only
    rw [if_pos (by omega), hc]
    simp only
    rw [wrap64_id h1 h2]
    have hiff : k * c < 0 ↔ ((c < 0 ∧ 0 < k) ∨ (0 < c ∧ k < 0)) := by
      rw [mul_neg_iff]
      constructor
      · rintro (⟨a, b⟩ | ⟨a, b⟩)
        · exact Or.inl ⟨b, a⟩
        · exact Or.inr ⟨b, a⟩
      · rintro (⟨a, b⟩ | ⟨a, b⟩)
        · exact Or.inl ⟨b, a⟩
        · exact Or.inr ⟨b, a⟩
    by_cases hneg : k * c < 0
    · rw [if_pos hneg, if_pos (hiff.mp hneg)]
    · rw [if_neg hneg, if_neg (fun h => hneg (hiff.mpr h))]

/-- The formula `top(1,-2,5)`: five at the top, two for ties. -/
theorem topArguments_without_overflow_witness :
    topArguments sampleLib (str "7") (str "1,-2,5") = .ret ((-2, 5), str "1") :=
  ((topArguments_without_overflow sampleLib (str "7") (str "1,-2,5") 5 (by decide)).2
    (-2) (by decide) (by decide) (by decide) (by decide)).trans (by decide)

/-! ### `ParseExpr`: the aggregate prefix alone -/

/-- C13: a formula that consists of an aggregate prefix alone makes `ParseExpr`
panic: `expr[4 : len(expr)-1]` is `expr[4:3]` for `sum(`, `len(`, `std(` and
`top(`, and `expr[5 : len(expr)-1]` is `expr[5:4]` for `mean(`, a slice taken
with its start past its end. No `Expression` and no error is returned, whatever
the grammar, the line and the value template are. -/
theorem C13_prefix_alone_panics {E V P T : Type} [DecidableEq T] (L : ExprLib E V P T)
    (ln name : GoString) (params : P) (valueTmpl : Option V) (path : GoString) :
    ParseExpr L ln (str "sum(") name params valueTmpl path = .panic ∧
    ParseExpr L ln (str "len(") name params valueTmpl path = .panic ∧
    ParseExpr L ln (str "mean(") name params valueTmpl path = .panic ∧
    ParseExpr L ln (str "std(") name params valueTmpl path = .panic ∧
    ParseExpr L ln (str "top(") name params valueTmpl path = .panic :=
  ⟨rfl, rfl, rfl, rfl, rfl⟩

/-- The function `compileScalar` panics only when the compiler or the evaluator does. -/
theorem compileScalar_no_panic {E V P T : Type} [DecidableEq T] (L : ExprLib E V P T)
    (ln name : GoString) (params : P) (valueTmpl : Option V) (a : GoString) (n : Int × Int)
    (expr : GoString) (hcompile : ∀ t, L.compile t ≠ .panic)
    (hevaluate : ∀ e, L.evaluate e params ≠ .panic) :
    compileScalar L ln name params valueTmpl a n expr ≠ .panic := by
  unfold compileScalar
  split
  · rename_i hc
    exact absurd hc (hcompile _)
  · simp
  · split
    · rename_i he
      exact absurd he (hevaluate _)
    · simp
    · repeat' split
      all_goals simp

theorem topArguments_no_panic {E V P T : Type} (L : ExprLib E V P T) (ln expr : GoString) :
    topArguments L ln expr ≠ .panic := by
  unfold topArguments
  simp only
  repeat' split
  all_goals simp

/-- The function `compileCallExpr` panics only when the compiler or the `call`
closure does. -/
theorem compileCallExpr_no_panic {E V P T : Type} (L : ExprLib E V P T)
    (ln expr name path : GoString) (hcall : ∀ t, L.compileCall t ≠ .panic)
    (hdry : ∀ e, L.dryRun e path ≠ .panic) :
    compileCallExpr L ln expr name path ≠ .panic := by
  unfold compileCallExpr
  split
  · rename_i hc
    exact absurd hc (hcall _)
  · simp
  · split
    · rename_i hd
      exact absurd hd (hdry _)
    · simp
    · simp

theorem slice_none_iff (s : GoString) (lo hi : Nat) :
    slice s lo hi = none ↔ ¬ (lo ≤ hi ∧ hi ≤ s.length) := by
  unfold slice
  split <;> simp [*]

theorem hasPrefix_length {s p : GoString} (h : HasPrefix s p = true) : p.length ≤ s.length := by
  unfold HasPrefix at h
  exact (List.isPrefixOf_iff_prefix.mp h).length_le

theorem hasPrefix_eq_of_length {s p : GoString} (h : HasPrefix s p = true)
    (hl : s.length = p.length) : s = p := by
  unfold HasPrefix at h
  exact ((List.isPrefixOf_iff_prefix.mp h).eq_of_length hl.symm).symm

/-- Each of the five prefixes alone is sliced with crossed bounds. -/
theorem prefix_alone_panics {E V P T : Type} [DecidableEq T] (L : ExprLib E V P T)
    (ln name : GoString) (params : P) (valueTmpl : Option V) (path : GoString) :
    ParseExpr L ln (str "sum(") name params valueTmpl path = .panic ∧
    ParseExpr L ln (str "len(") name params valueTmpl path = .panic ∧
    ParseExpr L ln (str "mean(") name params valueTmpl path = .panic ∧
    ParseExpr L ln (str "std(") name params valueTmpl path = .panic ∧
    ParseExpr L ln (str "top(") name params valueTmpl path = .panic :=
  ⟨rfl, rfl, rfl, rfl, rfl⟩

/-- As long as no library call panics (the govaluate compiler, the evaluation
with `predefinedFunctions`, the compilation and the dry run with the `call`
closure), `ParseExpr` panics on the five bare aggregate prefixes and on nothing
else: every other formula yields an `Expression` or an error. The slices are
the only panic of `ParseExpr` itself. -/
theorem ParseExpr_panic_iff {E V P T : Type} [DecidableEq T] (L : ExprLib E V P T)
    (ln expr name : GoString) (params : P) (valueTmpl : Option V) (path : GoString)
    (hcompile : ∀ t, L.compile t ≠ .panic) (hevaluate : ∀ e, L.evaluate e params ≠ .panic)
    (hcall : ∀ t, L.compileCall t ≠ .panic) (hdry : ∀ e, L.dryRun e path ≠ .panic) :
    ParseExpr L ln expr name params valueTmpl path = .panic ↔
      expr = str "sum(" ∨ expr = str "len(" ∨ expr = str "mean(" ∨ expr = str "std(" ∨
      expr = str "top(" := by
  constructor
  · intro h
    unfold ParseExpr at h
    split at h
    · rename_i hp
      split at h
      · rename_i hs
        have := hasPrefix_length hp
        rw [slice_none_iff] at hs
        exact Or.inl (hasPrefix_eq_of_length hp (by simp only [str] at *; simp at *; omega))
      · exact absurd h (compileScalar_no_panic _ _ _ _ _ _ _ _ hcompile hevaluate)
    · split at h
      · rename_i hp
        split at h
        · rename_i hs
          have := hasPrefix_length hp
          rw [slice_none_iff] at hs
          exact Or.inr (Or.inl
            (hasPrefix_eq_of_length hp (by simp only [str] at *; simp at *; omega)))
        · exact absurd h (compileScalar_no_panic _ _ _ _ _ _ _ _ hcompile hevaluate)
      · split at h
        · rename_i hp
          split at h
          · rename_i hs
            have := hasPrefix_length hp
            rw [slice_none_iff] at hs
            exact Or.inr (Or.inr (Or.inl
              (hasPrefix_eq_of_length hp (by simp only [str] at *; simp at *; omega))))
          · exact absurd h (compileScalar_no_panic _ _ _ _ _ _ _ _ hcompile hevaluate)
        · split at h
          · rename_i hp
            split at h
            · rename_i hs
              have := hasPrefix_length hp
              rw [slice_none_iff] at hs
              exact Or.inr (Or.inr (Or.inr (Or.inl
                (hasPrefix_eq_of_length hp (by simp only [str] at *; simp at *; omega)))))
            · exact absurd h (compileScalar_no_panic _ _ _ _ _ _ _ _ hcompile hevaluate)
          · split at h
            · rename_i hp
              split at h
              · rename_i hs
                have := hasPrefix_length hp
                rw [slice_none_iff] at hs
                exact Or.inr (Or.inr (Or.inr (Or.inr
                  (hasPrefix_eq_of_length hp (by simp only [str] at *; simp at *; omega)))))
              · split at h
                · rename_i hm
                  exact absurd hm (topArguments_no_panic _ _ _)
                · exact absurd h (by simp)
                · exact absurd h (compileScalar_no_panic _ _ _ _ _ _ _ _ hcompile hevaluate)
            · split at h
              · exact absurd h (compileCallExpr_no_panic _ _ _ _ _ hcall hdry)
              · exact absurd h (compileScalar_no_panic _ _ _ _ _ _ _ _ hcompile hevaluate)
  · intro h
    obtain ⟨h1, h2, h3, h4, h5⟩ := prefix_alone_panics L ln name params valueTmpl path
    rcases h with h | h | h | h | h <;> subst h <;> assumption

/-- The library instance `sampleLib` never panics, and `sum(1` is not a bare
prefix: `ParseExpr` does not panic on it. -/
theorem ParseExpr_panic_iff_witness :
    (∀ t, sampleLib.compile t ≠ .panic) ∧ (∀ e, sampleLib.evaluate e () ≠ .panic) ∧
    (∀ t, sampleLib.compileCall t ≠ .panic) ∧ (∀ e, sampleLib.dryRun e [] ≠ .panic) ∧
    (ParseExpr sampleLib (str "7") (str "sum(1") (str "risk") () none [] = .panic ↔
      str "sum(1" = str "sum(" ∨ str "sum(1" = str "len(" ∨ str "sum(1" = str "mean(" ∨
      str "sum(1" = str "std(" ∨ str "sum(1" = str "top(") :=
  have h1 : ∀ t, sampleLib.compile t ≠ .panic := by
    intro t
    simp only [sampleLib]
    split <;> simp
  have h2 : ∀ e, sampleLib.evaluate e () ≠ .panic := by
    intro e
    simp [sampleLib]
  have h3 : ∀ t, sampleLib.compileCall t ≠ .panic := by
    intro t
    simp [sampleLib]
  have h4 : ∀ e, sampleLib.dryRun e [] ≠ .panic := by
    intro e
    simp [sampleLib]
  ⟨h1, h2, h3, h4,
   ParseExpr_panic_iff sampleLib (str "7") (str "sum(1") (str "risk") () none [] h1 h2 h3 h4⟩
/-! ### The handler of a viewer connection -/

theorem Load_Delete_self (m : ClientMap) (k : Int) : (m.Delete k).Load k = none := by
  unfold ClientMap.Load ClientMap.Delete
  rw [List.lookup_eq_none_iff]
  intro e he
  have := (List.mem_filter.mp he).2
  simp only [ne_eq, decide_not, Bool.not_eq_eq_eq_not, Bool.not_true, decide_eq_false_iff_not] at this
  simpa using fun h => this h.symm

theorem Load_Delete_ne (m : ClientMap) (k j : Int) (h : j ≠ k) :
    (m.Delete k).Load j = m.Load j := by
  unfold ClientMap.Load ClientMap.Delete
  induction m with
  | nil => rfl
  | cons e rest ih =>
    obtain ⟨a, c⟩ := e
    by_cases ha : a = k
    · subst ha
      rw [List.filter_cons_of_neg (by simp), ih, List.lookup_cons]
      have : (j == a) = false := by simpa using h
      rw [this]
    · rw [List.filter_cons_of_pos (by simpa using ha), List.lookup_cons, List.lookup_cons, ih]

theorem Load_Store_self (m : ClientMap) (k : Int) (c : Client) : (m.Store k c).Load k = some c := by
  simp [ClientMap.Load, ClientMap.Store, List.lookup_cons]

theorem Load_Store_ne (m : ClientMap) (k j : Int) (c : Client) (h : j ≠ k) :
    (m.Store k c).Load j = m.Load j := by
  unfold ClientMap.Store ClientMap.Load
  rw [List.lookup_cons]
  have : (j == k) = false := by simpa using h
  rw [this]
  exact Load_Delete_ne m k j h

/-- C11: when the transport upgrade fails, `serveClient` returns before the
deferred function with `clients.Delete(n)` is registered, so the registry keeps
the entry it stored under the new token, with a nil queue and a nil transport
handle, whatever the registry was. From process start: one failed upgrade
leaves token 1 in the table, and the next recompute tick blocks for ever sending
on that nil queue. -/
theorem C11_failed_upgrade_leaves_entry :
    (∀ (r : Registry) (reads : List Read),
      (serveClient r .failed reads).2.2 = .returned ∧
      (serveClient r .failed reads).1.clients.Load (serveClient r .failed reads).2.1
        = some { Ch := none, UserId := 0, Conn := none }) ∧
    serveClient Registry.init .failed []
      = ({ clientCounter := 1, clients := [(1, { Ch := none, UserId := 0, Conn := none })] },
         1, .returned) ∧
    riskTick sampleEngine (serveClient Registry.init .failed []).1.clients
      = { effects := [.chanSend none (.json [.string (str "risk"), .null])],
          ending := .blocked } := by
  refine ⟨?_, by decide, by decide⟩
  intro r reads
  refine ⟨rfl, ?_⟩
  simp only [serveClient, register]
  exact Load_Store_self _ _ _

/-- The part of C11 that holds: after a successful upgrade, whenever
`serveClient` returns (a read failed) or panics while handling a message, the
registry holds no entry for the token it allocated, every other token has the
entry it had before, and while the handler runs its entry has a queue and a
transport handle. -/
theorem serveClient_upgraded_cleans_up (r : Registry) (conn ch : Nat) (reads : List Read)
    (hend : readLoop reads ≠ .reading) :
    (serveClient r (.ok conn ch) reads).1.clients.Load (serveClient r (.ok conn ch) reads).2.1
      = none ∧
    (∀ j, j ≠ (serveClient r (.ok conn ch) reads).2.1 →
      (serveClient r (.ok conn ch) reads).1.clients.Load j = r.clients.Load j) ∧
    (∀ pending, readLoop pending = .reading →
      (serveClient r (.ok conn ch) pending).1.clients.Load
        (serveClient r (.ok conn ch) pending).2.1
        = some { Ch := some ch, UserId := 0, Conn := some conn }) := by
  refine ⟨?_, ?_, ?_⟩
  · simp only [serveClient]
    cases h : readLoop reads with
    | reading => exact absurd h hend
    | returned => exact Load_Delete_self _ _
    | panicked => exact Load_Delete_self _ _
  · intro j hj
    have hn : (serveClient r (.ok conn ch) reads).2.1 = (register r).2 := by
      simp only [serveClient]
      cases readLoop reads <;> rfl
    rw [hn] at hj
    simp only [serveClient]
    cases h : readLoop reads with
    | reading => exact absurd h hend
    | returned =>
      simp only [unregister, register] at hj ⊢
      rw [Load_Delete_ne _ _ _ hj, Load_Store_ne _ _ _ _ hj, Load_Store_ne _ _ _ _ hj]
    | panicked =>
      simp only [unregister, register] at hj ⊢
      rw [Load_Delete_ne _ _ _ hj, Load_Store_ne _ _ _ _ hj, Load_Store_ne _ _ _ _ hj]
  · intro pending hp
    simp only [serveClient, hp, register]
    exact Load_Store_self _ _ _

/-- A viewer connects, sends a frame that is not JSON and a login, and the next
read fails: the handler returns and the entry is gone. A viewer whose second
frame saves an `.ini` file with the content `[[` makes `ParseIni`, and with it
the handler, panic: the entry is gone as well. -/
theorem serveClient_upgraded_cleans_up_witness :
    serveClient Registry.init (.ok 11 12)
        [.nonJson, .message [.string (str "login")] false, .error]
      = ({ clientCounter := 1, clients := [] }, 1, .returned) ∧
    (serveClient Registry.init (.ok 11 12)
      [.nonJson, .message [.string (str "login")] false, .error]).1.clients.Load 1 = none ∧
    serveClient Registry.init (.ok 11 12)
        [.message [.string (str "login")] false,
         .message [.string (str "saveRiskFile"), .string (str "a.ini"), .string (str "[[")] false]
      = ({ clientCounter := 1, clients := [] }, 1, .panicked) :=
  ⟨by decide,
   (serveClient_upgraded_cleans_up Registry.init 11 12
     [.nonJson, .message [.string (str "login")] false, .error] (by decide)).1,
   by decide⟩
/-! ### The lists of a section stay tidy -/

theorem Tidy.mono {st : IniState} {i j : Nat} (h : Tidy st i) (hij : i ≤ j) : Tidy st j := by
  refine ⟨h.root, h.names, h.keys, ?_⟩
  intro p sec hp
  obtain ⟨lns, h1, h2, h3⟩ := h.lines p sec hp
  exact ⟨lns, h1, h2, fun l hl => Nat.le_trans (h3 l hl) hij⟩

theorem initState_tidy : Tidy initState 0 := by
  rw [initState_eq]
  have hget : ∀ (p : Nat) (sec : IniSection), [freshSection [] 0 none][p]? = some sec →
      sec = freshSection [] 0 none := by
    intro p sec h
    cases p with
    | zero => simp at h; exact h.symm
    | succ p => simp at h
  refine ⟨⟨freshSection [] 0 none, rfl, rfl, rfl, rfl⟩, ?_, ?_, ?_⟩
  · intro p sec hp
    rw [hget p sec hp]
    simp [freshSection]
  · intro p sec hp
    rw [hget p sec hp]
    simp [freshSection]
  · intro p sec hp
    rw [hget p sec hp]
    exact ⟨[], by simp [freshSection], List.sorted_nil, by simp⟩

/-- Setting a key on line `i + 1` keeps the lists tidy. -/
theorem setValue_tidy {st st2 : IniState} {i : Nat} {a b : GoString}
    (hwf : WellFormed st) (ht : Tidy st i) (h : setValue st (i + 1) a b = .ret st2) :
    Tidy st2 (i + 1) := by
  obtain ⟨cur, hcur, hl, rfl⟩ := setValue_ret h
  obtain ⟨H, s⟩ := st
  simp only at hcur hl ⊢
  have hfresh : ∀ v ∈ cur.Values, v.1 ≠ a := by
    intro v hv hva
    have := (valueMap_lookup hwf.maps hcur a).mpr ⟨v, hv, hva⟩
    rw [hl] at this
    simp at this
  refine ⟨?_, ?_, ?_, ?_⟩
  · obtain ⟨r, hr, h1, h2, h3⟩ := ht.root
    obtain ⟨r2, hr2, _, hp, hd, hn⟩ := addValue_get_old hcur a b (Itoa (i + 1)) 0 r hr
    exact ⟨r2, hr2, by rw [hn, h1], by rw [hd, h2], by rw [hp, h3]⟩
  · intro p sec2 hp
    obtain ⟨sec, hsec, hs, _⟩ := addValue_get_shape hcur a b _ p sec2 hp
    have := ht.names p sec hsec
    simp only at this ⊢
    rw [hs]
    have e : List.map (nameAt (H.set s (addValue cur a b (Itoa (i + 1))))) sec.Sections =
        List.map (nameAt H) sec.Sections :=
      List.map_congr_left (fun c _ => addValue_nameAt hcur a b _ c)
    rw [e]
    exact this
  · intro p sec2 hp
    by_cases hps : p = s
    · subst hps
      rw [addValue_get hcur] at hp
      simp only [if_true, Option.some.injEq] at hp
      subst hp
      have := ht.keys p cur hcur
      simp only [addValue, List.map_append, List.map_cons, List.map_nil]
      rw [List.nodup_append]
      refine ⟨this, List.nodup_singleton _, ?_⟩
      intro x hx hxa
      simp only [List.mem_singleton] at hxa
      subst hxa
      simp only [List.mem_map] at hx
      obtain ⟨v, hv, hva⟩ := hx
      exact hfresh v hv hva
    · obtain ⟨sec, hsec, _, _, _, _, _, hne⟩ := addValue_get_shape hcur a b _ p sec2 hp
      rw [hne hps]
      exact ht.keys p sec hsec
  · intro p sec2 hp
    by_cases hps : p = s
    · subst hps
      rw [addValue_get hcur] at hp
      simp only [if_true, Option.some.injEq] at hp
      subst hp
      obtain ⟨lns, h1, h2, h3⟩ := ht.lines p cur hcur
      refine ⟨lns ++ [i + 1], ?_, ?_, ?_⟩
      · simp [addValue, h1]
      · rw [List.Sorted, List.pairwise_append]
        refine ⟨h2, List.pairwise_singleton _ _, ?_⟩
        intro x hx y hy
        simp only [List.mem_singleton] at hy
        have := h3 x hx
        omega
      · intro l hl
        simp only [List.mem_append, List.mem_singleton] at hl
        rcases hl with hl | hl
        · have := h3 l hl; omega
        · omega
    · obtain ⟨sec, hsec, _, _, _, _, _, hne⟩ := addValue_get_shape hcur a b _ p sec2 hp
      rw [hne hps]
      obtain ⟨lns, h1, h2, h3⟩ := ht.lines p sec hsec
      exact ⟨lns, h1, h2, fun l hl => Nat.le_succ_of_le (h3 l hl)⟩

/-- Opening a section keeps the lists tidy. -/
theorem openSection_tidy {st st2 : IniState} {i ln d : Nat} {name : GoString}
    (hwf : WellFormed st) (ht : Tidy st i) (h : openSection st ln d name = .ret st2) :
    Tidy st2 i := by
  obtain ⟨cur, parent, par, hcur, hd, hw, hpar, hl, rfl⟩ := openSection_ret h
  obtain ⟨H, s⟩ := st
  simp only at hcur hw hpar ⊢
  have hok := hwf.heap
  simp only at hok
  have hnew := newSection_get_new name d hpar
  have hkids : ∀ (p : Nat) (sec : IniSection), H[p]? = some sec →
      ∀ c ∈ sec.Sections, c < H.length := by
    intro p sec hp c hc
    obtain ⟨_, ch, hch, _⟩ := hok.child p sec c hp hc
    exact getElem?_lt hch
  have hnames : ∀ (p : Nat) (sec : IniSection), H[p]? = some sec →
      sec.Sections.map (nameAt (newSection H name d (some parent)).1) =
        sec.Sections.map (nameAt H) := by
    intro p sec hp
    apply List.map_congr_left
    intro c hc
    exact newSection_nameAt_old hpar c (hkids p sec hp c hc)
  have hfresh : ∀ c ∈ par.Sections, nameAt H c ≠ name := by
    intro c hc hcn
    have := (sectionMap_lookup hwf.maps hpar name).mpr ⟨c, hc, hcn⟩
    rw [hl] at this
    simp at this
  refine ⟨?_, ?_, ?_, ?_⟩
  · obtain ⟨r, hr, h1, h2, h3⟩ := ht.root
    obtain ⟨r2, hr2, hp, hd2, hn, _⟩ := newSection_get_old name d hpar 0 r hr
    exact ⟨r2, hr2, by rw [hn, h1], by rw [hd2, h2], by rw [hp, h3]⟩
  · intro p sec2 hp
    rcases newSection_get_shape hpar p sec2 hp with ⟨_, h2⟩ | ⟨h1, h2⟩ | ⟨_, _, h3⟩
    · subst h2
      simp [freshSection]
    · subst h1 h2
      have hold := ht.names p par hpar
      simp only at hold ⊢
      have hn : nameAt (newSection H name d (some p)).1 H.length = name := by
        unfold nameAt; rw [hnew]; rfl
      simp only [adopt, List.map_append, List.map_cons, List.map_nil, hn]
      rw [hnames p par hpar, List.nodup_append]
      refine ⟨hold, List.nodup_singleton _, ?_⟩
      intro x hx hxa
      simp only [List.mem_singleton] at hxa
      subst hxa
      simp only [List.mem_map] at hx
      obtain ⟨c, hc, hcn⟩ := hx
      exact hfresh c hc hcn
    · have hold := ht.names p sec2 h3
      simp only at hold ⊢
      rw [hnames p sec2 h3]
      exact hold
  · intro p sec2 hp
    rcases newSection_get_shape hpar p sec2 hp with ⟨_, h2⟩ | ⟨h1, h2⟩ | ⟨_, _, h3⟩
    · subst h2
      simp [freshSection]
    · subst h1 h2
      exact ht.keys p par hpar
    · exact ht.keys p sec2 h3
  · intro p sec2 hp
    rcases newSection_get_shape hpar p sec2 hp with ⟨_, h2⟩ | ⟨h1, h2⟩ | ⟨_, _, h3⟩
    · subst h2
      exact ⟨[], by simp [freshSection], List.sorted_nil, by simp⟩
    · subst h1 h2
      exact ht.lines p par hpar
    · exact ht.lines p sec2 h3

/-- A run of the loop that returns keeps the lists tidy. -/
theorem parseLines_tidy :
    ∀ (lines : List GoString) (i : Nat) (st st2 : IniState), WellFormed st → Tidy st i →
      parseLines lines i st = .ret st2 → Tidy st2 (i + lines.length) := by
  intro lines
  induction lines with
  | nil =>
    intro i st st2 _ ht h
    simp only [parseLines, Outcome.ret.injEq] at h
    subst h
    exact ht
  | cons l ls ih =>
    intro i st st2 hwf ht h
    rw [parseLines_cons] at h
    have hlen : i + (l :: ls).length = i + 1 + ls.length := by simp; omega
    rw [hlen]
    cases hc : classify l with
    | skip =>
      rw [hc] at h
      simp only [applyLine] at h
      exact ih (i + 1) st st2 hwf (ht.mono (Nat.le_succ i)) h
    | badHeader =>
      rw [hc] at h
      simp [applyLine] at h
    | header d name =>
      rw [hc] at h
      simp only [applyLine] at h
      cases ho : openSection st (i + 1) d name with
      | ret st1 =>
        rw [ho] at h
        exact ih (i + 1) st1 st2 (openSection_wellFormed hwf ho)
          ((openSection_tidy hwf ht ho).mono (Nat.le_succ i)) h
      | fail e => rw [ho] at h; simp at h
      | panic => rw [ho] at h; simp at h
    | keyValue a b =>
      rw [hc] at h
      simp only [applyLine] at h
      cases ho : setValue st (i + 1) a b with
      | ret st1 =>
        rw [ho] at h
        exact ih (i + 1) st1 st2 (setValue_wellFormed hwf ho) (setValue_tidy hwf ht ho) h
      | fail e => rw [ho] at h; simp at h
      | panic => rw [ho] at h; simp at h

/-! ### The returned tree is well formed -/

theorem lookup_of_mem_nodup {α β : Type} [BEq α] [LawfulBEq α] :
    ∀ (l : List (α × β)) (k : α) (v : β), (l.map Prod.fst).Nodup → (k, v) ∈ l →
      l.lookup k = some v := by
  intro l
  induction l with
  | nil => intro k v _ h; simp at h
  | cons e rest ih =>
    intro k v hnd hmem
    obtain ⟨a, b⟩ := e
    simp only [List.map_cons, List.nodup_cons] at hnd
    simp only [List.mem_cons, Prod.mk.injEq] at hmem
    rw [List.lookup_cons]
    rcases hmem with ⟨h1, h2⟩ | hmem
    · subst h1 h2
      simp
    · have hne : (k == a) = false := by
        rw [beq_eq_false_iff_ne]
        intro hka
        subst hka
        exact hnd.1 (List.mem_map.mpr ⟨(k, v), hmem, rfl⟩)
      rw [hne]
      exact ih k v hnd.2 hmem

theorem reachable_get {H : Heap} (hok : HeapOK H) {r : IniSection} (hr : H[0]? = some r) :
    ∀ p, Reachable H 0 p → ∃ S, H[p]? = some S := by
  intro p hp
  induction hp with
  | top => exact ⟨r, hr⟩
  | child q c sec _ hq hc _ =>
    obtain ⟨_, ch, hch, _⟩ := hok.child q sec c hq hc
    exact ⟨ch, hch⟩

/-- Under the loop invariant every section of the heap is sound. -/
theorem sectionSound_of_invariant {st : IniState} {i : Nat} (hwf : WellFormed st)
    (ht : Tidy st i) {p : Nat} {S : IniSection} (hp : st.1[p]? = some S) :
    SectionSound st.1 p S := by
  obtain ⟨m1, m2⟩ := hwf.maps p S hp
  have hnames := ht.names p S hp
  have hkeys := ht.keys p S hp
  refine ⟨?_, hnames, hkeys, ?_, ?_, ?_⟩
  · intro c hc
    obtain ⟨_, C, hC, hpar⟩ := hwf.heap.child p S c hp hc
    obtain ⟨_, par, hpar2, hd, _⟩ := hwf.heap.parent c C p hC hpar
    rw [hp] at hpar2
    injection hpar2 with hpar2
    subst hpar2
    refine ⟨C, hC, hpar, hd, ?_⟩
    rw [m1]
    apply lookup_of_mem_nodup
    · rw [List.map_reverse, List.map_map, List.nodup_reverse]
      exact hnames
    · rw [List.mem_reverse, List.mem_map]
      refine ⟨c, hc, ?_⟩
      simp [nameAt, hC]
  · obtain ⟨lns, h1, h2, _⟩ := ht.lines p S hp
    exact ⟨lns, h1, h2⟩
  · intro k
    exact valueMap_lookup hwf.maps hp k
  · intro v hv
    rw [m2]
    apply lookup_of_mem_nodup
    · rw [List.map_reverse, List.map_map, List.nodup_reverse]
      exact hkeys
    · rw [List.mem_reverse, List.mem_map]
      exact ⟨v, hv, rfl⟩

/-- C12: when `ParseIni` returns a tree, the root has the name `""`, depth 0 and
no parent, and every section `S` reachable from it is sound: each child `C` in
`S.Sections` has `C.Parent = S`, `C.Depth = S.Depth + 1` and
`S.SectionMap[C.Name] = C`, child names are pairwise distinct, `S.Values` lists
pairwise distinct keys in the order of their line numbers, and `S.ValueMap`
holds exactly those keys with `S.ValueMap[k] = (value, line)`. And on every
header line the loop reaches whose name can be cut out and whose depth is
admissible, the walk up `s.Depth - depth + 1` parents ends at a section: it does
not step past the root. -/
theorem C12_tree_well_formed (text : GoString) (H : Heap) (top : Nat)
    (h : ParseIni text = .ret (H, top)) :
    (∃ r, H[top]? = some r ∧ r.Name = [] ∧ r.Depth = 0 ∧ r.Parent = none) ∧
    (∀ p, Reachable H top p → ∃ S, H[p]? = some S ∧ SectionSound H p S) ∧
    (∀ (ln : Nat) (raw : GoString) (st : IniState) (cur : IniSection) (d : Nat)
      (name : GoString), 1 ≤ ln → (Split 10 text)[ln - 1]? = some raw →
      parseLines ((Split 10 text).take (ln - 1)) 0 initState = .ret st →
      st.1[st.2]? = some cur → classify raw = .header d name → d ≤ cur.Depth + 1 →
      ∃ parent par, walkUp st.1 (cur.Depth + 1 - d) st.2 = some parent ∧
        st.1[parent]? = some par) := by
  obtain ⟨htop, s, hrun⟩ := ParseIni_ret h
  subst htop
  have hwf := (parseLines_lines _ 0 initState (H, s) initState_wellFormed hrun).1
  have ht := parseLines_tidy _ 0 initState (H, s) initState_wellFormed initState_tidy hrun
  refine ⟨ht.root, ?_, ?_⟩
  · intro p hp
    obtain ⟨r, hr, _⟩ := ht.root
    obtain ⟨S, hS⟩ := reachable_get hwf.heap hr p hp
    exact ⟨S, hS, sectionSound_of_invariant hwf ht hS⟩
  · intro ln raw st cur d name _ _ hpre hcur hc hd
    have hwf2 := (parseLines_lines _ 0 initState st initState_wellFormed hpre).1
    obtain ⟨hd1, _, _⟩ := classify_header hc
    obtain ⟨parent, hw⟩ :=
      walkUp_exists hwf2.heap (cur.Depth + 1 - d) st.2 cur hcur (by omega)
    obtain ⟨par, hpar, _⟩ := walkUp_some_get hwf2.heap _ st.2 parent cur hcur hw
    exact ⟨parent, par, hw, hpar⟩

/-- C12, witness: the tree of `sampleText`. -/
theorem C12_tree_well_formed_witness :
    ParseIni sampleText = .ret (sampleTree, 0) ∧
    (∃ r, sampleTree[0]? = some r ∧ r.Name = [] ∧ r.Depth = 0 ∧ r.Parent = none) ∧
    (∀ p, Reachable sampleTree 0 p → ∃ S, sampleTree[p]? = some S ∧ SectionSound sampleTree p S) :=
  ⟨by decide, (C12_tree_well_formed sampleText sampleTree 0 (by decide)).1,
   (C12_tree_well_formed sampleText sampleTree 0 (by decide)).2.1⟩

end Risk
